import Mathlib

/-!
# Trapdoor permutation over RSA (`tdp_impl_mbedtls.cpp`), cipher (`cipher.cpp`), PRF

A shallow embedding of the mbedTLS back-end of the trapdoor permutation (forward
evaluation, inversion, k-fold inversion and the pool of power keys, with its copies),
of the symmetric cipher (`Cipher`, `Cipher::CipherImpl`), and of the tests of the PRF.

Conventions of the embedding.

* A byte is a `Fin 256`; a `std::array<uint8_t, kMessageSpaceSize>` or a
  `std::string` is a `List Byte`, whose `length` is the `size()` of the C++ object.
* A big integer (`mbedtls_mpi`, signed) is an `Int`.
* A C++ function that can throw returns `Except Error _`. A function that fills a
  `std::string&` returns the exception thrown, if any, with the string on exit.
* A buffer behind a pointer is the `List Byte` of the bytes allocated there; an access
  past its end is the error `out_of_bounds`.
* Unsigned machine integers are natural numbers reduced modulo `2^32` or `2^64` where
  the code can wrap around.
* The big-integer primitives of the bundled mbedTLS (`mbedtls_mpi_*`,
  `mbedtls_rsa_private`) are not among the sources embedded here; each one is a
  definition whose comment starts with "Modelled from the spec:". The PEM parsers and
  `mbedtls_rsa_check_pubkey` are parameters of the constructors; so are the OpenSSL
  functions `AES_set_encrypt_key` and the key stream of `AES_ctr128_encrypt` for the
  cipher.
* The PRF (`prf.hpp`) is not among the sources embedded here, only its tests
  (`tests/prf_hmac.cpp`) are: `Prf.prf` and HMAC-SHA-512 under it are definitions whose
  comment starts with "Modelled from the spec:"; the test functions are embedded from
  the test file.
* Line numbers refer to `src/tdp_impl/tdp_impl_mbedtls.cpp` unless a file is named.
-/

namespace sse.crypto

/-! ## Bytes, errors and big-endian strings -/

/-- One octet. -/
abbrev Byte := Fin 256

/-- The ways a call can end without a value: the two C++ exception classes thrown by
the code, an access outside an allocated array, and a result buffer that is returned
without ever having been written. -/
inductive Error where
  | invalid_argument
  | runtime_error
  | out_of_bounds (index : Int)
  | indeterminate
  deriving DecidableEq, Repr

deriving instance DecidableEq for Except

/-- Macro `RSA_PK`, line 45: `#define RSA_PK 0x10001L`. -/
def RSA_PK : Int := 0x10001

/-- Value of a byte string read as a big-endian unsigned integer. -/
def be_value (buf : List Byte) : Nat :=
  buf.foldl (fun acc b => acc * 256 + b.val) 0

/-- The `n` low-order base-256 digits of `v`, most significant first. -/
def be_bytes : Nat → Nat → List Byte
  | 0, _ => []
  | n + 1, v => be_bytes n (v / 256) ++ [Fin.ofNat (v % 256)]

/-- Number of base-256 digits of `v` (`fuel` bounds the number of divisions). -/
def byte_count : Nat → Nat → Nat
  | 0, _ => 0
  | fuel + 1, v => if v = 0 then 0 else byte_count fuel (v / 256) + 1

/-! ## Big-integer primitives of the bundled mbedTLS -/

/-- Modelled from the spec: `mbedtls_mpi_size` of the bundled big-integer library, the
byte length of the magnitude of `X` (the spec's `Nlen = ⌈|N|/8⌉` for a modulus). -/
def mbedtls_mpi_size (X : Int) : Nat :=
  byte_count X.natAbs X.natAbs

/-- Modelled from the spec: `mbedtls_mpi_read_binary` of the bundled big-integer library;
TDP inputs are "raw big-endian unsigned integers". -/
def mbedtls_mpi_read_binary (buf : List Byte) : Int :=
  (be_value buf : Int)

/-- Modelled from the spec: `mbedtls_mpi_write_binary` of the bundled big-integer
library: "serialize x to Nlen big-endian bytes". It reports an error (`none`) and writes
nothing when the value needs more than `buflen` bytes. -/
def mbedtls_mpi_write_binary (X : Int) (buflen : Nat) : Option (List Byte) :=
  if buflen < mbedtls_mpi_size X then none else some (be_bytes buflen X.natAbs)

/-- Modelled from the spec: `mbedtls_mpi_mod_mpi` of the bundled big-integer library,
the non-negative remainder `A mod B`; an error (`none`) for a modulus that is not
positive. -/
def mbedtls_mpi_mod_mpi (A B : Int) : Option Int :=
  if B ≤ 0 then none else some (A % B)

/-- Modelled from the spec: `mbedtls_mpi_exp_mod` of the bundled big-integer library,
`A^E mod N`: the "standard modexp routine" that "requires an odd modulus". An error
(`none`) for a modulus that is not positive or is even, and for a negative exponent. -/
def mbedtls_mpi_exp_mod (A E N : Int) : Option Int :=
  if N ≤ 0 ∨ N % 2 = 0 ∨ E < 0 then none else some (A ^ E.toNat % N)

/-- Structure `mbedtls_rsa_context`: the fields of the RSA context the code reads.
`len` is the byte length of the modulus, set when a key is parsed or generated. -/
structure mbedtls_rsa_context where
  len : Nat
  N : Int
  E : Int
  D : Int
  P : Int
  Q : Int
  DP : Int
  DQ : Int
  QP : Int
  deriving DecidableEq, Repr

/-- Function `mbedtls_rsa_init`: the context it leaves, with every field cleared. -/
def mbedtls_rsa_init : mbedtls_rsa_context :=
  ⟨0, 0, 0, 0, 0, 0, 0, 0, 0⟩

/-- Modelled from the spec: `mbedtls_rsa_private` of the bundled library, the "standard
RSA private operation x = y^d mod N"; "inversion requires inputs to be in [0, N)", any
other input is an error (`none`). `input` is the `len` bytes read, the result the `len`
bytes written. -/
def mbedtls_rsa_private (ctx : mbedtls_rsa_context) (input : List Byte) :
    Option (List Byte) :=
  let T := mbedtls_mpi_read_binary input
  if ctx.N ≤ T then none
  else mbedtls_mpi_write_binary (T ^ ctx.D.toNat % ctx.N) ctx.len

/-! ## Forward direction: `TdpImpl_mbedTLS` -/

/-- Class `TdpImpl_mbedTLS`: the object holds one RSA context. -/
structure TdpImpl_mbedTLS where
  rsa_key_ : mbedtls_rsa_context
  deriving DecidableEq, Repr

/-- Constructor `TdpImpl_mbedTLS::TdpImpl_mbedTLS(const std::string& pk)`, lines 71-90.
The PEM parser and the key check of the bundled library are parameters:
`parse_public_key pk = none` stands for a non-zero return of
`mbedtls_rsa_parse_public_key`, `check_pubkey k = false` for a non-zero return of
`mbedtls_rsa_check_pubkey`. -/
def TdpImpl_mbedTLS.ctor (parse_public_key : List Byte → Option mbedtls_rsa_context)
    (check_pubkey : mbedtls_rsa_context → Bool) (pk : List Byte) :
    Except Error TdpImpl_mbedTLS :=
  match parse_public_key pk with
  | none => .error .runtime_error
  | some k =>
    if check_pubkey k = false then .error .runtime_error
    else .ok ⟨k⟩

/-- Function `TdpImpl_mbedTLS::rsa_size`, lines 108-111. -/
@[reducible] def TdpImpl_mbedTLS.rsa_size (t : TdpImpl_mbedTLS) : Nat :=
  t.rsa_key_.len

/-- Function `TdpImpl_mbedTLS::eval` (array overload), lines 169-228. The return value
of the final `mbedtls_mpi_write_binary` is not looked at by the code: when it fails,
`out` is returned as declared, never written. -/
def TdpImpl_mbedTLS.eval (t : TdpImpl_mbedTLS) (inp : List Byte) :
    Except Error (List Byte) :=
  if inp.length ≠ t.rsa_size then .error .runtime_error
  else
    let x := mbedtls_mpi_read_binary inp
    match mbedtls_mpi_mod_mpi x t.rsa_key_.N with
    | none => .error .runtime_error
    | some x =>
      match mbedtls_mpi_exp_mod x t.rsa_key_.E t.rsa_key_.N with
      | none => .error .runtime_error
      | some x =>
        match mbedtls_mpi_write_binary x inp.length with
        | none => .error .indeterminate
        | some out => .ok out

/-- Iteration of `eval`: `eval` applied `k` times. -/
def TdpImpl_mbedTLS.eval_iter (t : TdpImpl_mbedTLS) : Nat → List Byte → Except Error (List Byte)
  | 0, x => .ok x
  | k + 1, x =>
    match t.eval x with
    | .error e => .error e
    | .ok y => t.eval_iter k y

/-- Class `Prf<Tdp::kRSAPrfSize>` (declared in `prf.hpp`): the object holds the key it
was constructed from. -/
structure Prf where
  key_ : List Byte
  deriving DecidableEq, Repr

/-- Class `TdpInverseImpl_mbedTLS`: the RSA context of the base class and the cached
`p - 1`, `q - 1` and `phi`. -/
structure TdpInverseImpl_mbedTLS extends TdpImpl_mbedTLS where
  phi_ : Int
  p_1_ : Int
  q_1_ : Int
  deriving DecidableEq, Repr

/-- Constructor `TdpInverseImpl_mbedTLS::TdpInverseImpl_mbedTLS(const std::string& sk)`,
lines 388-430. `parse_key` and `check_pubkey` stand for `mbedtls_rsa_parse_key` and
`mbedtls_rsa_check_pubkey` as in `TdpImpl_mbedTLS.ctor`. -/
def TdpInverseImpl_mbedTLS.ctor (parse_key : List Byte → Option mbedtls_rsa_context)
    (check_pubkey : mbedtls_rsa_context → Bool) (sk : List Byte) :
    Except Error TdpInverseImpl_mbedTLS :=
  match parse_key sk with
  | none => .error .runtime_error
  | some k =>
    if check_pubkey k = false then .error .runtime_error
    else
      let p_1_ := k.P - 1
      let q_1_ := k.Q - 1
      let phi_ := p_1_ * q_1_
      .ok { rsa_key_ := k, phi_ := phi_, p_1_ := p_1_, q_1_ := q_1_ }

/-- Function `TdpInverseImpl_mbedTLS::invert` (array overload), lines 491-506. The
library call reads `rsa_key_.len` bytes at `in.data()` and writes as many at
`out.data()`; both arrays hold `in.size()` bytes. -/
def TdpInverseImpl_mbedTLS.invert (t : TdpInverseImpl_mbedTLS) (inp : List Byte) :
    Except Error (List Byte) :=
  if inp.length < t.rsa_key_.len then .error (.out_of_bounds inp.length)
  else
    match mbedtls_rsa_private t.rsa_key_ (inp.take t.rsa_key_.len) with
    | none => .error .invalid_argument
    | some out =>
      if t.rsa_key_.len < inp.length then .error .indeterminate
      else .ok out

/-- The `while (exp > 0)` loop of `insecure_mod_exp`, lines 528-536. `exp` is a
`uint64_t` halved at each turn, so 64 turns exhaust it; `fuel` counts the turns left. -/
def insecure_mod_exp_loop (N : Int) : Nat → Int → Int → Nat → Option Int
  | 0, X, _, exp => if exp > 0 then none else some X
  | fuel + 1, X, base, exp =>
    if exp > 0 then
      match (if exp % 2 = 1 then mbedtls_mpi_mod_mpi (X * base) N else some X) with
      | none => none
      | some X =>
        match mbedtls_mpi_mod_mpi (base * base) N with
        | none => none
        | some base => insecure_mod_exp_loop N fuel X base (exp / 2)
    else some X

/-- Function `insecure_mod_exp`, lines 508-542: `none` is a non-zero return code,
`some X` the value left in `X` on return code 0. `E` is a `uint64_t`. -/
def insecure_mod_exp (A : Int) (E : Nat) (N : Int) : Option Int :=
  let exp := E % 2 ^ 64
  let X : Int := 1
  match mbedtls_mpi_mod_mpi A N with
  | none => none
  | some base => insecure_mod_exp_loop N 64 X base exp

/-- The sequence of `MBEDTLS_MPI_CHK` calls of `invert_mult`, lines 612-632: the value
left in `y`, or `none` when one of the calls returns a non-zero code. -/
def TdpInverseImpl_mbedTLS.invert_mult_chk (t : TdpInverseImpl_mbedTLS) (x : Int)
    (order : Nat) : Option Int :=
  match insecure_mod_exp t.rsa_key_.DP order t.p_1_ with
  | none => none
  | some d_p =>
    match insecure_mod_exp t.rsa_key_.DQ order t.q_1_ with
    | none => none
    | some d_q =>
      match mbedtls_mpi_exp_mod x d_p t.rsa_key_.P with
      | none => none
      | some y_p =>
        match mbedtls_mpi_exp_mod x d_q t.rsa_key_.Q with
        | none => none
        | some y_q =>
          let y := y_p - y_q
          let y_p := y * t.rsa_key_.QP
          match mbedtls_mpi_mod_mpi y_p t.rsa_key_.P with
          | none => none
          | some y =>
            let y_p := y * t.rsa_key_.Q
            let y := y_q + y_p
            some y

/-- Function `TdpInverseImpl_mbedTLS::invert_mult` (array overload), lines 544-690.
`order` is a `uint32_t`. -/
def TdpInverseImpl_mbedTLS.invert_mult (t : TdpInverseImpl_mbedTLS) (inp : List Byte)
    (order : Nat) : Except Error (List Byte) :=
  if order = 0 then .ok inp
  else if inp.length ≠ t.rsa_size then .error .invalid_argument
  else
    let x := mbedtls_mpi_read_binary inp
    match t.invert_mult_chk x order with
    | none => .error .runtime_error
    | some y =>
      match mbedtls_mpi_write_binary y inp.length with
      | none => .error .runtime_error
      | some out => .ok out

/-! ## Pool of power keys: `TdpMultPoolImpl_mbedTLS` -/

/-- Read of element `i` of a heap array; an index outside the allocation is reported
as `out_of_bounds`. -/
def array_get (a : List mbedtls_rsa_context) (i : Int) : Except Error mbedtls_rsa_context :=
  if 0 ≤ i ∧ i < a.length then
    match a.get? i.toNat with
    | some v => .ok v
    | none => .error (.out_of_bounds i)
  else .error (.out_of_bounds i)

/-- Write of element `i` of a heap array; an index outside the allocation is reported
as `out_of_bounds`. -/
def array_set (a : List mbedtls_rsa_context) (i : Int) (v : mbedtls_rsa_context) :
    Except Error (List mbedtls_rsa_context) :=
  if 0 ≤ i ∧ i < a.length then .ok (a.set i.toNat v)
  else .error (.out_of_bounds i)

/-- Class `TdpMultPoolImpl_mbedTLS`: the base key, the `uint8_t` count of power keys and
the heap array `keys_` of that many contexts. -/
structure TdpMultPoolImpl_mbedTLS extends TdpImpl_mbedTLS where
  keys_count_ : Nat
  keys_ : List mbedtls_rsa_context
  deriving DecidableEq, Repr

/-- The `for (uint8_t i = 1; i < keys_count_; i++)` loop of the pool constructor,
lines 729-740, entered at counter `i` with `fuel` turns left (a `uint8_t` counter
leaves the loop within 256 turns). -/
def pool_ctor_loop (check_pubkey : mbedtls_rsa_context → Bool) (keys_count_ : Nat) :
    Nat → Nat → List mbedtls_rsa_context → Except Error (List mbedtls_rsa_context)
  | 0, _, keys_ => .ok keys_
  | fuel + 1, i, keys_ =>
    if i < keys_count_ then do
      -- mbedtls_rsa_init(&keys_[i], 0, 0); mbedtls_rsa_copy(&keys_[i], &keys_[i - 1]);
      let keys_ ← array_set keys_ i mbedtls_rsa_init
      let prev ← array_get keys_ ((i : Int) - 1)
      let keys_ ← array_set keys_ i prev
      -- mbedtls_mpi_mul_int(&keys_[i].E, &keys_[i - 1].E, RSA_PK);
      let prev ← array_get keys_ ((i : Int) - 1)
      let cur ← array_get keys_ i
      let keys_ ← array_set keys_ i { cur with E := prev.E * RSA_PK }
      -- mbedtls_rsa_check_pubkey(&keys_[i])
      let cur ← array_get keys_ i
      if check_pubkey cur = false then .error .runtime_error
      else pool_ctor_loop check_pubkey keys_count_ fuel ((i + 1) % 256) keys_
    else .ok keys_

/-- First part of `TdpMultPoolImpl_mbedTLS::TdpMultPoolImpl_mbedTLS(const std::string& sk,
const uint8_t size)`, lines 708-715: the base-class constructor runs first, then the
member initialiser `keys_count_(size - 1)` (reduced to a `uint8_t`), then the test on
`size`. Nothing has been allocated when this part throws. -/
def TdpMultPoolImpl_mbedTLS.ctor_init
    (parse_public_key : List Byte → Option mbedtls_rsa_context)
    (check_pubkey : mbedtls_rsa_context → Bool) (sk : List Byte) (size : Nat) :
    Except Error (TdpImpl_mbedTLS × Nat) :=
  match TdpImpl_mbedTLS.ctor parse_public_key check_pubkey sk with
  | .error e => .error e
  | .ok base =>
    let keys_count_ := (size + 255) % 256
    if size = 0 then .error .invalid_argument
    else .ok (base, keys_count_)

/-- Second part of the pool constructor, lines 717-740:
`new mbedtls_rsa_context[keys_count_]` allocates `keys_count_` contexts, then the first
one and, in the loop, the others are filled. -/
def TdpMultPoolImpl_mbedTLS.ctor_fill (check_pubkey : mbedtls_rsa_context → Bool)
    (base : TdpImpl_mbedTLS) (keys_count_ : Nat) : Except Error TdpMultPoolImpl_mbedTLS := do
  let keys_ := List.replicate keys_count_ mbedtls_rsa_init
  -- mbedtls_rsa_init(keys_, 0, 0); mbedtls_rsa_copy(keys_, &rsa_key_);
  let keys_ ← array_set keys_ 0 mbedtls_rsa_init
  let keys_ ← array_set keys_ 0 base.rsa_key_
  -- mbedtls_mpi_mul_int(&keys_[0].E, &keys_[0].E, RSA_PK);
  let k0 ← array_get keys_ 0
  let keys_ ← array_set keys_ 0 { k0 with E := k0.E * RSA_PK }
  -- mbedtls_rsa_check_pubkey(&keys_[0])
  let k0 ← array_get keys_ 0
  if check_pubkey k0 = false then throw .runtime_error
  let keys_ ← pool_ctor_loop check_pubkey keys_count_ 256 1 keys_
  pure { rsa_key_ := base.rsa_key_, keys_count_ := keys_count_, keys_ := keys_ }

/-- Constructor `TdpMultPoolImpl_mbedTLS::TdpMultPoolImpl_mbedTLS(const std::string& sk,
const uint8_t size)`, lines 708-741. -/
def TdpMultPoolImpl_mbedTLS.ctor (parse_public_key : List Byte → Option mbedtls_rsa_context)
    (check_pubkey : mbedtls_rsa_context → Bool) (sk : List Byte) (size : Nat) :
    Except Error TdpMultPoolImpl_mbedTLS :=
  match TdpMultPoolImpl_mbedTLS.ctor_init parse_public_key check_pubkey sk size with
  | .error e => .error e
  | .ok (base, keys_count_) => TdpMultPoolImpl_mbedTLS.ctor_fill check_pubkey base keys_count_

/-- Function `TdpMultPoolImpl_mbedTLS::maximum_order`, lines 901-904; the result is a
`uint8_t`. -/
def TdpMultPoolImpl_mbedTLS.maximum_order (p : TdpMultPoolImpl_mbedTLS) : Nat :=
  (p.keys_count_ + 1) % 256

/-- The key `eval_pool` points `key` at: the base key or an element of `keys_`. -/
inductive KeyRef where
  | base
  | power (index : Int)
  deriving DecidableEq, Repr

/-- The dispatch on `order` of `eval_pool`, lines 810-822; `order` is a `uint8_t` and
`order - 2` is computed on `int`. -/
def TdpMultPoolImpl_mbedTLS.select_key (p : TdpMultPoolImpl_mbedTLS) (order : Nat) :
    Except Error KeyRef :=
  if order = 1 then .ok .base
  else if order ≤ p.maximum_order then .ok (.power ((order : Int) - 2))
  else .error .invalid_argument

/-- Reading through the `key` pointer. -/
def TdpMultPoolImpl_mbedTLS.deref (p : TdpMultPoolImpl_mbedTLS) :
    KeyRef → Except Error mbedtls_rsa_context
  | .base => .ok p.rsa_key_
  | .power i => array_get p.keys_ i

/-- Function `TdpMultPoolImpl_mbedTLS::eval_pool` (array overload), lines 803-879. The
input is not reduced modulo `N` before the exponentiation, and the return value of
`mbedtls_mpi_write_binary` is not looked at. -/
def TdpMultPoolImpl_mbedTLS.eval_pool (p : TdpMultPoolImpl_mbedTLS) (inp : List Byte)
    (order : Nat) : Except Error (List Byte) := do
  let key ← p.select_key order
  if inp.length ≠ p.rsa_size then throw .runtime_error
  let x := mbedtls_mpi_read_binary inp
  let key ← p.deref key
  match mbedtls_mpi_exp_mod x key.E key.N with
  | none => .error .runtime_error
  | some x =>
    match mbedtls_mpi_write_binary x inp.length with
    | none => .error .indeterminate
    | some out => .ok out

/-- The context the constructor stores at index `j` of `keys_`. -/
def power_key (base : mbedtls_rsa_context) (j : Nat) : mbedtls_rsa_context :=
  { base with E := base.E * RSA_PK ^ (j + 1) }

/-! ## Copies of a pool -/

/-- Constructor `TdpImpl_mbedTLS::TdpImpl_mbedTLS(const TdpImpl_mbedTLS& tdp)`,
lines 92-106: the context is copied, then checked. -/
def TdpImpl_mbedTLS.copy_ctor (check_pubkey : mbedtls_rsa_context → Bool)
    (tdp : TdpImpl_mbedTLS) : Except Error TdpImpl_mbedTLS :=
  let rsa_key_ := tdp.rsa_key_
  if check_pubkey rsa_key_ = false then .error .runtime_error
  else .ok ⟨rsa_key_⟩

/-- The loop `for (uint8_t i = 0; i < keys_count_; i++)` that copies the power keys of
`src`, in the copy constructor (lines 749-760) and in the assignment (lines 779-789),
entered at counter `i` with `fuel` turns left. -/
def pool_copy_loop (check_pubkey : mbedtls_rsa_context → Bool)
    (src : List mbedtls_rsa_context) (keys_count_ : Nat) :
    Nat → Nat → List mbedtls_rsa_context → Except Error (List mbedtls_rsa_context)
  | 0, _, keys_ => .ok keys_
  | fuel + 1, i, keys_ =>
    if i < keys_count_ then do
      -- mbedtls_rsa_init(&keys_[i], 0, 0);
      let keys_ ← array_set keys_ i mbedtls_rsa_init
      -- mbedtls_rsa_copy(&keys_[i], &src.keys_[i]);
      let k ← array_get src i
      let keys_ ← array_set keys_ i k
      -- mbedtls_rsa_check_pubkey(&keys_[i])
      let cur ← array_get keys_ i
      if check_pubkey cur = false then .error .runtime_error
      else pool_copy_loop check_pubkey src keys_count_ fuel ((i + 1) % 256) keys_
    else .ok keys_

/-- Constructor `TdpMultPoolImpl_mbedTLS::TdpMultPoolImpl_mbedTLS(
const TdpMultPoolImpl_mbedTLS& pool_impl)`, lines 743-761. -/
def TdpMultPoolImpl_mbedTLS.copy_ctor (check_pubkey : mbedtls_rsa_context → Bool)
    (pool_impl : TdpMultPoolImpl_mbedTLS) : Except Error TdpMultPoolImpl_mbedTLS := do
  let base ← TdpImpl_mbedTLS.copy_ctor check_pubkey pool_impl.toTdpImpl_mbedTLS
  let keys_count_ := pool_impl.keys_count_
  let keys_ := List.replicate keys_count_ mbedtls_rsa_init
  let keys_ ← pool_copy_loop check_pubkey pool_impl.keys_ keys_count_ 256 0 keys_
  pure { rsa_key_ := base.rsa_key_, keys_count_ := keys_count_, keys_ := keys_ }

/-- The loop of the assignment that wipes and frees the power keys held so far,
lines 767-770, entered at counter `i` with `fuel` turns left. -/
def pool_wipe_loop (keys_count_ : Nat) :
    Nat → Nat → List mbedtls_rsa_context → Except Error (List mbedtls_rsa_context)
  | 0, _, keys_ => .ok keys_
  | fuel + 1, i, keys_ =>
    if i < keys_count_ then do
      -- zeroize_rsa(&keys_[i]); mbedtls_rsa_free(&keys_[i]);
      let keys_ ← array_set keys_ i mbedtls_rsa_init
      pool_wipe_loop keys_count_ fuel ((i + 1) % 256) keys_
    else .ok keys_

/-- Function `TdpMultPoolImpl_mbedTLS::operator=`, lines 763-792, for `this != &t`
(a self-assignment returns the object untouched). `self` is the object assigned to;
the result is the object after the assignment. The member `rsa_key_` of the base class
is not written. -/
def TdpMultPoolImpl_mbedTLS.assign (check_pubkey : mbedtls_rsa_context → Bool)
    (self t : TdpMultPoolImpl_mbedTLS) : Except Error TdpMultPoolImpl_mbedTLS := do
  let keys_ ← pool_wipe_loop self.keys_count_ 256 0 self.keys_
  let realloc := decide (self.keys_count_ ≠ t.keys_count_)
  -- delete[] keys_; keys_count_ = t.keys_count_; keys_ = new mbedtls_rsa_context[keys_count_];
  let keys_count_ := if realloc then t.keys_count_ else self.keys_count_
  let keys_ := if realloc then List.replicate keys_count_ mbedtls_rsa_init else keys_
  let keys_ ← pool_copy_loop check_pubkey t.keys_ keys_count_ 256 0 keys_
  pure { rsa_key_ := self.rsa_key_, keys_count_ := keys_count_, keys_ := keys_ }

/-! ## Buffers and the string overload of `eval` -/

/-- Read of `n` bytes at offset `off` of a buffer of `buf.length` bytes (`memcpy` from
the buffer); a read that runs past the end is reported as `out_of_bounds` at the last
offset read. -/
def buf_read (buf : List Byte) (off n : Nat) : Except Error (List Byte) :=
  if n = 0 then .ok []
  else if off + n ≤ buf.length then .ok ((buf.drop off).take n)
  else .error (.out_of_bounds ((off + n - 1 : Nat) : Int))

/-- Write of `data` at offset `off` of a buffer of `buf.length` bytes (`memcpy` into the
buffer); a write that runs past the end is reported as `out_of_bounds` at the last
offset written. -/
def buf_write (buf : List Byte) (off : Nat) (data : List Byte) : Except Error (List Byte) :=
  if data.length = 0 then .ok buf
  else if off + data.length ≤ buf.length then
    .ok (buf.take off ++ data ++ buf.drop (off + data.length))
  else .error (.out_of_bounds ((off + data.length - 1 : Nat) : Int))

/-- Function `std::string::resize(n)`: the string cut to `n` bytes, or padded with zero
bytes up to `n`. -/
def string_resize (s : List Byte) (n : Nat) : List Byte :=
  s.take n ++ List.replicate (n - s.length) 0

/-- Function `TdpImpl_mbedTLS::eval` (string overload), lines 148-167.
`kMessageSpaceSize` is the length of the arrays, declared outside the sources embedded
here. The result is the exception thrown, if any, and the value of `out` on exit. -/
def TdpImpl_mbedTLS.eval_string (kMessageSpaceSize : Nat) (t : TdpImpl_mbedTLS)
    (inp out : List Byte) : Option Error × List Byte :=
  if inp.length ≠ t.rsa_size then (some .invalid_argument, out)
  else
    -- memcpy(in_array.data(), in.data(), kMessageSpaceSize);
    match buf_read inp 0 kMessageSpaceSize with
    | .error e => (some e, out)
    | .ok in_array =>
      match t.eval in_array with
      | .error e => (some e, out)
      | .ok out_array => (none, out_array)

/-! ## String overloads of the private direction and of the pool, `sample` -/

/-- Function `TdpInverseImpl_mbedTLS::invert` (string overload), lines 463-489.
`rsa_private` stands for the call of `mbedtls_rsa_private`, which reads `rsa_key_.len`
bytes at `in.data()` and writes as many to the array `rsa_out` of `rsa_size()` bytes
(`none`: a non-zero return). The result is the exception thrown, if any, and the string
`out` on exit. -/
def TdpInverseImpl_mbedTLS.invert_string
    (rsa_private : mbedtls_rsa_context → List Byte → Option (List Byte))
    (t : TdpInverseImpl_mbedTLS) (inp out : List Byte) : Option Error × List Byte :=
  if inp.length ≠ t.rsa_size then (some .invalid_argument, out)
  else
    match rsa_private t.rsa_key_ (inp.take t.rsa_key_.len) with
    | none => (some .invalid_argument, out)
    | some rsa_out => (none, rsa_out.take t.rsa_size)

/-- The CRT recombination inside `invert_mult`, lines 615-627, from the two residues
`y_p` and `y_q`: the value left in `y`, or `none` when a call returns a non-zero code. -/
def TdpInverseImpl_mbedTLS.invert_mult_crt (t : TdpInverseImpl_mbedTLS) (y_p y_q : Int) :
    Option Int :=
  -- Y = (YP - YQ) * (Q^-1 mod P) mod P
  let y := y_p - y_q
  let y_p := y * t.rsa_key_.QP
  match mbedtls_mpi_mod_mpi y_p t.rsa_key_.P with
  | none => none
  | some y =>
    -- Y = YQ + Y * Q
    let y_p := y * t.rsa_key_.Q
    let y := y_q + y_p
    some y

/-- Function `TdpInverseImpl_mbedTLS::invert_mult` (string overload), lines 692-705:
`memcpy` of `kMessageSpaceSize` bytes from `in.data()`, the array overload, then the
assignment of `out`. -/
def TdpInverseImpl_mbedTLS.invert_mult_string (kMessageSpaceSize : Nat)
    (t : TdpInverseImpl_mbedTLS) (inp out : List Byte) (order : Nat) :
    Option Error × List Byte :=
  match buf_read inp 0 kMessageSpaceSize with
  | .error e => (some e, out)
  | .ok in_array =>
    match t.invert_mult in_array order with
    | .error e => (some e, out)
    | .ok out_array => (none, out_array)

/-- Function `TdpMultPoolImpl_mbedTLS::eval_pool` (string overload), lines 882-899. -/
def TdpMultPoolImpl_mbedTLS.eval_pool_string (kMessageSpaceSize : Nat)
    (p : TdpMultPoolImpl_mbedTLS) (inp out : List Byte) (order : Nat) :
    Option Error × List Byte :=
  if inp.length ≠ p.rsa_size then (some .invalid_argument, out)
  else
    match buf_read inp 0 kMessageSpaceSize with
    | .error e => (some e, out)
    | .ok a_in =>
      match p.eval_pool a_in order with
      | .error e => (some e, out)
      | .ok a_out => (none, a_out)

/-- Constant `Cipher::kKeySize`, `cipher.hpp` line 49. -/
def Cipher.kKeySize : Nat := 32

/-- Constant `Cipher::kCiphertextExpansion`, `cipher.hpp` line 51. -/
def Cipher.kCiphertextExpansion : Nat := 32

/-- Function `Cipher::ciphertext_length`, `cipher.hpp` lines 118-122, on a 64-bit
`size_t`. -/
def Cipher.ciphertext_length (plaintext_len : Nat) : Nat :=
  (plaintext_len + Cipher.kCiphertextExpansion) % 2 ^ 64

/-- Function `Cipher::plaintext_length`, `cipher.hpp` lines 136-140. -/
def Cipher.plaintext_length (c_len : Nat) : Nat :=
  if c_len > Cipher.kCiphertextExpansion then c_len - Cipher.kCiphertextExpansion else 0

/-- Constant `Cipher::CipherImpl::kIVSize`, `cipher.cpp` line 24. -/
def Cipher.CipherImpl.kIVSize : Nat := 6

/-- Constant `AES_BLOCK_SIZE` of OpenSSL. -/
def AES_BLOCK_SIZE : Nat := 16

/-- Macro `MIN`, `cipher.cpp` line 93. -/
def MIN (a b : Nat) : Nat := if a > b then b else a

/-- Class `Cipher::CipherImpl`, `cipher.cpp` lines 18-46: the AES key schedule, the
array `iv_` of `kIVSize` bytes and the 64-bit count of blocks left. -/
structure Cipher.CipherImpl where
  aes_enc_key_ : List Byte
  iv_ : List Byte
  remaining_block_count_ : Nat
  deriving DecidableEq, Repr

/-- Function `Cipher::CipherImpl::gen_subkeys`, `cipher.cpp` lines 94-106.
`AES_set_encrypt_key` is the OpenSSL function at 128 bits: the key schedule it builds
from the bytes at `userKey`, or `none` for a non-zero return. -/
def Cipher.CipherImpl.gen_subkeys (AES_set_encrypt_key : List Byte → Option (List Byte))
    (c : Cipher.CipherImpl) (userKey : List Byte) : Except Error Cipher.CipherImpl :=
  match AES_set_encrypt_key userKey with
  | none => .error .runtime_error
  | some key =>
    .ok { c with
      aes_enc_key_ := key
      remaining_block_count_ := (1 * 2 ^ MIN 48 (8 * Cipher.CipherImpl.kIVSize)) % 2 ^ 64 }

/-- Function `Cipher::CipherImpl::reset_iv`, `cipher.cpp` lines 108-111. -/
def Cipher.CipherImpl.reset_iv (c : Cipher.CipherImpl) : Cipher.CipherImpl :=
  { c with iv_ := List.replicate Cipher.CipherImpl.kIVSize 0 }

/-- Constructor `Cipher::CipherImpl::CipherImpl(const std::array<uint8_t,kKeySize>& k)`,
`cipher.cpp` lines 81-85. No member has an initialiser: `uninit` is the indeterminate
content of the object when the body starts, on which the two calls work. -/
def Cipher.CipherImpl.ctor (AES_set_encrypt_key : List Byte → Option (List Byte))
    (uninit : Cipher.CipherImpl) (k : List Byte) : Except Error Cipher.CipherImpl :=
  match uninit.gen_subkeys AES_set_encrypt_key k with
  | .error e => .error e
  | .ok c => .ok c.reset_iv

/-- The bytes of `l` XORed with the key stream `ks`, from position `i` on. -/
def ctr_xor (ks : Nat → Byte) : Nat → List Byte → List Byte
  | _, [] => []
  | i, b :: bs => (b ^^^ ks i) :: ctr_xor ks (i + 1) bs

/-- Function `AES_ctr128_encrypt` of OpenSSL, called with `ecount_buf` zeroed and
`num = 0`: `len` bytes read at offset `in_off` of `inp` are XORed with the key stream and
written at offset `out_off` of `out`. `keystream key ivec i` is byte `i` of the key
stream of AES in counter mode for the key schedule `key` and the first counter block
`ivec`; it is a parameter of the embedding. -/
def AES_ctr128_encrypt (keystream : List Byte → List Byte → Nat → Byte)
    (inp : List Byte) (in_off : Nat) (out : List Byte) (out_off : Nat) (len : Nat)
    (key ivec : List Byte) : Except Error (List Byte) :=
  match buf_read inp in_off len with
  | .error e => .error e
  | .ok src => buf_write out out_off (ctr_xor (keystream key ivec) 0 src)

/-- Function `Cipher::CipherImpl::encrypt` (pointer overload), `cipher.cpp` lines 113-141.
`inp` and `out` are the buffers behind the two pointers; the result is the object and
the buffer `out` after the call. -/
def Cipher.CipherImpl.encrypt_raw (keystream : List Byte → List Byte → Nat → Byte)
    (c : Cipher.CipherImpl) (inp : List Byte) (len : Nat) (out : List Byte) :
    Except Error (Cipher.CipherImpl × List Byte) :=
  if c.remaining_block_count_ < len / 16 then .error .runtime_error
  else
    -- memcpy(out, iv_, kIVSize);
    match buf_write out 0 c.iv_ with
    | .error e => .error e
    | .ok out =>
      -- memset(enc_iv, 0, AES_BLOCK_SIZE); memcpy(enc_iv+AES_BLOCK_SIZE-kIVSize, iv_, kIVSize);
      let enc_iv := List.replicate (AES_BLOCK_SIZE - Cipher.CipherImpl.kIVSize) 0 ++ c.iv_
      match AES_ctr128_encrypt keystream inp 0 out Cipher.CipherImpl.kIVSize len
          c.aes_enc_key_ enc_iv with
      | .error e => .error e
      | .ok out =>
        .ok ({ c with remaining_block_count_ := c.remaining_block_count_ - len / 16 }, out)

/-- Function `Cipher::CipherImpl::encrypt` (string overload), `cipher.cpp` lines 143-148.
`len` is an `unsigned int`. The result is the exception thrown, if any, the object and
the string `out` on exit. -/
def Cipher.CipherImpl.encrypt (keystream : List Byte → List Byte → Nat → Byte)
    (c : Cipher.CipherImpl) (inp out : List Byte) :
    Option Error × Cipher.CipherImpl × List Byte :=
  let len := inp.length % 2 ^ 32
  let out := string_resize out ((len + Cipher.CipherImpl.kIVSize) % 2 ^ 32)
  match c.encrypt_raw keystream inp len out with
  | .error e => (some e, c, out)
  | .ok (c, out) => (none, c, out)

/-- Function `Cipher::CipherImpl::decrypt` (pointer overload), `cipher.cpp` lines 150-168. -/
def Cipher.CipherImpl.decrypt_raw (keystream : List Byte → List Byte → Nat → Byte)
    (c : Cipher.CipherImpl) (inp : List Byte) (len : Nat) (out : List Byte) :
    Except Error (List Byte) :=
  -- memset(dec_iv, 0, AES_BLOCK_SIZE); memcpy(dec_iv+AES_BLOCK_SIZE-kIVSize, in, kIVSize);
  match buf_read inp 0 Cipher.CipherImpl.kIVSize with
  | .error e => .error e
  | .ok iv =>
    let dec_iv := List.replicate (AES_BLOCK_SIZE - Cipher.CipherImpl.kIVSize) 0 ++ iv
    AES_ctr128_encrypt keystream inp Cipher.CipherImpl.kIVSize out 0 len c.aes_enc_key_ dec_iv

/-- Function `Cipher::CipherImpl::decrypt` (string overload), `cipher.cpp` lines 170-175.
`len` is an `unsigned int`, so `len - kIVSize` is computed modulo `2^32`. The result is
the exception thrown, if any, and the string `out` on exit. -/
def Cipher.CipherImpl.decrypt (keystream : List Byte → List Byte → Nat → Byte)
    (c : Cipher.CipherImpl) (inp out : List Byte) : Option Error × List Byte :=
  let len := inp.length % 2 ^ 32
  let out := string_resize out ((len + 2 ^ 32 - Cipher.CipherImpl.kIVSize) % 2 ^ 32)
  match c.decrypt_raw keystream inp len out with
  | .error e => (some e, out)
  | .ok out => (none, out)

/-- Class `Cipher`, `cipher.cpp` lines 49-69: the object owns a `CipherImpl`. -/
structure Cipher where
  cipher_imp_ : Cipher.CipherImpl
  deriving DecidableEq, Repr

/-- Function `Cipher::encrypt`, `cipher.cpp` lines 62-65. -/
def Cipher.encrypt (keystream : List Byte → List Byte → Nat → Byte) (c : Cipher)
    (inp out : List Byte) : Option Error × Cipher × List Byte :=
  let r := c.cipher_imp_.encrypt keystream inp out
  (r.1, ⟨r.2.1⟩, r.2.2)

/-- Function `Cipher::decrypt`, `cipher.cpp` lines 66-69. -/
def Cipher.decrypt (keystream : List Byte → List Byte → Nat → Byte) (c : Cipher)
    (inp out : List Byte) : Option Error × List Byte :=
  c.cipher_imp_.decrypt keystream inp out

/-! ## Cipher: state on exit and sequences of calls -/

/-- Function `Cipher::CipherImpl::encrypt` (pointer overload), `cipher.cpp` lines
113-141, with the state it leaves: the exception thrown, if any, the object and the
buffer `out` when the call is left. `encrypt_raw` is its outcome. -/
def Cipher.CipherImpl.encrypt_raw_exit (keystream : List Byte → List Byte → Nat → Byte)
    (c : Cipher.CipherImpl) (inp : List Byte) (len : Nat) (out : List Byte) :
    Option Error × Cipher.CipherImpl × List Byte :=
  if c.remaining_block_count_ < len / 16 then (some .runtime_error, c, out)
  else
    -- memcpy(out, iv_, kIVSize);
    match buf_write out 0 c.iv_ with
    | .error e => (some e, c, out)
    | .ok out =>
      let enc_iv := List.replicate (AES_BLOCK_SIZE - Cipher.CipherImpl.kIVSize) 0 ++ c.iv_
      match AES_ctr128_encrypt keystream inp 0 out Cipher.CipherImpl.kIVSize len
          c.aes_enc_key_ enc_iv with
      | .error e => (some e, c, out)
      | .ok out =>
        (none, { c with remaining_block_count_ := (c.remaining_block_count_ - len / 16) }, out)

/-- A sequence of calls of the string overload of `encrypt` on one object, one call per
pair (plaintext, initial content of `out`): the object after the calls and, in call
order, what each call left (the exception thrown, if any, and `out`). -/
def Cipher.CipherImpl.encrypt_seq (keystream : List Byte → List Byte → Nat → Byte) :
    Cipher.CipherImpl → List (List Byte × List Byte) →
      Cipher.CipherImpl × List (Option Error × List Byte)
  | c, [] => (c, [])
  | c, (P, out) :: calls =>
    let r := c.encrypt keystream P out
    let rest := Cipher.CipherImpl.encrypt_seq keystream r.2.1 calls
    (rest.1, (r.1, r.2.2) :: rest.2)

/-- Number of 16-byte counter blocks whose key stream `AES_ctr128_encrypt` uses for `len`
bytes, a last partial block included. -/
def ctr_blocks (len : Nat) : Nat := (len + 15) / 16

/-- Total number of counter blocks used by the successful calls of a sequence: `calls`
are the calls and `results` what each one left. -/
def blocks_consumed : List (List Byte × List Byte) → List (Option Error × List Byte) → Nat
  | (P, _) :: calls, r :: results =>
    (if r.1 = none then ctr_blocks P.length else 0) + blocks_consumed calls results
  | _, _ => 0

/-! ## PRF over HMAC-SHA-512 (`prf.hpp`, tested by `tests/prf_hmac.cpp`) -/

/-- Rotation of a 64-bit word to the right by `n` bits. -/
def rotr64 (x n : Nat) : Nat :=
  (x >>> n ||| x <<< (64 - n)) % 2 ^ 64

/-- Largest `r` in `[lo, hi)` with `r ^ k ≤ n`, by bisection; `fuel` bounds the number
of halvings. -/
def iroot_loop (k n : Nat) : Nat → Nat → Nat → Nat
  | 0, lo, _ => lo
  | fuel + 1, lo, hi =>
    if hi ≤ lo + 1 then lo
    else
      let mid := (lo + hi) / 2
      if mid ^ k ≤ n then iroot_loop k n fuel mid hi else iroot_loop k n fuel lo mid

/-- Integer part of the `k`-th root of `n`, for a root below `2 ^ bits`. -/
def iroot (k bits n : Nat) : Nat :=
  iroot_loop k n (bits + 1) 0 (2 ^ bits)

/-- The first eighty prime numbers. -/
def sha512_primes : List Nat :=
  [2, 3, 5, 7, 11, 13, 17, 19, 23, 29, 31, 37, 41, 43, 47, 53, 59, 61, 67, 71, 73, 79, 83, 89,
   97, 101, 103, 107, 109, 113, 127, 131, 137, 139, 149, 151, 157, 163, 167, 173, 179, 181,
   191, 193, 197, 199, 211, 223, 227, 229, 233, 239, 241, 251, 257, 263, 269, 271, 277, 281,
   283, 293, 307, 311, 313, 317, 331, 337, 347, 349, 353, 359, 367, 373, 379, 383, 389, 397,
   401, 409]

/-- Modelled from the spec: the round constants of SHA-512, the hash under the spec's
"HMAC-SHA-512": the first 64 bits of the fractional parts of the cube roots of the
first eighty primes. -/
def sha512_K : List Nat :=
  sha512_primes.map (fun p => iroot 3 68 (p * 2 ^ 192) % 2 ^ 64)

/-- Modelled from the spec: the initial hash value of SHA-512: the first 64 bits of the
fractional parts of the square roots of the first eight primes. -/
def sha512_H0 : List Nat :=
  (sha512_primes.take 8).map (fun p => iroot 2 68 (p * 2 ^ 128) % 2 ^ 64)

/-- Modelled from the spec: the message schedule of SHA-512. `w` holds the words
computed so far, the latest first; `n` more words are added. -/
def sha512_schedule : Nat → List Nat → List Nat
  | 0, w => w
  | n + 1, w =>
    let w2 := w.getD 1 0
    let w7 := w.getD 6 0
    let w15 := w.getD 14 0
    let w16 := w.getD 15 0
    let s0 := rotr64 w15 1 ^^^ rotr64 w15 8 ^^^ (w15 >>> 7)
    let s1 := rotr64 w2 19 ^^^ rotr64 w2 61 ^^^ (w2 >>> 6)
    sha512_schedule n (((s1 + w7 + s0 + w16) % 2 ^ 64) :: w)

/-- Modelled from the spec: one round of the SHA-512 compression function on the working
variables `[a, b, c, d, e, f, g, h]`, with round constant `k` and schedule word `w`. -/
def sha512_round (v : List Nat) (k w : Nat) : List Nat :=
  match v with
  | [a, b, c, d, e, f, g, h] =>
    let S1 := rotr64 e 14 ^^^ rotr64 e 18 ^^^ rotr64 e 41
    let ch := (e &&& f) ^^^ ((e ^^^ (2 ^ 64 - 1)) &&& g)
    let t1 := (h + S1 + ch + k + w) % 2 ^ 64
    let S0 := rotr64 a 28 ^^^ rotr64 a 34 ^^^ rotr64 a 39
    let mj := (a &&& b) ^^^ (a &&& c) ^^^ (b &&& c)
    let t2 := (S0 + mj) % 2 ^ 64
    [(t1 + t2) % 2 ^ 64, a, b, c, (d + t1) % 2 ^ 64, e, f, g]
  | _ => v

/-- Modelled from the spec: the 80 rounds over the constants and the schedule. -/
def sha512_rounds : List Nat → List Nat → List Nat → List Nat
  | v, k :: ks, w :: ws => sha512_rounds (sha512_round v k w) ks ws
  | v, _, _ => v

/-- The 64-bit words of a byte string, 8 bytes each, big-endian. -/
def be_words : Nat → List Byte → List Nat
  | 0, _ => []
  | n + 1, bs => be_value (bs.take 8) :: be_words n (bs.drop 8)

/-- Modelled from the spec: the SHA-512 compression function, from the hash value `H`
and one block of 128 bytes to the next hash value. -/
def sha512_compress (H : List Nat) (block : List Byte) : List Nat :=
  let w := (sha512_schedule 64 (be_words 16 block).reverse).reverse
  let v := sha512_rounds H sha512_K w
  List.zipWith (fun x y => (x + y) % 2 ^ 64) H v

/-- Modelled from the spec: the compression function over `n` successive blocks. -/
def sha512_blocks : Nat → List Nat → List Byte → List Nat
  | 0, H, _ => H
  | n + 1, H, m => sha512_blocks n (sha512_compress H (m.take 128)) (m.drop 128)

/-- Modelled from the spec: the padding of SHA-512: the byte `0x80`, zero bytes up to
112 modulo 128, then the bit length on 16 bytes. -/
def sha512_pad (msg : List Byte) : List Byte :=
  msg ++ [0x80] ++ List.replicate ((256 - (msg.length + 1 + 16) % 128) % 128) 0
    ++ be_bytes 16 (8 * msg.length)

/-- Modelled from the spec: SHA-512 of a byte string, 64 bytes. -/
def sha512 (msg : List Byte) : List Byte :=
  let m := sha512_pad msg
  ((sha512_blocks (m.length / 128) sha512_H0 m).map (be_bytes 8)).flatten

/-- Modelled from the spec: HMAC (RFC 2104) over SHA-512, block size 128 bytes: a key
longer than a block is hashed first, then padded with zero bytes. -/
def hmac_sha512 (key msg : List Byte) : List Byte :=
  let k := if key.length > 128 then sha512 key else key
  let k := k ++ List.replicate (128 - k.length) 0
  let ipad := k.map (fun b => b ^^^ 0x36)
  let opad := k.map (fun b => b ^^^ 0x5c)
  sha512 (opad ++ sha512 (ipad ++ msg))

/-- Modelled from the spec: constant `Prf<L>::kKeySize` of `prf.hpp`; the PRF "holds a
32-byte key". -/
def Prf.kKeySize : Nat := 32

/-- Modelled from the spec: constructor `Prf<L>::Prf(const void* k, const uint8_t& len)`
of `prf.hpp`, as the tests call it: the object holds the `len` bytes read at `k`. -/
def Prf.ctor (k : List Byte) (len : Nat) : Prf :=
  ⟨k.take len⟩

/-- Modelled from the spec: `Prf<L>::prf` of `prf.hpp`. "HMAC-SHA-512 with the PRF key;
if the requested output length L ≤ 64, return the leftmost L bytes; otherwise produce
output by counter-mode expansion": block `i` is HMAC-SHA-512 of the input followed by
`i` on 4 bytes, big-endian; the first `⌈L/64⌉` blocks are concatenated and truncated to
`L` bytes. -/
def Prf.prf (L : Nat) (p : Prf) (input : List Byte) : List Byte :=
  if L ≤ 64 then (hmac_sha512 p.key_ input).take L
  else
    (((List.range ((L + 63) / 64)).map
      (fun i => hmac_sha512 p.key_ (input ++ be_bytes 4 i))).flatten).take L

/-- Function `hmac_test_case_1`, `tests/prf_hmac.cpp` lines 18-57: `true` when the test
passes. -/
def hmac_test_case_1 : Bool :=
  let k : List Byte := List.replicate Prf.kKeySize 0x0b
  let key_64 := Prf.ctor k 20
  -- string in = "Hi There";
  let inp : List Byte := [0x48, 0x69, 0x20, 0x54, 0x68, 0x65, 0x72, 0x65]
  let result_64 := key_64.prf 64 inp
  let reference : List Byte := [
    0x87, 0xaa, 0x7c, 0xde, 0xa5, 0xef, 0x61, 0x9d, 0x4f, 0xf0, 0xb4, 0x24, 0x1a, 0x1d, 0x6c, 0xb0,
    0x23, 0x79, 0xf4, 0xe2, 0xce, 0x4e, 0xc2, 0x78, 0x7a, 0xd0, 0xb3, 0x05, 0x45, 0xe1, 0x7c, 0xde,
    0xda, 0xa8, 0x33, 0xb7, 0xd6, 0xb8, 0xa7, 0x02, 0x03, 0x8b, 0x27, 0x4e, 0xae, 0xa3, 0xf4, 0xe4,
    0xbe, 0x9d, 0x91, 0x4e, 0xeb, 0x61, 0xf1, 0x70, 0x2e, 0x69, 0x6c, 0x20, 0x3a, 0x12, 0x68, 0x54]
  if result_64 ≠ reference then false else true

/-- Function `hmac_test_case_2`, `tests/prf_hmac.cpp` lines 59-101. -/
def hmac_test_case_2 : Bool :=
  let k : List Byte := [0x4a, 0x65, 0x66, 0x65]
  let key_64 := Prf.ctor k 4
  let inp : List Byte := [
    0x77, 0x68, 0x61, 0x74, 0x20, 0x64, 0x6f, 0x20, 0x79, 0x61, 0x20, 0x77, 0x61, 0x6e, 0x74, 0x20,
    0x66, 0x6f, 0x72, 0x20, 0x6e, 0x6f, 0x74, 0x68, 0x69, 0x6e, 0x67, 0x3f]
  let result_64 := key_64.prf 64 (inp.take 28)
  let reference : List Byte := [
    0x16, 0x4b, 0x7a, 0x7b, 0xfc, 0xf8, 0x19, 0xe2, 0xe3, 0x95, 0xfb, 0xe7, 0x3b, 0x56, 0xe0, 0xa3,
    0x87, 0xbd, 0x64, 0x22, 0x2e, 0x83, 0x1f, 0xd6, 0x10, 0x27, 0x0c, 0xd7, 0xea, 0x25, 0x05, 0x54,
    0x97, 0x58, 0xbf, 0x75, 0xc0, 0x5a, 0x99, 0x4a, 0x6d, 0x03, 0x4f, 0x65, 0xf8, 0xf0, 0xe6, 0xfd,
    0xca, 0xea, 0xb1, 0xa3, 0x4d, 0x4a, 0x6b, 0x4b, 0x63, 0x6e, 0x07, 0x0a, 0x38, 0xbc, 0xe7, 0x37]
  if result_64 ≠ reference then false else true

/-- Function `hmac_test_case_3`, `tests/prf_hmac.cpp` lines 103-143. -/
def hmac_test_case_3 : Bool :=
  let k : List Byte := List.replicate Prf.kKeySize 0xaa
  let key_64 := Prf.ctor k 20
  -- memset(in,0xdd,50);
  let inp : List Byte := List.replicate 50 0xdd
  let result_64 := key_64.prf 64 (inp.take 50)
  let reference : List Byte := [
    0xfa, 0x73, 0xb0, 0x08, 0x9d, 0x56, 0xa2, 0x84, 0xef, 0xb0, 0xf0, 0x75, 0x6c, 0x89, 0x0b, 0xe9,
    0xb1, 0xb5, 0xdb, 0xdd, 0x8e, 0xe8, 0x1a, 0x36, 0x55, 0xf8, 0x3e, 0x33, 0xb2, 0x27, 0x9d, 0x39,
    0xbf, 0x3e, 0x84, 0x82, 0x79, 0xa7, 0x22, 0xc8, 0x06, 0xb4, 0x85, 0xa4, 0x7e, 0x67, 0xc8, 0x07,
    0xb9, 0x46, 0xa3, 0x37, 0xbe, 0xe8, 0x94, 0x26, 0x74, 0x27, 0x88, 0x59, 0xe1, 0x32, 0x92, 0xfb]
  if result_64 ≠ reference then false else true

/-- Function `hmac_test_case_4`, `tests/prf_hmac.cpp` lines 145-185. -/
def hmac_test_case_4 : Bool :=
  let k : List Byte := [
    0x01, 0x02, 0x03, 0x04, 0x05, 0x06, 0x07, 0x08, 0x09, 0x0a, 0x0b, 0x0c,
    0x0d, 0x0e, 0x0f, 0x10, 0x11, 0x12, 0x13, 0x14, 0x15, 0x16, 0x17, 0x18, 0x19]
  let key_64 := Prf.ctor k 25
  -- memset(in,0xcd,50);
  let inp : List Byte := List.replicate 50 0xcd
  let result_64 := key_64.prf 64 (inp.take 50)
  let reference : List Byte := [
    0xb0, 0xba, 0x46, 0x56, 0x37, 0x45, 0x8c, 0x69, 0x90, 0xe5, 0xa8, 0xc5, 0xf6, 0x1d, 0x4a, 0xf7,
    0xe5, 0x76, 0xd9, 0x7f, 0xf9, 0x4b, 0x87, 0x2d, 0xe7, 0x6f, 0x80, 0x50, 0x36, 0x1e, 0xe3, 0xdb,
    0xa9, 0x1c, 0xa5, 0xc1, 0x1a, 0xa2, 0x5e, 0xb4, 0xd6, 0x79, 0x27, 0x5c, 0xc5, 0x78, 0x80, 0x63,
    0xa5, 0xf1, 0x97, 0x41, 0x12, 0x0c, 0x4f, 0x2d, 0xe2, 0xad, 0xeb, 0xeb, 0x10, 0xa2, 0x98, 0xdd]
  if result_64 ≠ reference then false else true

/-- Function `hmac_tests`, `tests/prf_hmac.cpp` lines 13-16. -/
def hmac_tests : Bool :=
  hmac_test_case_1 && hmac_test_case_2 && hmac_test_case_3 && hmac_test_case_4

/-! ## Key invariants -/

/-- Invariants of a public key held by a TDP object: the modulus is positive and odd
(the modular exponentiation of the library requires it), the exponent is not negative,
and `len` is the byte length of the modulus. -/
def ValidPublicKey (k : mbedtls_rsa_context) : Prop :=
  0 < k.N ∧ k.N % 2 = 1 ∧ 0 ≤ k.E ∧ k.len = mbedtls_mpi_size k.N

instance (k : mbedtls_rsa_context) : Decidable (ValidPublicKey k) := by
  unfold ValidPublicKey; infer_instance

/-- Invariants of a CRT-form private key (data model of the spec): `N = P * Q` for
distinct primes, `E * D = 1 mod (P - 1)(Q - 1)`, `DP = D mod (P - 1)`,
`DQ = D mod (Q - 1)`, `QP * Q = 1 mod P`; the modulus is odd and `len` is its byte
length. -/
structure ValidPrivateKey (k : mbedtls_rsa_context) : Prop where
  prime_P : Nat.Prime k.P.toNat
  prime_Q : Nat.Prime k.Q.toNat
  distinct : k.P ≠ k.Q
  modulus : k.N = k.P * k.Q
  odd_N : k.N % 2 = 1
  nonneg_E : 0 ≤ k.E
  nonneg_D : 0 ≤ k.D
  inverse : (k.E * k.D) % ((k.P - 1) * (k.Q - 1)) = 1
  crt_DP : k.DP = k.D % (k.P - 1)
  crt_DQ : k.DQ = k.D % (k.Q - 1)
  crt_QP : (k.QP * k.Q) % k.P = 1
  length : k.len = mbedtls_mpi_size k.N

/-! ## Example data -/

/-- First prime of the example key; `P - 1 = 2^188 * 5^360`. -/
def demo_P : Int := 2 ^ 188 * 5 ^ 360 + 1

/-- Second prime of the example key; `Q - 1 = 2^113 * 5^391 * 7`. -/
def demo_Q : Int := 2 ^ 113 * 5 ^ 391 * 7 + 1

/-- Private exponent of the example key, the inverse of 65537 modulo `(P - 1)(Q - 1)`. -/
def demo_D : Int :=
  0x506b9cf3b394a32ea5426ff5f890165e489892c007e75d885f6186f882a15b8dacf11b8677cd7aa73571ab76265d011ccac09d9f289b74c76af54cfe90080439fe8cb40a627eae34691b34a31f85316a975beabbff604d621f5e7e143ed1ae9793533d74bc80060f46dac3fdc73232e59429924667e0387deccaa5a36dd15ccdb76f2f4302da25428df11c85140f6d0d564473a9451e7207aeca2011aa26ef71b115539433480688081169fffa3ea95b5fb2a416f8b2ee496aa02d39b1a418a541eaf609c0cf2c7402af871ffe0350b1372c565c81fbeab45adfc000ffff0000ffff0000ffff0000ffff0000ffff0000ffff0000ffff0000ffff0000ffff0001

/-- Coefficient of the example key, the inverse of `Q` modulo `P`. -/
def demo_QP : Int :=
  0x7a8498697f7ac8d930e5d05e3b871622afa886b706554ea49db6f630b419fbea65be8266c65b5e799ef6790db3561ea59279dd9309c6ae0a42623312c5ecc711d5fecbdf59ed9131bf5430e16d4a5e83fc6736b7f8baa722cba22cb65b7d61df947e9a55f297245a4756c7865349ba58329705bd03981b4cedfe10991d97130

/-- An example private key with a 2048-bit modulus and `E = 65537`. -/
def demo_key : mbedtls_rsa_context :=
  { len := 256, N := demo_P * demo_Q, E := 65537, D := demo_D, P := demo_P, Q := demo_Q,
    DP := demo_D % (demo_P - 1), DQ := demo_D % (demo_Q - 1), QP := demo_QP }

/-- An example public key with the same modulus and public exponent 3 (coprime to
`(P - 1)(Q - 1)`). -/
def demo_key_e3 : mbedtls_rsa_context :=
  { len := 256, N := demo_P * demo_Q, E := 3, D := 0, P := 0, Q := 0, DP := 0, DQ := 0,
    QP := 0 }

/-- The string that the example parser decodes. -/
def demo_pem : List Byte := [45, 45, 45, 45, 45]

/-- An example parser: `demo_pem` decodes to `k`, no other string is a key. -/
def demo_parse (k : mbedtls_rsa_context) (pk : List Byte) : Option mbedtls_rsa_context :=
  if pk = demo_pem then some k else none

/-- An example consistency check: odd modulus of at least 128 bits, odd exponent,
`2 ≤ E < N`. -/
def demo_check (k : mbedtls_rsa_context) : Bool :=
  decide (k.N % 2 = 1 ∧ k.E % 2 = 1 ∧ 2 ^ 127 ≤ k.N ∧ 2 ≤ k.E ∧ k.E < k.N)

/-- The TDP built from `demo_key`. -/
def demo_tdp : TdpImpl_mbedTLS := ⟨demo_key⟩

/-- The inverse TDP built from `demo_key`. -/
def demo_inverse : TdpInverseImpl_mbedTLS :=
  { rsa_key_ := demo_key, phi_ := (demo_P - 1) * (demo_Q - 1), p_1_ := demo_P - 1,
    q_1_ := demo_Q - 1 }

/-- An example input of 256 bytes, below the modulus of `demo_key`. -/
def demo_input : List Byte := List.replicate 256 42

/-- An example input of 256 bytes, above the modulus of `demo_key`. -/
def demo_input_large : List Byte := List.replicate 256 255

/-- The pool of size 3 built from `demo_key`. -/
def demo_pool : TdpMultPoolImpl_mbedTLS :=
  { rsa_key_ := demo_key, keys_count_ := 2,
    keys_ := [{ demo_key with E := 65537 ^ 2 }, { demo_key with E := 65537 ^ 3 }] }

/-- The pool of size 2 built from `demo_key_e3`. -/
def demo_pool_e3 : TdpMultPoolImpl_mbedTLS :=
  { rsa_key_ := demo_key_e3, keys_count_ := 1, keys_ := [{ demo_key_e3 with E := 196611 }] }

/-- An example input of 256 bytes encoding the integer 2. -/
def demo_input_two : List Byte := List.replicate 255 0 ++ [2]

/-- The pool `demo_pool_e3` after the assignment `demo_pool_e3 = demo_pool`. -/
def demo_pool_assigned : TdpMultPoolImpl_mbedTLS :=
  { rsa_key_ := demo_key_e3, keys_count_ := 2, keys_ := demo_pool.keys_ }

/-- An example of `AES_set_encrypt_key` at 128 bits: the schedule is the 16 bytes read. -/
def demo_AES_set_encrypt_key (userKey : List Byte) : Option (List Byte) :=
  some (userKey.take 16)

/-- An example key stream (a stand-in for AES in counter mode). -/
def demo_keystream (key ivec : List Byte) (i : Nat) : Byte :=
  Fin.ofNat (be_value key + be_value ivec + 13 * i + 5)

/-- An example cipher key: 32 bytes `0x01`. -/
def demo_cipher_key : List Byte := List.replicate 32 1

/-- The cipher object constructed from `demo_cipher_key`. -/
def demo_cipher : Cipher.CipherImpl :=
  { aes_enc_key_ := List.replicate 16 1, iv_ := List.replicate 6 0,
    remaining_block_count_ := 2 ^ 48 }

/-- An example plaintext: the byte `0x61`. -/
def demo_plaintext : List Byte := [0x61]

/-- An example of the indeterminate content of a cipher object before its constructor
has run. -/
def demo_uninit : Cipher.CipherImpl :=
  { aes_enc_key_ := [0xde, 0xad], iv_ := [1, 2, 3, 4, 5, 6], remaining_block_count_ := 12345 }

/-- Another example of such a content. -/
def demo_uninit_other : Cipher.CipherImpl :=
  { aes_enc_key_ := [], iv_ := [0xff, 0xff, 0xff, 0xff, 0xff, 0xff],
    remaining_block_count_ := 0 }

/-! ## Lemmas on big-endian byte strings -/

theorem be_value_append_singleton (l : List Byte) (b : Byte) :
    be_value (l ++ [b]) = be_value l * 256 + b.val := by
  simp [be_value, List.foldl_append]

theorem be_bytes_length (n v : Nat) : (be_bytes n v).length = n := by
  induction n generalizing v with
  | zero => simp [be_bytes]
  | succ n ih => simp [be_bytes, ih]

theorem be_value_be_bytes (n v : Nat) : be_value (be_bytes n v) = v % 256 ^ n := by
  induction n generalizing v with
  | zero => simp [be_bytes, be_value, Nat.mod_one]
  | succ n ih =>
    rw [be_bytes, be_value_append_singleton, ih]
    have h : (Fin.ofNat (v % 256) : Byte).val = v % 256 := by
      simp [Fin.ofNat]
    rw [h, pow_succ', Nat.mod_mul, Nat.add_comm, Nat.mul_comm]

theorem be_value_lt (l : List Byte) : be_value l < 256 ^ l.length := by
  induction l using List.reverseRecOn with
  | nil => simp [be_value]
  | append_singleton l b ih =>
    rw [be_value_append_singleton, List.length_append, List.length_singleton, pow_succ]
    have := b.isLt
    omega

theorem be_bytes_be_value (l : List Byte) : be_bytes l.length (be_value l) = l := by
  induction l using List.reverseRecOn with
  | nil => simp [be_bytes]
  | append_singleton l b ih =>
    rw [be_value_append_singleton, List.length_append, List.length_singleton, be_bytes]
    have hb := b.isLt
    have h1 : (be_value l * 256 + b.val) / 256 = be_value l := by omega
    have h2 : (be_value l * 256 + b.val) % 256 = b.val := by omega
    rw [h1, h2, ih]
    congr 2
    apply Fin.ext
    simp [Fin.ofNat]

theorem byte_count_le_iff (fuel v n : Nat) (h : v ≤ fuel) :
    byte_count fuel v ≤ n ↔ v < 256 ^ n := by
  induction fuel generalizing v n with
  | zero =>
    have : v = 0 := by omega
    subst this
    simp [byte_count]
  | succ fuel ih =>
    rw [byte_count]
    split
    · next h0 => subst h0; simp
    · next h0 =>
      cases n with
      | zero => simp; omega
      | succ n =>
        have hv : v / 256 ≤ fuel := by
          have := Nat.div_lt_self (Nat.pos_of_ne_zero h0) (by norm_num : 1 < 256)
          omega
        rw [Nat.add_le_add_iff_right, ih _ _ hv, pow_succ, Nat.div_lt_iff_lt_mul (by norm_num)]

theorem mbedtls_mpi_size_le_iff (X : Int) (n : Nat) :
    mbedtls_mpi_size X ≤ n ↔ X.natAbs < 256 ^ n :=
  byte_count_le_iff _ _ _ le_rfl

theorem natAbs_lt_pow_size (X : Int) : X.natAbs < 256 ^ mbedtls_mpi_size X :=
  (mbedtls_mpi_size_le_iff X _).1 le_rfl

/-! ## Forward evaluation -/

theorem write_binary_of_lt (X : Int) (n : Nat) (h0 : 0 ≤ X) (h : X < 256 ^ n) :
    mbedtls_mpi_write_binary X n = some (be_bytes n X.toNat) := by
  have hX : X.natAbs = X.toNat := by omega
  have hlt : X.natAbs < 256 ^ n := by
    have : ((X.toNat : Nat) : Int) < ((256 ^ n : Nat) : Int) := by
      rw [Int.toNat_of_nonneg h0]; push_cast; exact h
    rw [hX]; exact_mod_cast this
  have hs : ¬ n < mbedtls_mpi_size X := by
    rw [not_lt]; exact (mbedtls_mpi_size_le_iff X n).2 hlt
  simp [mbedtls_mpi_write_binary, hs, hX]

theorem modulus_lt_pow_len (k : mbedtls_rsa_context) (hv : ValidPublicKey k) :
    k.N < 256 ^ k.len := by
  obtain ⟨hN, -, -, hlen⟩ := hv
  have h := natAbs_lt_pow_size k.N
  rw [← hlen] at h
  have : ((k.N.natAbs : Nat) : Int) < ((256 ^ k.len : Nat) : Int) := by exact_mod_cast h
  rw [Int.natAbs_of_nonneg hN.le] at this
  push_cast at this
  exact this

theorem be_value_be_bytes_of_lt (n : Nat) (v : Int) (h0 : 0 ≤ v) (h : v < 256 ^ n) :
    (be_value (be_bytes n v.toNat) : Int) = v := by
  rw [be_value_be_bytes]
  have hlt : v.toNat < 256 ^ n := by
    have : ((v.toNat : Nat) : Int) < ((256 ^ n : Nat) : Int) := by
      rw [Int.toNat_of_nonneg h0]; push_cast; exact h
    exact_mod_cast this
  rw [Nat.mod_eq_of_lt hlt, Int.toNat_of_nonneg h0]

/-- What `eval` returns on a valid key: the encoding of `X^E mod N`. -/
theorem eval_eq (t : TdpImpl_mbedTLS) (hv : ValidPublicKey t.rsa_key_) (x : List Byte)
    (hx : x.length = t.rsa_size) :
    t.eval x = .ok (be_bytes t.rsa_size
      (((be_value x : Int) % t.rsa_key_.N) ^ t.rsa_key_.E.toNat % t.rsa_key_.N).toNat) := by
  have hlt := modulus_lt_pow_len _ hv
  obtain ⟨hN, hodd, hE, -⟩ := hv
  have h1 : ¬ t.rsa_key_.N ≤ 0 := by omega
  have h2 : ¬ t.rsa_key_.N % 2 = 0 := by omega
  have h3 : ¬ t.rsa_key_.E < 0 := by omega
  have hr0 : 0 ≤ ((be_value x : Int) % t.rsa_key_.N) ^ t.rsa_key_.E.toNat % t.rsa_key_.N :=
    Int.emod_nonneg _ (by omega)
  have hr1 : ((be_value x : Int) % t.rsa_key_.N) ^ t.rsa_key_.E.toNat % t.rsa_key_.N
      < 256 ^ t.rsa_size :=
    lt_trans (Int.emod_lt_of_pos _ hN) hlt
  simp only [TdpImpl_mbedTLS.eval, hx, ne_eq, not_true_eq_false, if_false,
    mbedtls_mpi_mod_mpi, h1, mbedtls_mpi_exp_mod, h2, h3, or_self, mbedtls_mpi_read_binary,
    write_binary_of_lt _ _ hr0 hr1]

/-- The value encoded by the result of `eval`, its range and its length. -/
theorem eval_value (t : TdpImpl_mbedTLS) (hv : ValidPublicKey t.rsa_key_) (x : List Byte)
    (hx : x.length = t.rsa_size) :
    ∃ out, t.eval x = .ok out ∧ out.length = t.rsa_size ∧
      (be_value out : Int) = (be_value x : Int) ^ t.rsa_key_.E.toNat % t.rsa_key_.N := by
  have hlt := modulus_lt_pow_len _ hv
  refine ⟨_, eval_eq t hv x hx, be_bytes_length _ _, ?_⟩
  have hN : 0 < t.rsa_key_.N := hv.1
  rw [be_value_be_bytes_of_lt _ _ (Int.emod_nonneg _ (by omega))
      (lt_trans (Int.emod_lt_of_pos _ hN) hlt)]
  exact Int.ModEq.pow _ (Int.mod_modEq _ _)

/-! ## Arithmetic lemmas -/

theorem fermat_int (p : ℕ) (hp : p.Prime) (h2 : 2 < p) (m : ℕ)
    (hm : (m : ℤ) ≡ 1 [ZMOD (p : ℤ) - 1]) (x : ℤ) : x ^ m ≡ x [ZMOD p] := by
  haveI := Fact.mk hp
  have hm' : m ≡ 1 [MOD p - 1] := by
    rw [← Int.natCast_modEq_iff]
    push_cast [Nat.cast_sub hp.one_le]
    exact hm
  have hm1 : 1 ≤ m := by
    by_contra h
    have h0 : m = 0 := by omega
    subst h0
    have hd := (Nat.modEq_iff_dvd' (Nat.zero_le 1)).1 hm'
    have := Nat.le_of_dvd one_pos hd
    omega
  obtain ⟨t, ht⟩ := (Nat.modEq_iff_dvd' hm1).1 hm'.symm
  have hm_eq : m = (p - 1) * t + 1 := by omega
  rw [← ZMod.intCast_eq_intCast_iff]
  push_cast
  by_cases hx : (x : ZMod p) = 0
  · rw [hx, zero_pow (by omega)]
  · rw [hm_eq, pow_succ, pow_mul, ZMod.pow_card_sub_one_eq_one hx, one_pow, one_mul]

theorem modEq_mul_primes (p q : ℕ) (hp : p.Prime) (hq : q.Prime) (hne : p ≠ q) (a b : ℤ)
    (h1 : a ≡ b [ZMOD p]) (h2 : a ≡ b [ZMOD q]) : a ≡ b [ZMOD (p : ℤ) * q] := by
  have hc : (p : ℤ).natAbs.Coprime (q : ℤ).natAbs := by
    simpa using (Nat.coprime_primes hp hq).2 hne
  exact (Int.modEq_and_modEq_iff_modEq_mul hc).1 ⟨h1, h2⟩

theorem crt_recombine (p q : ℕ) (hp : 0 < p) (hq : 0 < q) (qinv yp yq : ℤ)
    (hinv : qinv * q ≡ 1 [ZMOD p]) (hyq0 : 0 ≤ yq) (hyq : yq < q) :
    let y := yq + ((yp - yq) * qinv % p) * q
    y ≡ yp [ZMOD p] ∧ y ≡ yq [ZMOD q] ∧ 0 ≤ y ∧ y < (p : ℤ) * q := by
  intro y
  have hpz : (0 : ℤ) < p := by exact_mod_cast hp
  have hqz : (0 : ℤ) < q := by exact_mod_cast hq
  have hh0 : 0 ≤ (yp - yq) * qinv % p := Int.emod_nonneg _ (by omega)
  have hh1 : (yp - yq) * qinv % p < p := Int.emod_lt_of_pos _ hpz
  refine ⟨?_, ?_, ?_, ?_⟩
  · have e1 : (yp - yq) * qinv % p ≡ (yp - yq) * qinv [ZMOD p] := Int.mod_modEq _ _
    have e2 : (yp - yq) * qinv % p * q ≡ (yp - yq) * (qinv * q) [ZMOD p] := by
      have := e1.mul_right (q : ℤ)
      rwa [mul_assoc] at this
    have e3 : (yp - yq) * (qinv * q) ≡ (yp - yq) * 1 [ZMOD p] := hinv.mul_left _
    have e4 := (e2.trans e3).add_left yq
    have e5 : yq + (yp - yq) * 1 = yp := by ring
    rw [e5] at e4
    exact e4
  · show yq + (yp - yq) * qinv % p * q ≡ yq [ZMOD q]
    have : (yp - yq) * qinv % p * q ≡ 0 [ZMOD q] := by
      rw [Int.modEq_zero_iff_dvd]; exact dvd_mul_left _ _
    simpa using this.add_left yq
  · show 0 ≤ yq + (yp - yq) * qinv % p * q
    positivity
  · show yq + (yp - yq) * qinv % p * q < p * q
    have : (yp - yq) * qinv % p * q ≤ ((p : ℤ) - 1) * q :=
      mul_le_mul_of_nonneg_right (by omega) hqz.le
    nlinarith

/-! ## Square-and-multiply exponentiation -/

theorem insecure_mod_exp_loop_eq (N : Int) (hN : 0 < N) :
    ∀ (fuel : Nat) (X base : Int) (exp : Nat), exp < 2 ^ fuel →
      insecure_mod_exp_loop N fuel X base exp
        = some (if exp = 0 then X else X * base ^ exp % N) := by
  intro fuel
  induction fuel with
  | zero =>
    intro X base exp h
    have h0 : exp = 0 := by simpa using h
    subst h0
    simp [insecure_mod_exp_loop]
  | succ fuel ih =>
    intro X base exp h
    have hN' : ¬ N ≤ 0 := by omega
    by_cases h0 : exp = 0
    · subst h0
      simp [insecure_mod_exp_loop]
    · have hpos : exp > 0 := Nat.pos_of_ne_zero h0
      have hhalf : exp / 2 < 2 ^ fuel := by
        rw [pow_succ] at h; omega
      rw [insecure_mod_exp_loop, if_pos hpos]
      by_cases hodd : exp % 2 = 1
      · have hexp : exp = 2 * (exp / 2) + 1 := by omega
        simp only [hodd, if_true, mbedtls_mpi_mod_mpi, hN', if_false, ih _ _ _ hhalf, h0]
        congr 1
        by_cases hz : exp / 2 = 0
        · have h1 : exp = 1 := by omega
          simp [hz, h1]
        · rw [if_neg hz]
          have e1 : X * base % N * (base * base % N) ^ (exp / 2)
              ≡ X * base * (base * base) ^ (exp / 2) [ZMOD N] :=
            (Int.mod_modEq _ _).mul ((Int.mod_modEq _ _).pow _)
          have e2 : X * base * (base * base) ^ (exp / 2) = X * base ^ exp := by
            conv_rhs => rw [hexp]
            rw [pow_succ, pow_mul, pow_two]; ring
          rw [e2] at e1
          exact e1
      · have hexp : exp = 2 * (exp / 2) := by omega
        have hz : exp / 2 ≠ 0 := by omega
        simp only [hodd, if_false, mbedtls_mpi_mod_mpi, hN', ih _ _ _ hhalf, h0, hz]
        congr 1
        have e1 : X * (base * base % N) ^ (exp / 2) ≡ X * (base * base) ^ (exp / 2) [ZMOD N] :=
          Int.ModEq.mul_left _ ((Int.mod_modEq _ _).pow _)
        have e2 : X * (base * base) ^ (exp / 2) = X * base ^ exp := by
          conv_rhs => rw [hexp]
          rw [pow_mul, pow_two]
        rw [e2] at e1
        exact e1

theorem insecure_mod_exp_eq (A : Int) (E : Nat) (N : Int) (hN : 0 < N) (hE : E < 2 ^ 64) :
    insecure_mod_exp A E N = some (if E = 0 then 1 else A ^ E % N) := by
  have hN' : ¬ N ≤ 0 := by omega
  have hmod : E % 2 ^ 64 = E := Nat.mod_eq_of_lt hE
  simp only [insecure_mod_exp, mbedtls_mpi_mod_mpi, hN', if_false, hmod,
    insecure_mod_exp_loop_eq N hN 64 _ _ E hE]
  congr 1
  by_cases h0 : E = 0
  · simp [h0]
  · simp only [h0, if_false, one_mul]
    exact (Int.mod_modEq _ _).pow _

/-! ## Inversion -/

theorem be_value_inj (a b : List Byte) (hl : a.length = b.length)
    (hv : be_value a = be_value b) : a = b := by
  rw [← be_bytes_be_value a, ← be_bytes_be_value b, hl, hv]

theorem ValidPrivateKey.toPublic {k : mbedtls_rsa_context} (hv : ValidPrivateKey k) :
    ValidPublicKey k := by
  have hp := hv.prime_P.pos
  have hq := hv.prime_Q.pos
  refine ⟨?_, hv.odd_N, hv.nonneg_E, hv.length⟩
  rw [hv.modulus]
  apply mul_pos <;> omega

/-- The primes of a valid private key as natural numbers. -/
theorem ValidPrivateKey.primes {k : mbedtls_rsa_context} (hv : ValidPrivateKey k) :
    ∃ p q : ℕ, p.Prime ∧ q.Prime ∧ p ≠ q ∧ 2 < p ∧ 2 < q ∧
      k.P = p ∧ k.Q = q ∧ k.N = (p : ℤ) * q := by
  have hp := hv.prime_P
  have hq := hv.prime_Q
  have hP : k.P = (k.P.toNat : ℤ) := by have := hp.pos; omega
  have hQ : k.Q = (k.Q.toNat : ℤ) := by have := hq.pos; omega
  have hodd : Odd (k.P * k.Q) := by
    rw [← hv.modulus, Int.odd_iff]; exact hv.odd_N
  rw [Int.odd_mul, Int.odd_iff, Int.odd_iff] at hodd
  refine ⟨k.P.toNat, k.Q.toNat, hp, hq, ?_, ?_, ?_, hP, hQ, ?_⟩
  · intro h; apply hv.distinct; rw [hP, hQ, h]
  · have := hp.two_le; omega
  · have := hq.two_le; omega
  · rw [← hP, ← hQ]; exact hv.modulus

/-- Function `E * D` is `1` modulo `P - 1` and modulo `Q - 1`. -/
theorem ValidPrivateKey.inverse_mod {k : mbedtls_rsa_context} (hv : ValidPrivateKey k) :
    k.E * k.D ≡ 1 [ZMOD k.P - 1] ∧ k.E * k.D ≡ 1 [ZMOD k.Q - 1] := by
  obtain ⟨p, q, hp, hq, -, h2p, h2q, hP, hQ, -⟩ := hv.primes
  have hphi : (1 : ℤ) < (k.P - 1) * (k.Q - 1) := by
    rw [hP, hQ]
    have h1 : (2 : ℤ) ≤ (p : ℤ) - 1 := by omega
    have h2 : (2 : ℤ) ≤ (q : ℤ) - 1 := by omega
    nlinarith
  have h : k.E * k.D ≡ 1 [ZMOD (k.P - 1) * (k.Q - 1)] := by
    unfold Int.ModEq
    rw [hv.inverse, Int.emod_eq_of_lt (by norm_num) hphi]
  exact ⟨h.of_mul_right _, h.of_mul_left _⟩

/-- RSA correctness: raising to the power `m` with `m = 1` modulo `P - 1` and `Q - 1`
is the identity modulo `N`. -/
theorem rsa_pow_eq {k : mbedtls_rsa_context} (hv : ValidPrivateKey k) (m : ℕ)
    (hP : (m : ℤ) ≡ 1 [ZMOD k.P - 1]) (hQ : (m : ℤ) ≡ 1 [ZMOD k.Q - 1]) (x : ℤ) :
    x ^ m ≡ x [ZMOD k.N] := by
  obtain ⟨p, q, hp, hq, hne, h2p, h2q, hP', hQ', hN⟩ := hv.primes
  rw [hN]
  rw [hP'] at hP
  rw [hQ'] at hQ
  exact modEq_mul_primes p q hp hq hne _ _ (fermat_int p hp h2p m hP x)
    (fermat_int q hq h2q m hQ x)

theorem invert_eq (t : TdpInverseImpl_mbedTLS) (x : List Byte)
    (hv : ValidPrivateKey t.rsa_key_) (hx : x.length = t.rsa_size)
    (hlt : (be_value x : Int) < t.rsa_key_.N) :
    t.invert x = .ok (be_bytes t.rsa_size
      ((be_value x : Int) ^ t.rsa_key_.D.toNat % t.rsa_key_.N).toNat) := by
  have hpub := hv.toPublic
  have hN : 0 < t.rsa_key_.N := hpub.1
  have hlen := modulus_lt_pow_len _ hpub
  have h1 : ¬ x.length < t.rsa_key_.len := by rw [hx]; exact lt_irrefl _
  have h2 : ¬ t.rsa_key_.len < x.length := by rw [hx]; exact lt_irrefl _
  have h3 : List.take t.rsa_key_.len x = x := by
    apply List.take_of_length_le; rw [hx]
  have h4 : ¬ t.rsa_key_.N ≤ (be_value x : Int) := by omega
  have hr0 : 0 ≤ (be_value x : Int) ^ t.rsa_key_.D.toNat % t.rsa_key_.N :=
    Int.emod_nonneg _ (by omega)
  have hr1 : (be_value x : Int) ^ t.rsa_key_.D.toNat % t.rsa_key_.N < 256 ^ t.rsa_key_.len :=
    lt_trans (Int.emod_lt_of_pos _ hN) hlen
  simp only [TdpInverseImpl_mbedTLS.invert, h1, h2, h3, if_false, mbedtls_rsa_private,
    mbedtls_mpi_read_binary, h4, write_binary_of_lt _ _ hr0 hr1]

theorem eval_iter_value (t : TdpImpl_mbedTLS) (hv : ValidPublicKey t.rsa_key_) (k : Nat) :
    ∀ x : List Byte, x.length = t.rsa_size →
      ∃ out, t.eval_iter k x = .ok out ∧ out.length = t.rsa_size ∧
        (be_value out : Int) = if k = 0 then (be_value x : Int)
          else (be_value x : Int) ^ (t.rsa_key_.E.toNat ^ k) % t.rsa_key_.N := by
  induction k with
  | zero =>
    intro x hx
    exact ⟨x, rfl, hx, by simp⟩
  | succ k ih =>
    intro x hx
    obtain ⟨y, hy, hylen, hyval⟩ := eval_value t hv x hx
    obtain ⟨out, hout, holen, hoval⟩ := ih y hylen
    refine ⟨out, ?_, holen, ?_⟩
    · simp only [TdpImpl_mbedTLS.eval_iter, hy, hout]
    · rw [hoval, if_neg (Nat.succ_ne_zero k), hyval]
      by_cases hk : k = 0
      · subst hk
        simp
      · rw [if_neg hk]
        have := (Int.mod_modEq ((be_value x : ℤ) ^ t.rsa_key_.E.toNat) t.rsa_key_.N).pow
          (t.rsa_key_.E.toNat ^ k)
        rw [← pow_mul, ← pow_succ'] at this
        exact this

theorem TdpInverseImpl_mbedTLS.ctor_cached
    (parse_key : List Byte → Option mbedtls_rsa_context)
    (check_pubkey : mbedtls_rsa_context → Bool) (sk : List Byte)
    (t : TdpInverseImpl_mbedTLS)
    (h : TdpInverseImpl_mbedTLS.ctor parse_key check_pubkey sk = .ok t) :
    parse_key sk = some t.rsa_key_ ∧ t.p_1_ = t.rsa_key_.P - 1 ∧ t.q_1_ = t.rsa_key_.Q - 1
      ∧ t.phi_ = (t.rsa_key_.P - 1) * (t.rsa_key_.Q - 1) := by
  unfold TdpInverseImpl_mbedTLS.ctor at h
  split at h
  · exact absurd h (by simp)
  · next k hk =>
    split at h
    · exact absurd h (by simp)
    · injection h with h
      subst h
      exact ⟨hk, rfl, rfl, rfl⟩

/-- The adjusted exponent `DP^k mod (P - 1)` times `E^k` is `1` modulo `P - 1`. -/
theorem adjusted_exponent (E D DP M : ℤ) (k : ℕ) (hinv : E * D ≡ 1 [ZMOD M])
    (hDP : DP = D % M) (hE : 0 ≤ E) (hM : 0 < M) :
    (((DP ^ k % M).toNat * E.toNat ^ k : ℕ) : ℤ) ≡ 1 [ZMOD M] := by
  push_cast
  rw [Int.toNat_of_nonneg (Int.emod_nonneg _ (by omega)), Int.toNat_of_nonneg hE]
  have h1 : DP ≡ D [ZMOD M] := by rw [hDP]; exact Int.mod_modEq _ _
  have h2 : DP ^ k % M ≡ D ^ k [ZMOD M] := (Int.mod_modEq _ _).trans (h1.pow k)
  have h3 : DP ^ k % M * E ^ k ≡ D ^ k * E ^ k [ZMOD M] := h2.mul_right _
  have h4 : D ^ k * E ^ k = (E * D) ^ k := by rw [mul_pow, mul_comm]
  rw [h4] at h3
  have h5 := h3.trans (hinv.pow k)
  simpa using h5

/-- What the checked sequence of `invert_mult` leaves in `y` for `order ≥ 1`. -/
theorem invert_mult_chk_eq (t : TdpInverseImpl_mbedTLS) (hv : ValidPrivateKey t.rsa_key_)
    (hp1 : t.p_1_ = t.rsa_key_.P - 1) (hq1 : t.q_1_ = t.rsa_key_.Q - 1)
    (X : ℤ) (k : ℕ) (hk0 : k ≠ 0) (hk : k < 2 ^ 64) :
    t.invert_mult_chk X k = some
      (X ^ (t.rsa_key_.DQ ^ k % (t.rsa_key_.Q - 1)).toNat % t.rsa_key_.Q
        + (X ^ (t.rsa_key_.DP ^ k % (t.rsa_key_.P - 1)).toNat % t.rsa_key_.P
            - X ^ (t.rsa_key_.DQ ^ k % (t.rsa_key_.Q - 1)).toNat % t.rsa_key_.Q)
          * t.rsa_key_.QP % t.rsa_key_.P * t.rsa_key_.Q) := by
  obtain ⟨p, q, hp, hq, hne, h2p, h2q, hP, hQ, hN⟩ := hv.primes
  have hodd : Odd (t.rsa_key_.P * t.rsa_key_.Q) := by
    rw [← hv.modulus, Int.odd_iff]; exact hv.odd_N
  rw [Int.odd_mul, Int.odd_iff, Int.odd_iff] at hodd
  have hPpos : 0 < t.rsa_key_.P - 1 := by omega
  have hQpos : 0 < t.rsa_key_.Q - 1 := by omega
  have hdp0 : ¬ t.rsa_key_.DP ^ k % (t.rsa_key_.P - 1) < 0 :=
    not_lt.2 (Int.emod_nonneg _ (by omega))
  have hdq0 : ¬ t.rsa_key_.DQ ^ k % (t.rsa_key_.Q - 1) < 0 :=
    not_lt.2 (Int.emod_nonneg _ (by omega))
  have a1 : ¬ t.rsa_key_.P ≤ 0 := by omega
  have a2 : ¬ t.rsa_key_.Q ≤ 0 := by omega
  have a3 : ¬ t.rsa_key_.P % 2 = 0 := by omega
  have a4 : ¬ t.rsa_key_.Q % 2 = 0 := by omega
  simp only [TdpInverseImpl_mbedTLS.invert_mult_chk, hp1, hq1,
    insecure_mod_exp_eq _ k _ hPpos hk, insecure_mod_exp_eq _ k _ hQpos hk, hk0, if_false,
    mbedtls_mpi_exp_mod, mbedtls_mpi_mod_mpi, a1, a2, a3, a4, hdp0, hdq0, or_self]

/-! ## Pool of power keys -/

theorem array_get_nat (a : List mbedtls_rsa_context) (i : Nat) (v : mbedtls_rsa_context)
    (h : a[i]? = some v) : array_get a (i : Int) = .ok v := by
  have hi : i < a.length := by
    by_contra hc
    rw [List.getElem?_eq_none (by omega)] at h
    exact absurd h (by simp)
  have hc : (0 : Int) ≤ (i : Int) ∧ (i : Int) < (a.length : Int) := ⟨by omega, by omega⟩
  simp [array_get, hc, h]

theorem array_set_nat (a : List mbedtls_rsa_context) (i : Nat) (v : mbedtls_rsa_context)
    (h : i < a.length) : array_set a (i : Int) v = .ok (a.set i v) := by
  have hc : (0 : Int) ≤ (i : Int) ∧ (i : Int) < (a.length : Int) := ⟨by omega, by omega⟩
  simp [array_set, hc]

/-- One turn of the constructor loop at an index inside the array. -/
theorem pool_ctor_loop_step (check_pubkey : mbedtls_rsa_context → Bool) (kc fuel i : Nat)
    (keys : List mbedtls_rsa_context) (prev : mbedtls_rsa_context)
    (hi1 : 1 ≤ i) (hik : i < kc) (hlen : keys.length = kc)
    (hprev : keys[i - 1]? = some prev) :
    pool_ctor_loop check_pubkey kc (fuel + 1) i keys
      = if check_pubkey { prev with E := prev.E * RSA_PK } = false then .error .runtime_error
        else pool_ctor_loop check_pubkey kc fuel ((i + 1) % 256)
          (keys.set i { prev with E := prev.E * RSA_PK }) := by
  have hi : i < keys.length := by omega
  have hidx : (i : Int) - 1 = ((i - 1 : Nat) : Int) := by omega
  have hne : i ≠ i - 1 := by omega
  have g1 : (keys.set i mbedtls_rsa_init)[i - 1]? = some prev := by
    rw [List.getElem?_set_ne hne]; exact hprev
  have g2 : ((keys.set i mbedtls_rsa_init).set i prev)[i - 1]? = some prev := by
    rw [List.getElem?_set_ne hne]; exact g1
  have g3 : ((keys.set i mbedtls_rsa_init).set i prev)[i]? = some prev := by
    rw [List.getElem?_set_self (by simp; omega)]
  have g4 : (((keys.set i mbedtls_rsa_init).set i prev).set i
      { prev with E := prev.E * RSA_PK })[i]? = some { prev with E := prev.E * RSA_PK } := by
    rw [List.getElem?_set_self (by simp; omega)]
  rw [pool_ctor_loop, if_pos hik]
  simp only [bind, Except.bind, hidx]
  rw [array_set_nat _ _ _ hi]
  simp only []
  rw [array_get_nat _ _ _ g1]
  simp only []
  rw [array_set_nat _ _ _ (by simp; omega)]
  simp only []
  rw [array_get_nat _ _ _ g2]
  simp only []
  rw [array_get_nat _ _ _ g3]
  simp only []
  rw [array_set_nat _ _ _ (by simp; omega)]
  simp only []
  rw [array_get_nat _ _ _ g4]
  simp only [List.set_set]

theorem power_key_succ (base : mbedtls_rsa_context) (j : Nat) :
    ({ power_key base j with E := (power_key base j).E * RSA_PK } : mbedtls_rsa_context)
      = power_key base (j + 1) := by
  simp [power_key, pow_succ, mul_assoc]

/-- Loop invariant of the constructor: when the loop ends normally, every slot holds its
power key. -/
theorem pool_ctor_loop_ok (check_pubkey : mbedtls_rsa_context → Bool)
    (base : mbedtls_rsa_context) (kc : Nat) (hkc : kc ≤ 255) :
    ∀ (fuel i : Nat) (keys : List mbedtls_rsa_context), 1 ≤ i → i ≤ kc →
      kc - i ≤ fuel →
      keys.length = kc → (∀ j, j < i → keys[j]? = some (power_key base j)) →
      ∀ keys', pool_ctor_loop check_pubkey kc fuel i keys = .ok keys' →
        keys'.length = kc ∧ ∀ j, j < kc → keys'[j]? = some (power_key base j) := by
  intro fuel
  induction fuel with
  | zero =>
    intro i keys _ hik hfuel hlen hinv keys' h
    have hi : i = kc := by omega
    subst hi
    simp only [pool_ctor_loop] at h
    injection h with h
    subst h
    exact ⟨hlen, hinv⟩
  | succ fuel ih =>
    intro i keys hi1 hik hfuel hlen hinv keys' h
    by_cases hlt : i < kc
    · have hprev := hinv (i - 1) (by omega)
      rw [pool_ctor_loop_step check_pubkey kc fuel i keys _ hi1 hlt hlen hprev] at h
      split at h
      · exact absurd h (by simp)
      · have hmod : (i + 1) % 256 = i + 1 := Nat.mod_eq_of_lt (by omega)
        rw [hmod, power_key_succ] at h
        have hsub : i - 1 + 1 = i := by omega
        rw [hsub] at h
        refine ih (i + 1) _ (by omega) (by omega) (by omega) (by simp [hlen]) ?_ keys' h
        intro j hj
        by_cases hji : j = i
        · subst hji
          rw [List.getElem?_set_self (by omega)]
        · rw [List.getElem?_set_ne (by omega)]
          exact hinv j (by omega)
    · have hi : i = kc := by omega
      subst hi
      rw [pool_ctor_loop, if_neg hlt] at h
      injection h with h
      subst h
      exact ⟨hlen, hinv⟩

theorem array_set_zero (a : List mbedtls_rsa_context) (v : mbedtls_rsa_context)
    (h : 0 < a.length) : array_set a 0 v = .ok (a.set 0 v) :=
  array_set_nat a 0 v h

theorem array_get_zero (a : List mbedtls_rsa_context) (v : mbedtls_rsa_context)
    (h : a[0]? = some v) : array_get a 0 = .ok v :=
  array_get_nat a 0 v h

/-- What the second part of the constructor builds when it ends normally. -/
theorem TdpMultPoolImpl_mbedTLS.ctor_fill_ok (check_pubkey : mbedtls_rsa_context → Bool)
    (base : TdpImpl_mbedTLS) (kc : Nat) (pool : TdpMultPoolImpl_mbedTLS) (hkc : kc ≤ 255)
    (h : TdpMultPoolImpl_mbedTLS.ctor_fill check_pubkey base kc = .ok pool) :
    1 ≤ kc ∧ pool.rsa_key_ = base.rsa_key_ ∧ pool.keys_count_ = kc ∧
      pool.keys_.length = kc ∧
      ∀ j, j < kc → pool.keys_[j]? = some (power_key base.rsa_key_ j) := by
  by_cases hk0 : kc = 0
  · subst hk0
    simp [TdpMultPoolImpl_mbedTLS.ctor_fill, array_set, bind, Except.bind] at h
  · have hpos : 0 < (List.replicate kc mbedtls_rsa_init).length := by
      simp; omega
    unfold TdpMultPoolImpl_mbedTLS.ctor_fill at h
    simp only [bind, Except.bind] at h
    rw [array_set_zero _ _ hpos] at h
    simp only [] at h
    rw [array_set_zero _ _ (by simp; omega)] at h
    simp only [] at h
    rw [array_get_zero _ base.rsa_key_ (by rw [List.getElem?_set_self (by simp; omega)])] at h
    simp only [] at h
    rw [array_set_zero _ _ (by simp; omega)] at h
    simp only [] at h
    rw [array_get_zero _ { base.rsa_key_ with E := base.rsa_key_.E * RSA_PK }
      (by rw [List.getElem?_set_self (by simp; omega)])] at h
    simp only [] at h
    split at h
    · exact absurd h (by simp [throw, throwThe, MonadExceptOf.throw])
    · simp only [pure, Except.pure] at h
      split at h
      · exact absurd h (by simp)
      · next keys' hloop =>
        injection h with h
        subst h
        have hk0' : ({ base.rsa_key_ with E := base.rsa_key_.E * RSA_PK } : mbedtls_rsa_context)
            = power_key base.rsa_key_ 0 := by
          simp [power_key]
        rw [hk0'] at hloop
        obtain ⟨hl, hall⟩ := pool_ctor_loop_ok check_pubkey base.rsa_key_ kc hkc 256 1 _
          (le_refl 1) (by omega) (by omega) (by simp) (by
            intro j hj
            have : j = 0 := by omega
            subst this
            rw [List.getElem?_set_self (by simp; omega)]) keys' hloop
        exact ⟨by omega, rfl, rfl, hl, hall⟩

/-- What a successfully constructed pool holds. -/
theorem TdpMultPoolImpl_mbedTLS.ctor_ok
    (parse_public_key : List Byte → Option mbedtls_rsa_context)
    (check_pubkey : mbedtls_rsa_context → Bool) (sk : List Byte) (s : Nat)
    (pool : TdpMultPoolImpl_mbedTLS) (hs : s ≤ 255)
    (h : TdpMultPoolImpl_mbedTLS.ctor parse_public_key check_pubkey sk s = .ok pool) :
    2 ≤ s ∧ parse_public_key sk = some pool.rsa_key_ ∧ pool.keys_count_ = s - 1 ∧
      pool.keys_.length = s - 1 ∧
      ∀ j, j < s - 1 → pool.keys_[j]? = some (power_key pool.rsa_key_ j) := by
  unfold TdpMultPoolImpl_mbedTLS.ctor TdpMultPoolImpl_mbedTLS.ctor_init
    TdpImpl_mbedTLS.ctor at h
  cases hparse : parse_public_key sk with
  | none => rw [hparse] at h; exact absurd h (by simp)
  | some k =>
    rw [hparse] at h
    cases hchk : check_pubkey k with
    | false => simp [hchk] at h
    | true =>
      by_cases hs0 : s = 0
      · simp [hchk, hs0] at h
      · have hkc : (s + 255) % 256 = s - 1 := by omega
        simp only [hchk, hs0, if_false, hkc] at h
        obtain ⟨h1, hkey, hcount, hlen, hall⟩ :=
          TdpMultPoolImpl_mbedTLS.ctor_fill_ok check_pubkey ⟨k⟩ (s - 1) pool (by omega) h
        simp only at hkey hall
        rw [← hkey] at hall
        exact ⟨by omega, by rw [hkey], hcount, hlen, hall⟩

theorem TdpMultPoolImpl_mbedTLS.eval_pool_eq (p : TdpMultPoolImpl_mbedTLS)
    (key : mbedtls_rsa_context) (ref : KeyRef) (x : List Byte) (o : Nat)
    (hsel : p.select_key o = .ok ref) (hderef : p.deref ref = .ok key)
    (hN : key.N = p.rsa_key_.N) (hE : 0 ≤ key.E)
    (hv : ValidPublicKey p.rsa_key_) (hx : x.length = p.rsa_size) :
    p.eval_pool x o = .ok (be_bytes p.rsa_size
      ((be_value x : Int) ^ key.E.toNat % p.rsa_key_.N).toNat) := by
  have hlen := modulus_lt_pow_len _ hv
  obtain ⟨hNpos, hodd, -, -⟩ := hv
  have h1 : ¬ p.rsa_key_.N ≤ 0 := by omega
  have h2 : ¬ p.rsa_key_.N % 2 = 0 := by omega
  have h3 : ¬ key.E < 0 := by omega
  have hr0 : 0 ≤ (be_value x : Int) ^ key.E.toNat % p.rsa_key_.N :=
    Int.emod_nonneg _ (by omega)
  have hr1 : (be_value x : Int) ^ key.E.toNat % p.rsa_key_.N < 256 ^ p.rsa_size :=
    lt_trans (Int.emod_lt_of_pos _ hNpos) hlen
  simp only [TdpMultPoolImpl_mbedTLS.eval_pool, bind, Except.bind, hsel, hderef, hx, ne_eq,
    not_true_eq_false, if_false, pure, Except.pure, mbedtls_mpi_exp_mod, hN, h1, h2, h3,
    or_self, mbedtls_mpi_read_binary, write_binary_of_lt _ _ hr0 hr1]

/-! ## Copies of a pool: lemmas -/

/-- The constructor loop ends normally only if every power key it stores passes the
check. -/
theorem pool_ctor_loop_checked (check_pubkey : mbedtls_rsa_context → Bool)
    (base : mbedtls_rsa_context) (kc : Nat) (hkc : kc ≤ 255) :
    ∀ (fuel i : Nat) (keys : List mbedtls_rsa_context), 1 ≤ i → i ≤ kc →
      kc - i ≤ fuel →
      keys.length = kc → (∀ j, j < i → keys[j]? = some (power_key base j)) →
      ∀ keys', pool_ctor_loop check_pubkey kc fuel i keys = .ok keys' →
        ∀ j, i ≤ j → j < kc → check_pubkey (power_key base j) = true := by
  intro fuel
  induction fuel with
  | zero =>
    intro i keys _ hik hfuel _ _ keys' _ j hij hj
    omega
  | succ fuel ih =>
    intro i keys hi1 hik hfuel hlen hinv keys' h j hij hj
    have hlt : i < kc := by omega
    have hprev := hinv (i - 1) (by omega)
    rw [pool_ctor_loop_step check_pubkey kc fuel i keys _ hi1 hlt hlen hprev] at h
    have hsub : i - 1 + 1 = i := by omega
    rw [power_key_succ, hsub] at h
    split at h
    · exact absurd h (by simp)
    · next hchk =>
      by_cases hji : j = i
      · subst hji
        simpa using hchk
      · have hmod : (i + 1) % 256 = i + 1 := Nat.mod_eq_of_lt (by omega)
        rw [hmod] at h
        refine ih (i + 1) _ (by omega) (by omega) (by omega) (by simp [hlen]) ?_ keys' h j
          (by omega) hj
        intro j' hj'
        by_cases hj'i : j' = i
        · subst hj'i
          rw [List.getElem?_set_self (by omega)]
        · rw [List.getElem?_set_ne (by omega)]
          exact hinv j' (by omega)

/-- The second part of the constructor ends normally only if every power key passes
the check. -/
theorem TdpMultPoolImpl_mbedTLS.ctor_fill_checked (check_pubkey : mbedtls_rsa_context → Bool)
    (base : TdpImpl_mbedTLS) (kc : Nat) (pool : TdpMultPoolImpl_mbedTLS) (hkc : kc ≤ 255)
    (h : TdpMultPoolImpl_mbedTLS.ctor_fill check_pubkey base kc = .ok pool) :
    ∀ j, j < kc → check_pubkey (power_key base.rsa_key_ j) = true := by
  by_cases hk0 : kc = 0
  · intro j hj; omega
  · have hpos : 0 < (List.replicate kc mbedtls_rsa_init).length := by
      simp; omega
    unfold TdpMultPoolImpl_mbedTLS.ctor_fill at h
    simp only [bind, Except.bind] at h
    rw [array_set_zero _ _ hpos] at h
    simp only [] at h
    rw [array_set_zero _ _ (by simp; omega)] at h
    simp only [] at h
    rw [array_get_zero _ base.rsa_key_ (by rw [List.getElem?_set_self (by simp; omega)])] at h
    simp only [] at h
    rw [array_set_zero _ _ (by simp; omega)] at h
    simp only [] at h
    rw [array_get_zero _ { base.rsa_key_ with E := base.rsa_key_.E * RSA_PK }
      (by rw [List.getElem?_set_self (by simp; omega)])] at h
    simp only [] at h
    have hk0' : ({ base.rsa_key_ with E := base.rsa_key_.E * RSA_PK } : mbedtls_rsa_context)
        = power_key base.rsa_key_ 0 := by
      simp [power_key]
    rw [hk0'] at h
    split at h
    · exact absurd h (by simp [throw, throwThe, MonadExceptOf.throw])
    · next hc0 =>
      simp only [pure, Except.pure] at h
      split at h
      · exact absurd h (by simp)
      · next keys' hloop =>
        intro j hj
        by_cases hj0 : j = 0
        · subst hj0; simpa using hc0
        · exact pool_ctor_loop_checked check_pubkey base.rsa_key_ kc hkc 256 1 _
            (le_refl 1) (by omega) (by omega) (by simp) (by
              intro j' hj'
              have : j' = 0 := by omega
              subst this
              rw [List.getElem?_set_self (by simp; omega)]) keys' hloop j (by omega) hj

/-- Every key of a successfully constructed pool passes the check. -/
theorem TdpMultPoolImpl_mbedTLS.ctor_checked
    (parse_public_key : List Byte → Option mbedtls_rsa_context)
    (check_pubkey : mbedtls_rsa_context → Bool) (sk : List Byte) (s : Nat)
    (pool : TdpMultPoolImpl_mbedTLS) (hs : s ≤ 255)
    (h : TdpMultPoolImpl_mbedTLS.ctor parse_public_key check_pubkey sk s = .ok pool) :
    check_pubkey pool.rsa_key_ = true ∧
      ∀ j, j < s - 1 → check_pubkey (power_key pool.rsa_key_ j) = true := by
  unfold TdpMultPoolImpl_mbedTLS.ctor TdpMultPoolImpl_mbedTLS.ctor_init
    TdpImpl_mbedTLS.ctor at h
  cases hparse : parse_public_key sk with
  | none => rw [hparse] at h; exact absurd h (by simp)
  | some k =>
    rw [hparse] at h
    cases hchk : check_pubkey k with
    | false => simp [hchk] at h
    | true =>
      by_cases hs0 : s = 0
      · simp [hchk, hs0] at h
      · have hkc : (s + 255) % 256 = s - 1 := by omega
        simp only [hchk, hs0, if_false, hkc] at h
        obtain ⟨-, hkey, -, -, -⟩ :=
          TdpMultPoolImpl_mbedTLS.ctor_fill_ok check_pubkey ⟨k⟩ (s - 1) pool (by omega) h
        have hall :=
          TdpMultPoolImpl_mbedTLS.ctor_fill_checked check_pubkey ⟨k⟩ (s - 1) pool (by omega) h
        simp only at hkey hall
        rw [hkey]
        exact ⟨hchk, hall⟩

/-- One turn of the copying loop at an index inside both arrays. -/
theorem pool_copy_loop_step (check_pubkey : mbedtls_rsa_context → Bool)
    (src : List mbedtls_rsa_context) (kc fuel i : Nat) (keys : List mbedtls_rsa_context)
    (k : mbedtls_rsa_context) (hik : i < kc) (hlen : keys.length = kc)
    (hsrc : src[i]? = some k) :
    pool_copy_loop check_pubkey src kc (fuel + 1) i keys
      = if check_pubkey k = false then .error .runtime_error
        else pool_copy_loop check_pubkey src kc fuel ((i + 1) % 256) (keys.set i k) := by
  have hi : i < keys.length := by omega
  have g : ((keys.set i mbedtls_rsa_init).set i k)[i]? = some k := by
    rw [List.getElem?_set_self (by simp; omega)]
  rw [pool_copy_loop, if_pos hik]
  simp only [bind, Except.bind]
  rw [array_set_nat _ _ _ hi]
  simp only []
  rw [array_get_nat _ _ _ hsrc]
  simp only []
  rw [array_set_nat _ _ _ (by simp; omega)]
  simp only []
  rw [array_get_nat _ _ _ g]
  simp only [List.set_set]

/-- The copying loop rebuilds `src` when every key of `src` passes the check. -/
theorem pool_copy_loop_eq (check_pubkey : mbedtls_rsa_context → Bool)
    (src : List mbedtls_rsa_context) (kc : Nat) (hkc : kc ≤ 255) (hsrc : src.length = kc)
    (hchk : ∀ k ∈ src, check_pubkey k = true) :
    ∀ (fuel i : Nat) (keys : List mbedtls_rsa_context), i ≤ kc → kc - i ≤ fuel →
      keys.length = kc → (∀ j, j < i → keys[j]? = src[j]?) →
      pool_copy_loop check_pubkey src kc fuel i keys = .ok src := by
  intro fuel
  induction fuel with
  | zero =>
    intro i keys hik hfuel hlen hinv
    have hi : i = kc := by omega
    subst hi
    simp only [pool_copy_loop]
    congr 1
    apply List.ext_getElem?
    intro j
    by_cases hj : j < keys.length
    · exact hinv j (by omega)
    · rw [List.getElem?_eq_none (by omega), List.getElem?_eq_none (by omega)]
  | succ fuel ih =>
    intro i keys hik hfuel hlen hinv
    by_cases hlt : i < kc
    · have hi : i < src.length := by omega
      have hget : src[i]? = some src[i] := List.getElem?_eq_getElem hi
      rw [pool_copy_loop_step check_pubkey src kc fuel i keys _ hlt hlen hget]
      have hc : check_pubkey src[i] = true := hchk _ (List.getElem_mem hi)
      have hmod : (i + 1) % 256 = i + 1 := Nat.mod_eq_of_lt (by omega)
      simp only [hc, hmod, Bool.true_eq_false, if_false]
      refine ih (i + 1) _ (by omega) (by omega) (by simp [hlen]) ?_
      intro j hj
      by_cases hji : j = i
      · subst hji
        rw [List.getElem?_set_self (by omega), hget]
      · rw [List.getElem?_set_ne (by omega)]
        exact hinv j (by omega)
    · have hi : i = kc := by omega
      subst hi
      rw [pool_copy_loop, if_neg hlt]
      congr 1
      apply List.ext_getElem?
      intro j
      by_cases hj : j < keys.length
      · exact hinv j (by omega)
      · rw [List.getElem?_eq_none (by omega), List.getElem?_eq_none (by omega)]

/-- Copying a successfully constructed pool succeeds and gives an equal pool. -/
theorem TdpMultPoolImpl_mbedTLS.copy_ctor_eq
    (parse_public_key : List Byte → Option mbedtls_rsa_context)
    (check_pubkey : mbedtls_rsa_context → Bool) (sk : List Byte) (s : Nat)
    (pool : TdpMultPoolImpl_mbedTLS) (hs : s ≤ 255)
    (h : TdpMultPoolImpl_mbedTLS.ctor parse_public_key check_pubkey sk s = .ok pool) :
    TdpMultPoolImpl_mbedTLS.copy_ctor check_pubkey pool = .ok pool := by
  obtain ⟨hs2, -, hcount, hlen, hall⟩ := TdpMultPoolImpl_mbedTLS.ctor_ok _ _ _ _ _ hs h
  obtain ⟨hbase, hchk⟩ := TdpMultPoolImpl_mbedTLS.ctor_checked _ _ _ _ _ hs h
  have hmem : ∀ k ∈ pool.keys_, check_pubkey k = true := by
    intro k hk
    obtain ⟨j, hj, hjk⟩ := List.getElem_of_mem hk
    have hj' : j < s - 1 := by omega
    have := hall j hj'
    rw [List.getElem?_eq_getElem hj, hjk] at this
    rw [Option.some.inj this]
    exact hchk j hj'
  have hloop := pool_copy_loop_eq check_pubkey pool.keys_ pool.keys_count_ (by omega)
    (by omega) hmem 256 0 (List.replicate pool.keys_count_ mbedtls_rsa_init) (by omega)
    (by omega) (by simp) (by intro j hj; omega)
  simp only [TdpMultPoolImpl_mbedTLS.copy_ctor, TdpImpl_mbedTLS.copy_ctor, hbase,
    Bool.true_eq_false, if_false, bind, Except.bind, hloop, pure, Except.pure]

/-! ## Buffers and the string overload of `eval`: lemmas -/

theorem buf_read_length (buf : List Byte) (off n : Nat) (r : List Byte)
    (h : buf_read buf off n = .ok r) : r.length = n := by
  unfold buf_read at h
  split at h
  · next h0 => injection h with h; subst h; simp [h0]
  · split at h
    · next h1 =>
      injection h with h; subst h
      simp; omega
    · exact absurd h (by simp)

theorem buf_read_all (buf : List Byte) : buf_read buf 0 buf.length = .ok buf := by
  unfold buf_read
  by_cases h0 : buf.length = 0
  · simp [h0, List.length_eq_zero.1 h0]
  · simp [h0]

theorem buf_read_not_invalid_argument (buf : List Byte) (off n : Nat) :
    buf_read buf off n ≠ .error .invalid_argument := by
  unfold buf_read
  split
  · simp
  · split <;> simp

theorem TdpImpl_mbedTLS.eval_not_invalid_argument (t : TdpImpl_mbedTLS) (x : List Byte) :
    t.eval x ≠ .error .invalid_argument := by
  unfold TdpImpl_mbedTLS.eval
  split
  · simp
  · dsimp only
    split
    · simp
    · split
      · simp
      · split <;> simp

theorem TdpImpl_mbedTLS.eval_ok_length (t : TdpImpl_mbedTLS) (x y : List Byte)
    (h : t.eval x = .ok y) : x.length = t.rsa_size ∧ y.length = t.rsa_size := by
  unfold TdpImpl_mbedTLS.eval at h
  split at h
  · exact absurd h (by simp)
  · next hlen =>
    have hx : x.length = t.rsa_size := by simpa using hlen
    refine ⟨hx, ?_⟩
    dsimp only at h
    split at h
    · exact absurd h (by simp)
    · split at h
      · exact absurd h (by simp)
      · split at h
        · exact absurd h (by simp)
        · next v out hw =>
          injection h with h
          subst h
          unfold mbedtls_mpi_write_binary at hw
          split at hw
          · exact absurd hw (by simp)
          · injection hw with hw
            rw [← hw, be_bytes_length, hx]

/-! ## Cipher: lemmas -/

theorem byte_xor_cancel (a k : Byte) : (a ^^^ k) ^^^ k = a := by
  apply Fin.ext
  have ha := a.isLt
  have hk := k.isLt
  have h1 : a.val ^^^ k.val < 256 := Nat.xor_lt_two_pow (n := 8) ha hk
  show ((a.val ^^^ k.val) % 256 ^^^ k.val) % 256 = a.val
  rw [Nat.mod_eq_of_lt h1, Nat.xor_assoc, Nat.xor_self, Nat.xor_zero, Nat.mod_eq_of_lt ha]

theorem ctr_xor_length (ks : Nat → Byte) (i : Nat) (l : List Byte) :
    (ctr_xor ks i l).length = l.length := by
  induction l generalizing i with
  | nil => rfl
  | cons b bs ih => simp [ctr_xor, ih]

theorem ctr_xor_ctr_xor (ks : Nat → Byte) (i : Nat) (l : List Byte) :
    ctr_xor ks i (ctr_xor ks i l) = l := by
  induction l generalizing i with
  | nil => rfl
  | cons b bs ih => simp [ctr_xor, ih, byte_xor_cancel]

theorem ctr_xor_append (ks : Nat → Byte) (i : Nat) (l m : List Byte) :
    ctr_xor ks i (l ++ m) = ctr_xor ks i l ++ ctr_xor ks (i + l.length) m := by
  induction l generalizing i with
  | nil => simp [ctr_xor]
  | cons b bs ih =>
    have h : i + 1 + bs.length = i + (bs.length + 1) := by omega
    show (b ^^^ ks i) :: ctr_xor ks (i + 1) (bs ++ m)
      = (b ^^^ ks i) :: ctr_xor ks (i + 1) bs ++ ctr_xor ks (i + (bs.length + 1)) m
    rw [ih, h, List.cons_append]

theorem string_resize_length (s : List Byte) (n : Nat) : (string_resize s n).length = n := by
  simp [string_resize]
  omega

theorem buf_write_zero (buf data : List Byte) (h : data.length ≤ buf.length) :
    buf_write buf 0 data = .ok (data ++ buf.drop data.length) := by
  unfold buf_write
  by_cases h0 : data.length = 0
  · simp [h0, List.length_eq_zero.1 h0]
  · simp [h0, h]

theorem buf_write_end (pre buf data : List Byte) (h : buf.length = pre.length + data.length) :
    buf_write buf pre.length data = .ok (buf.take pre.length ++ data) := by
  unfold buf_write
  by_cases h0 : data.length = 0
  · have hd : data = [] := List.length_eq_zero.1 h0
    subst hd
    have : buf.length ≤ pre.length := by simp at h; omega
    simp [List.take_of_length_le this]
  · have hle : pre.length + data.length ≤ buf.length := by omega
    have hdrop : List.drop (pre.length + data.length) buf = [] :=
      List.drop_of_length_le (by omega)
    simp [h0, hle, hdrop]

theorem buf_read_drop (pre data : List Byte) :
    buf_read (pre ++ data) pre.length data.length = .ok data := by
  unfold buf_read
  by_cases h0 : data.length = 0
  · simp [h0, List.length_eq_zero.1 h0]
  · simp [h0]

theorem buf_read_take (pre post : List Byte) (h : pre.length ≠ 0) :
    buf_read (pre ++ post) 0 pre.length = .ok pre := by
  unfold buf_read
  simp [h]

/-- What the pointer overload of `encrypt` writes when the buffers have the right
sizes. -/
theorem encrypt_raw_eq (ks : List Byte → List Byte → Nat → Byte) (c : Cipher.CipherImpl)
    (P out : List Byte) (hiv : c.iv_.length = Cipher.CipherImpl.kIVSize)
    (hbudget : P.length / 16 ≤ c.remaining_block_count_)
    (hout : out.length = P.length + Cipher.CipherImpl.kIVSize) :
    c.encrypt_raw ks P P.length out
      = .ok ({ c with remaining_block_count_ := c.remaining_block_count_ - P.length / 16 },
          c.iv_ ++ ctr_xor (ks c.aes_enc_key_
            (List.replicate (AES_BLOCK_SIZE - Cipher.CipherImpl.kIVSize) 0 ++ c.iv_)) 0 P) := by
  have hb : ¬ c.remaining_block_count_ < P.length / 16 := by omega
  have h1 : buf_write out 0 c.iv_ = .ok (c.iv_ ++ out.drop c.iv_.length) :=
    buf_write_zero _ _ (by omega)
  have h2 : buf_read P 0 P.length = .ok P := buf_read_all P
  have h3 : ∀ d : List Byte, d.length = P.length →
      buf_write (c.iv_ ++ out.drop c.iv_.length) Cipher.CipherImpl.kIVSize d
        = .ok (c.iv_ ++ d) := by
    intro d hd
    rw [← hiv, buf_write_end c.iv_ _ d (by simp; omega)]
    simp
  simp only [Cipher.CipherImpl.encrypt_raw, hb, if_false, h1, AES_ctr128_encrypt, h2,
    h3 _ (ctr_xor_length _ _ _)]

/-- What the pointer overload of `decrypt` writes when the buffers have the right
sizes. -/
theorem decrypt_raw_eq (ks : List Byte → List Byte → Nat → Byte) (c : Cipher.CipherImpl)
    (iv ct out : List Byte) (hiv : iv.length = Cipher.CipherImpl.kIVSize)
    (hout : out.length = ct.length) :
    c.decrypt_raw ks (iv ++ ct) ct.length out
      = .ok (ctr_xor (ks c.aes_enc_key_
          (List.replicate (AES_BLOCK_SIZE - Cipher.CipherImpl.kIVSize) 0 ++ iv)) 0 ct) := by
  have h1 : buf_read (iv ++ ct) 0 Cipher.CipherImpl.kIVSize = .ok iv := by
    rw [← hiv]; exact buf_read_take iv ct (by rw [hiv]; decide)
  have h2 : buf_read (iv ++ ct) Cipher.CipherImpl.kIVSize ct.length = .ok ct := by
    rw [← hiv]; exact buf_read_drop iv ct
  have h3 : ∀ d : List Byte, d.length = ct.length → buf_write out 0 d = .ok d := by
    intro d hd
    rw [buf_write_zero _ _ (by omega), List.drop_of_length_le (by omega)]
    simp
  simp only [Cipher.CipherImpl.decrypt_raw, h1, AES_ctr128_encrypt, h2,
    h3 _ (ctr_xor_length _ _ _)]

/-- The string overload of `encrypt` on a plaintext shorter than `2^32 - 6` bytes. -/
theorem encrypt_eq (ks : List Byte → List Byte → Nat → Byte) (c : Cipher.CipherImpl)
    (P out : List Byte) (hiv : c.iv_.length = Cipher.CipherImpl.kIVSize)
    (hbudget : P.length / 16 ≤ c.remaining_block_count_)
    (hlen : P.length + Cipher.CipherImpl.kIVSize < 2 ^ 32) :
    c.encrypt ks P out
      = (none, { c with remaining_block_count_ := c.remaining_block_count_ - P.length / 16 },
          c.iv_ ++ ctr_xor (ks c.aes_enc_key_
            (List.replicate (AES_BLOCK_SIZE - Cipher.CipherImpl.kIVSize) 0 ++ c.iv_)) 0 P) := by
  have hk : Cipher.CipherImpl.kIVSize = 6 := rfl
  have h1 : P.length % 2 ^ 32 = P.length := Nat.mod_eq_of_lt (by omega)
  have h2 : (P.length + Cipher.CipherImpl.kIVSize) % 2 ^ 32
      = P.length + Cipher.CipherImpl.kIVSize := Nat.mod_eq_of_lt hlen
  simp only [Cipher.CipherImpl.encrypt, h1, h2,
    encrypt_raw_eq ks c P _ hiv hbudget (string_resize_length _ _)]

/-- The string overload of `decrypt` reads past the end of every input shorter than
`2^32` bytes. -/
theorem decrypt_out_of_bounds (ks : List Byte → List Byte → Nat → Byte)
    (c : Cipher.CipherImpl) (X out : List Byte) (hlen : X.length < 2 ^ 32) :
    (c.decrypt ks X out).1
      = some (.out_of_bounds (if X.length < Cipher.CipherImpl.kIVSize then 5
          else ((Cipher.CipherImpl.kIVSize + X.length - 1 : Nat) : Int))) := by
  have hk : Cipher.CipherImpl.kIVSize = 6 := rfl
  have h1 : X.length % 2 ^ 32 = X.length := Nat.mod_eq_of_lt hlen
  by_cases h6 : X.length < Cipher.CipherImpl.kIVSize
  · have hr : buf_read X 0 Cipher.CipherImpl.kIVSize = .error (.out_of_bounds 5) := by
      unfold buf_read
      rw [hk] at h6 ⊢
      have : ¬ 0 + 6 ≤ X.length := by omega
      simp [this]
    simp only [Cipher.CipherImpl.decrypt, h1, Cipher.CipherImpl.decrypt_raw, hr, h6, if_true]
  · have hr : ∃ iv, buf_read X 0 Cipher.CipherImpl.kIVSize = .ok iv := by
      unfold buf_read
      rw [hk] at h6 ⊢
      have : 0 + 6 ≤ X.length := by omega
      simp [this]
    obtain ⟨iv, hiv⟩ := hr
    have hr2 : buf_read X Cipher.CipherImpl.kIVSize X.length
        = .error (.out_of_bounds ((Cipher.CipherImpl.kIVSize + X.length - 1 : Nat) : Int)) := by
      unfold buf_read
      rw [hk] at h6 ⊢
      have h0 : X.length ≠ 0 := by omega
      have : ¬ 6 + X.length ≤ X.length := by omega
      simp [this, h0]
    simp only [Cipher.CipherImpl.decrypt, h1, Cipher.CipherImpl.decrypt_raw, hiv,
      AES_ctr128_encrypt, hr2, h6, if_false]

theorem encrypt_raw_not_invalid_argument (ks : List Byte → List Byte → Nat → Byte)
    (c : Cipher.CipherImpl) (inp : List Byte) (len : Nat) (out : List Byte) :
    c.encrypt_raw ks inp len out ≠ .error .invalid_argument := by
  unfold Cipher.CipherImpl.encrypt_raw
  split
  · simp
  · cases h1 : buf_write out 0 c.iv_ with
    | error e =>
      intro hc
      have he : e = .invalid_argument := by simpa using hc
      rw [he] at h1
      unfold buf_write at h1
      split at h1
      · simp at h1
      · split at h1 <;> simp at h1
    | ok o1 =>
      dsimp only
      unfold AES_ctr128_encrypt
      cases h2 : buf_read inp 0 len with
      | error e =>
        intro hc
        have he : e = .invalid_argument := by simpa using hc
        rw [he] at h2
        exact buf_read_not_invalid_argument _ _ _ h2
      | ok src =>
        dsimp only
        cases h3 : buf_write o1 Cipher.CipherImpl.kIVSize
            (ctr_xor (ks c.aes_enc_key_
              (List.replicate (AES_BLOCK_SIZE - Cipher.CipherImpl.kIVSize) 0 ++ c.iv_)) 0 src) with
        | error e =>
          intro hc
          have he : e = .invalid_argument := by simpa using hc
          rw [he] at h3
          unfold buf_write at h3
          split at h3
          · simp at h3
          · split at h3 <;> simp at h3
        | ok o2 => simp

theorem decrypt_raw_not_throwing (ks : List Byte → List Byte → Nat → Byte)
    (c : Cipher.CipherImpl) (inp : List Byte) (len : Nat) (out : List Byte) :
    c.decrypt_raw ks inp len out ≠ .error .invalid_argument ∧
    c.decrypt_raw ks inp len out ≠ .error .runtime_error := by
  unfold Cipher.CipherImpl.decrypt_raw
  cases h1 : buf_read inp 0 Cipher.CipherImpl.kIVSize with
  | error e =>
    unfold buf_read at h1
    split at h1
    · simp at h1
    · split at h1
      · simp at h1
      · injection h1 with h1
        subst h1
        simp
  | ok iv =>
    dsimp only
    unfold AES_ctr128_encrypt
    cases h2 : buf_read inp Cipher.CipherImpl.kIVSize len with
    | error e =>
      unfold buf_read at h2
      split at h2
      · simp at h2
      · split at h2
        · simp at h2
        · injection h2 with h2
          subst h2
          simp
    | ok src =>
      dsimp only
      unfold buf_write
      split
      · simp
      · split <;> simp

theorem encrypt_not_invalid_argument (ks : List Byte → List Byte → Nat → Byte)
    (c : Cipher.CipherImpl) (P out : List Byte) :
    (c.encrypt ks P out).1 ≠ some .invalid_argument := by
  unfold Cipher.CipherImpl.encrypt
  dsimp only
  have h := encrypt_raw_not_invalid_argument ks c P (P.length % 2 ^ 32)
    (string_resize out ((P.length % 2 ^ 32 + Cipher.CipherImpl.kIVSize) % 2 ^ 32))
  split
  · next e he =>
    intro hc
    have : e = .invalid_argument := by simpa using hc
    rw [this] at he
    exact h he
  · simp

theorem decrypt_not_throwing (ks : List Byte → List Byte → Nat → Byte)
    (c : Cipher.CipherImpl) (X out : List Byte) :
    (c.decrypt ks X out).1 ≠ some .invalid_argument ∧
    (c.decrypt ks X out).1 ≠ some .runtime_error := by
  unfold Cipher.CipherImpl.decrypt
  dsimp only
  have h := decrypt_raw_not_throwing ks c X (X.length % 2 ^ 32)
    (string_resize out ((X.length % 2 ^ 32 + 2 ^ 32 - Cipher.CipherImpl.kIVSize) % 2 ^ 32))
  split
  · next e he =>
    rw [he] at h
    constructor
    · intro hc
      have : e = .invalid_argument := by simpa using hc
      exact h.1 (by rw [this])
    · intro hc
      have : e = .runtime_error := by simpa using hc
      exact h.2 (by rw [this])
  · simp

theorem decrypt_out_length (ks : List Byte → List Byte → Nat → Byte)
    (c : Cipher.CipherImpl) (X out : List Byte) (h : (c.decrypt ks X out).1 ≠ none) :
    (c.decrypt ks X out).2.length
      = (X.length % 2 ^ 32 + 2 ^ 32 - Cipher.CipherImpl.kIVSize) % 2 ^ 32 := by
  unfold Cipher.CipherImpl.decrypt at h ⊢
  dsimp only at h ⊢
  split
  · exact string_resize_length _ _
  · next o ho =>
    rw [ho] at h
    simp at h

/-! ## String overloads of the private direction: lemmas -/

theorem invert_mult_not_invalid_argument (t : TdpInverseImpl_mbedTLS) (x : List Byte)
    (order : Nat) (hx : x.length = t.rsa_size) :
    t.invert_mult x order ≠ .error .invalid_argument := by
  unfold TdpInverseImpl_mbedTLS.invert_mult
  split
  · simp
  · rw [if_neg (by simpa using hx)]
    dsimp only
    split
    · simp
    · split <;> simp

theorem buf_read_short (buf : List Byte) (n : Nat) (h : buf.length < n) :
    buf_read buf 0 n = .error (.out_of_bounds ((n - 1 : Nat) : Int)) := by
  unfold buf_read
  have h0 : n ≠ 0 := by omega
  have h1 : ¬ 0 + n ≤ buf.length := by omega
  rw [if_neg h0, if_neg h1]
  simp

theorem buf_read_long (buf : List Byte) (n : Nat) (h : n ≤ buf.length) :
    buf_read buf 0 n = .ok (buf.take n) := by
  unfold buf_read
  by_cases h0 : n = 0
  · simp [h0]
  · simp [h0, h]

/-- The checked sequence of `invert_mult` ends with the CRT recombination of the two
residues. -/
theorem invert_mult_chk_crt (t : TdpInverseImpl_mbedTLS) (x : Int) (order : Nat) :
    t.invert_mult_chk x order
      = match insecure_mod_exp t.rsa_key_.DP order t.p_1_ with
        | none => none
        | some d_p =>
          match insecure_mod_exp t.rsa_key_.DQ order t.q_1_ with
          | none => none
          | some d_q =>
            match mbedtls_mpi_exp_mod x d_p t.rsa_key_.P with
            | none => none
            | some y_p =>
              match mbedtls_mpi_exp_mod x d_q t.rsa_key_.Q with
              | none => none
              | some y_q => t.invert_mult_crt y_p y_q := by
  rfl

theorem buf_read_error (buf : List Byte) (off n : Nat) (e : Error)
    (h : buf_read buf off n = .error e) : ∃ i, e = .out_of_bounds i := by
  unfold buf_read at h
  split at h
  · simp at h
  · split at h
    · simp at h
    · injection h with h
      exact ⟨_, h.symm⟩

theorem buf_write_error (buf : List Byte) (off : Nat) (data : List Byte) (e : Error)
    (h : buf_write buf off data = .error e) : ∃ i, e = .out_of_bounds i := by
  unfold buf_write at h
  split at h
  · simp at h
  · split at h
    · simp at h
    · injection h with h
      exact ⟨_, h.symm⟩

theorem AES_ctr128_encrypt_error (ks : List Byte → List Byte → Nat → Byte)
    (inp : List Byte) (in_off : Nat) (out : List Byte) (out_off len : Nat)
    (key ivec : List Byte) (e : Error)
    (h : AES_ctr128_encrypt ks inp in_off out out_off len key ivec = .error e) :
    ∃ i, e = .out_of_bounds i := by
  unfold AES_ctr128_encrypt at h
  split at h
  · next e1 h1 =>
    injection h with h
    subst h
    exact buf_read_error _ _ _ _ h1
  · exact buf_write_error _ _ _ _ h

/-- The outcome of `encrypt_raw_exit` is `encrypt_raw`. -/
theorem encrypt_raw_exit_outcome (ks : List Byte → List Byte → Nat → Byte)
    (c : Cipher.CipherImpl) (inp : List Byte) (len : Nat) (out : List Byte) :
    c.encrypt_raw ks inp len out
      = match c.encrypt_raw_exit ks inp len out with
        | (none, c1, out1) => .ok (c1, out1)
        | (some e, _, _) => .error e := by
  unfold Cipher.CipherImpl.encrypt_raw Cipher.CipherImpl.encrypt_raw_exit
  split
  · rfl
  · cases buf_write out 0 c.iv_ with
    | error e => rfl
    | ok o1 =>
      dsimp only
      cases AES_ctr128_encrypt ks inp 0 o1 Cipher.CipherImpl.kIVSize len c.aes_enc_key_
          (List.replicate (AES_BLOCK_SIZE - Cipher.CipherImpl.kIVSize) 0 ++ c.iv_) with
      | error e => rfl
      | ok o2 => rfl

/-- The pointer overload of `encrypt` never touches `iv_` nor the key schedule, and
never raises the block count. -/
theorem encrypt_raw_exit_frame (ks : List Byte → List Byte → Nat → Byte)
    (c : Cipher.CipherImpl) (inp : List Byte) (len : Nat) (out : List Byte) :
    (c.encrypt_raw_exit ks inp len out).2.1.iv_ = c.iv_ ∧
    (c.encrypt_raw_exit ks inp len out).2.1.aes_enc_key_ = c.aes_enc_key_ ∧
    (c.encrypt_raw_exit ks inp len out).2.1.remaining_block_count_
      ≤ c.remaining_block_count_ := by
  unfold Cipher.CipherImpl.encrypt_raw_exit
  split
  · exact ⟨rfl, rfl, le_rfl⟩
  · cases buf_write out 0 c.iv_ with
    | error e => exact ⟨rfl, rfl, le_rfl⟩
    | ok o1 =>
      dsimp only
      cases AES_ctr128_encrypt ks inp 0 o1 Cipher.CipherImpl.kIVSize len c.aes_enc_key_
          (List.replicate (AES_BLOCK_SIZE - Cipher.CipherImpl.kIVSize) 0 ++ c.iv_) with
      | error e => exact ⟨rfl, rfl, le_rfl⟩
      | ok o2 => exact ⟨rfl, rfl, Nat.sub_le _ _⟩

/-- What the pointer overload of `encrypt` writes for the first `len` bytes of a buffer,
when `out` has `len + kIVSize` bytes. -/
theorem encrypt_raw_take (ks : List Byte → List Byte → Nat → Byte) (c : Cipher.CipherImpl)
    (P : List Byte) (len : Nat) (out : List Byte)
    (hiv : c.iv_.length = Cipher.CipherImpl.kIVSize) (hlen : len ≤ P.length)
    (hbudget : len / 16 ≤ c.remaining_block_count_)
    (hout : out.length = len + Cipher.CipherImpl.kIVSize) :
    c.encrypt_raw ks P len out
      = .ok ({ c with remaining_block_count_ := c.remaining_block_count_ - len / 16 },
          c.iv_ ++ ctr_xor (ks c.aes_enc_key_
            (List.replicate (AES_BLOCK_SIZE - Cipher.CipherImpl.kIVSize) 0 ++ c.iv_)) 0
            (P.take len)) := by
  have hb : ¬ c.remaining_block_count_ < len / 16 := by omega
  have h1 : buf_write out 0 c.iv_ = .ok (c.iv_ ++ out.drop c.iv_.length) :=
    buf_write_zero _ _ (by omega)
  have h2 : buf_read P 0 len = .ok (P.take len) := buf_read_long P len hlen
  have hl : (P.take len).length = len := by rw [List.length_take]; omega
  have h3 : ∀ d : List Byte, d.length = len →
      buf_write (c.iv_ ++ out.drop c.iv_.length) Cipher.CipherImpl.kIVSize d
        = .ok (c.iv_ ++ d) := by
    intro d hd
    rw [← hiv, buf_write_end c.iv_ _ d (by simp; omega)]
    simp
  simp only [Cipher.CipherImpl.encrypt_raw, hb, if_false, h1, AES_ctr128_encrypt, h2,
    h3 _ ((ctr_xor_length _ _ _).trans hl)]

/-- The three ways the string overload of `encrypt` ends on an object with a 6-byte
`iv_`. -/
theorem encrypt_cases (ks : List Byte → List Byte → Nat → Byte) (c : Cipher.CipherImpl)
    (P out : List Byte) (hiv : c.iv_.length = Cipher.CipherImpl.kIVSize) :
    (c.remaining_block_count_ < P.length % 2 ^ 32 / 16 ∧
      (c.encrypt ks P out).1 = some .runtime_error ∧ (c.encrypt ks P out).2.1 = c) ∨
    (¬ c.remaining_block_count_ < P.length % 2 ^ 32 / 16 ∧ 2 ^ 32 ≤ P.length % 2 ^ 32 + 6 ∧
      (c.encrypt ks P out).1 = some (.out_of_bounds 5) ∧ (c.encrypt ks P out).2.1 = c) ∨
    (¬ c.remaining_block_count_ < P.length % 2 ^ 32 / 16 ∧ P.length % 2 ^ 32 + 6 < 2 ^ 32 ∧
      c.encrypt ks P out
        = (none,
          { c with remaining_block_count_ :=
              c.remaining_block_count_ - P.length % 2 ^ 32 / 16 },
          c.iv_ ++ ctr_xor (ks c.aes_enc_key_
            (List.replicate (AES_BLOCK_SIZE - Cipher.CipherImpl.kIVSize) 0 ++ c.iv_)) 0
            (P.take (P.length % 2 ^ 32)))) := by
  have hk : Cipher.CipherImpl.kIVSize = 6 := rfl
  have hl : P.length % 2 ^ 32 < 2 ^ 32 := Nat.mod_lt _ (by norm_num)
  have hle : P.length % 2 ^ 32 ≤ P.length := Nat.mod_le _ _
  by_cases hb : c.remaining_block_count_ < P.length % 2 ^ 32 / 16
  · left
    refine ⟨hb, ?_, ?_⟩ <;>
      simp only [Cipher.CipherImpl.encrypt, Cipher.CipherImpl.encrypt_raw, hb, if_true]
  · right
    by_cases hw : 2 ^ 32 ≤ P.length % 2 ^ 32 + 6
    · left
      have hn : (P.length % 2 ^ 32 + Cipher.CipherImpl.kIVSize) % 2 ^ 32
          = P.length % 2 ^ 32 + 6 - 2 ^ 32 := by
        rw [hk]; omega
      have hw1 : buf_write (string_resize out (P.length % 2 ^ 32 + 6 - 2 ^ 32)) 0 c.iv_
          = .error (.out_of_bounds 5) := by
        unfold buf_write
        rw [string_resize_length, hiv, hk]
        rw [if_neg (by norm_num), if_neg (by omega)]
        rfl
      refine ⟨hb, hw, ?_, ?_⟩ <;>
        simp only [Cipher.CipherImpl.encrypt, Cipher.CipherImpl.encrypt_raw, hb, if_false, hn,
          hw1]
    · right
      have hn : (P.length % 2 ^ 32 + Cipher.CipherImpl.kIVSize) % 2 ^ 32
          = P.length % 2 ^ 32 + Cipher.CipherImpl.kIVSize := by
        rw [hk]; omega
      refine ⟨hb, by omega, ?_⟩
      simp only [Cipher.CipherImpl.encrypt, hn,
        encrypt_raw_take ks c P _ _ hiv hle (by omega) (string_resize_length _ _)]

/-- The string overload of `encrypt` never touches `iv_` nor the key schedule. -/
theorem encrypt_frame (ks : List Byte → List Byte → Nat → Byte) (c : Cipher.CipherImpl)
    (P out : List Byte) :
    (c.encrypt ks P out).2.1.iv_ = c.iv_ ∧
    (c.encrypt ks P out).2.1.aes_enc_key_ = c.aes_enc_key_ := by
  have h := encrypt_raw_exit_frame ks c P (P.length % 2 ^ 32)
    (string_resize out ((P.length % 2 ^ 32 + Cipher.CipherImpl.kIVSize) % 2 ^ 32))
  have ho := encrypt_raw_exit_outcome ks c P (P.length % 2 ^ 32)
    (string_resize out ((P.length % 2 ^ 32 + Cipher.CipherImpl.kIVSize) % 2 ^ 32))
  unfold Cipher.CipherImpl.encrypt
  dsimp only
  rw [ho]
  rcases hx : c.encrypt_raw_exit ks P (P.length % 2 ^ 32)
    (string_resize out ((P.length % 2 ^ 32 + Cipher.CipherImpl.kIVSize) % 2 ^ 32))
    with ⟨_ | e, c1, o1⟩
  · rw [hx] at h
    exact ⟨h.1, h.2.1⟩
  · exact ⟨rfl, rfl⟩

/-- A sequence of calls never touches `iv_` nor the key schedule. -/
theorem encrypt_seq_frame (ks : List Byte → List Byte → Nat → Byte)
    (calls : List (List Byte × List Byte)) :
    ∀ c : Cipher.CipherImpl,
      (c.encrypt_seq ks calls).1.iv_ = c.iv_ ∧
      (c.encrypt_seq ks calls).1.aes_enc_key_ = c.aes_enc_key_ := by
  induction calls with
  | nil => intro c; exact ⟨rfl, rfl⟩
  | cons call calls ih =>
    intro c
    obtain ⟨P, out⟩ := call
    have h1 := encrypt_frame ks c P out
    have h2 := ih (c.encrypt ks P out).2.1
    simp only [Cipher.CipherImpl.encrypt_seq]
    exact ⟨h2.1.trans h1.1, h2.2.trans h1.2⟩

/-- The object after a successful construction, whatever its members held before. -/
theorem ctor_state (AES_set_encrypt_key : List Byte → Option (List Byte))
    (uninit : Cipher.CipherImpl) (k : List Byte) (c : Cipher.CipherImpl)
    (h : Cipher.CipherImpl.ctor AES_set_encrypt_key uninit k = .ok c) :
    c.iv_ = List.replicate 6 0 ∧ c.remaining_block_count_ = 2 ^ 48 ∧
      AES_set_encrypt_key k = some c.aes_enc_key_ := by
  unfold Cipher.CipherImpl.ctor Cipher.CipherImpl.gen_subkeys at h
  cases hk : AES_set_encrypt_key k with
  | none => rw [hk] at h; simp at h
  | some key =>
    rw [hk] at h
    simp only [Cipher.CipherImpl.reset_iv] at h
    injection h with h
    subst h
    exact ⟨rfl, rfl, rfl⟩

/-- A plaintext shorter than a block leaves the object as it is. -/
theorem encrypt_short_eq (ks : List Byte → List Byte → Nat → Byte) (c : Cipher.CipherImpl)
    (P out : List Byte) (hiv : c.iv_.length = Cipher.CipherImpl.kIVSize)
    (hP : P.length < 16) :
    c.encrypt ks P out
      = (none, c, c.iv_ ++ ctr_xor (ks c.aes_enc_key_
          (List.replicate (AES_BLOCK_SIZE - Cipher.CipherImpl.kIVSize) 0 ++ c.iv_)) 0 P) := by
  have hk : Cipher.CipherImpl.kIVSize = 6 := rfl
  have h0 : P.length / 16 = 0 := by omega
  rw [encrypt_eq ks c P out hiv (by omega) (by omega), h0]
  rfl

/-! ## PRF: lemmas -/

theorem sha512_round_length (v : List Nat) (k w : Nat) :
    (sha512_round v k w).length = v.length := by
  unfold sha512_round
  split
  · rfl
  · rfl

theorem sha512_rounds_length (ks ws : List Nat) :
    ∀ v : List Nat, (sha512_rounds v ks ws).length = v.length := by
  induction ks generalizing ws with
  | nil => intro v; simp [sha512_rounds]
  | cons k ks ih =>
    intro v
    cases ws with
    | nil => simp [sha512_rounds]
    | cons w ws =>
      simp only [sha512_rounds]
      rw [ih ws, sha512_round_length]

theorem sha512_compress_length (H : List Nat) (block : List Byte) :
    (sha512_compress H block).length = H.length := by
  simp [sha512_compress, sha512_rounds_length]

theorem sha512_blocks_length (n : Nat) :
    ∀ (H : List Nat) (m : List Byte), (sha512_blocks n H m).length = H.length := by
  induction n with
  | zero => intro H m; rfl
  | succ n ih =>
    intro H m
    simp only [sha512_blocks]
    rw [ih, sha512_compress_length]

theorem flatten_map_be_bytes_length (l : List Nat) :
    ((l.map (be_bytes 8)).flatten).length = 8 * l.length := by
  induction l with
  | nil => rfl
  | cons a l ih =>
    simp only [List.map_cons, List.flatten_cons, List.length_append, be_bytes_length, ih,
      List.length_cons]
    omega

theorem sha512_length (msg : List Byte) : (sha512 msg).length = 64 := by
  unfold sha512
  dsimp only
  rw [flatten_map_be_bytes_length, sha512_blocks_length]
  rfl

theorem hmac_sha512_length (key msg : List Byte) : (hmac_sha512 key msg).length = 64 := by
  unfold hmac_sha512
  exact sha512_length _

theorem hmac_test_case_1_passes : hmac_test_case_1 = true := by decide!

theorem hmac_test_case_2_passes : hmac_test_case_2 = true := by decide!

theorem hmac_test_case_3_passes : hmac_test_case_3 = true := by decide!

theorem hmac_test_case_4_passes : hmac_test_case_4 = true := by decide!

/-! ## Facts about the example data -/

/-- A power is `1` in `ZMod p` exactly when the square-and-multiply loop returns `1`. -/
theorem zmod_pow_eq_one_iff_loop (p : ℕ) (hp : 1 < p) (a : ℤ) (e fuel : ℕ)
    (he0 : e ≠ 0) (he : e < 2 ^ fuel) :
    ((a : ZMod p)) ^ e = 1 ↔ insecure_mod_exp_loop p fuel 1 a e = some 1 := by
  have h1 : ((a : ZMod p)) ^ e = ((a ^ e : ℤ) : ZMod p) := by push_cast; rfl
  have h2 : (1 : ZMod p) = ((1 : ℤ) : ZMod p) := by push_cast; rfl
  have h3 : (1 : ℤ) % (p : ℤ) = 1 := Int.emod_eq_of_lt (by norm_num) (by exact_mod_cast hp)
  rw [h1, h2, ZMod.intCast_eq_intCast_iff', h3,
    insecure_mod_exp_loop_eq (p : ℤ) (by exact_mod_cast (by omega : 0 < p)) fuel 1 a e he,
    if_neg he0, one_mul]
  exact ⟨fun h => by rw [h], fun h => Option.some.inj h⟩

/-- The first prime of the example key is prime (Lucas test with base 3). -/
theorem demo_P_prime : Nat.Prime (2 ^ 188 * 5 ^ 360 + 1) := by
  have hp1 : 1 < 2 ^ 188 * 5 ^ 360 + 1 := by norm_num
  apply lucas_primality _ ((3 : ℤ) : ZMod (2 ^ 188 * 5 ^ 360 + 1))
  · rw [zmod_pow_eq_one_iff_loop _ hp1 3 _ 1024 (by norm_num) (by norm_num)]
    decide!
  · intro r hr hdvd
    rw [Nat.add_sub_cancel] at hdvd ⊢
    have hcases : r = 2 ∨ r = 5 := by
      rcases (Nat.Prime.dvd_mul hr).1 hdvd with h | h
      · exact Or.inl ((Nat.prime_dvd_prime_iff_eq hr Nat.prime_two).1 (hr.dvd_of_dvd_pow h))
      · exact Or.inr ((Nat.prime_dvd_prime_iff_eq hr Nat.prime_five).1 (hr.dvd_of_dvd_pow h))
    rcases hcases with h | h <;> subst h
    · rw [Ne, zmod_pow_eq_one_iff_loop _ hp1 3 _ 1024 (by norm_num) (by norm_num)]
      decide!
    · rw [Ne, zmod_pow_eq_one_iff_loop _ hp1 3 _ 1024 (by norm_num) (by norm_num)]
      decide!

/-- The second prime of the example key is prime (Lucas test with base 3). -/
theorem demo_Q_prime : Nat.Prime (2 ^ 113 * 5 ^ 391 * 7 + 1) := by
  have hp1 : 1 < 2 ^ 113 * 5 ^ 391 * 7 + 1 := by norm_num
  apply lucas_primality _ ((3 : ℤ) : ZMod (2 ^ 113 * 5 ^ 391 * 7 + 1))
  · rw [zmod_pow_eq_one_iff_loop _ hp1 3 _ 1024 (by norm_num) (by norm_num)]
    decide!
  · intro r hr hdvd
    rw [Nat.add_sub_cancel] at hdvd ⊢
    have hcases : r = 2 ∨ r = 5 ∨ r = 7 := by
      rcases (Nat.Prime.dvd_mul hr).1 hdvd with h | h
      · rcases (Nat.Prime.dvd_mul hr).1 h with h | h
        · exact Or.inl ((Nat.prime_dvd_prime_iff_eq hr Nat.prime_two).1 (hr.dvd_of_dvd_pow h))
        · exact Or.inr (Or.inl
            ((Nat.prime_dvd_prime_iff_eq hr Nat.prime_five).1 (hr.dvd_of_dvd_pow h)))
      · exact Or.inr (Or.inr ((Nat.prime_dvd_prime_iff_eq hr (by norm_num)).1 h))
    rcases hcases with h | h | h <;> subst h
    · rw [Ne, zmod_pow_eq_one_iff_loop _ hp1 3 _ 1024 (by norm_num) (by norm_num)]
      decide!
    · rw [Ne, zmod_pow_eq_one_iff_loop _ hp1 3 _ 1024 (by norm_num) (by norm_num)]
      decide!
    · rw [Ne, zmod_pow_eq_one_iff_loop _ hp1 3 _ 1024 (by norm_num) (by norm_num)]
      decide!

theorem demo_key_valid : ValidPrivateKey demo_key where
  prime_P := by
    have h : demo_key.P.toNat = 2 ^ 188 * 5 ^ 360 + 1 := by decide!
    rw [h]; exact demo_P_prime
  prime_Q := by
    have h : demo_key.Q.toNat = 2 ^ 113 * 5 ^ 391 * 7 + 1 := by decide!
    rw [h]; exact demo_Q_prime
  distinct := by decide!
  modulus := rfl
  odd_N := by decide!
  nonneg_E := by decide!
  nonneg_D := by decide!
  inverse := by decide!
  crt_DP := rfl
  crt_DQ := rfl
  crt_QP := by decide!
  length := by decide!

theorem demo_key_public : ValidPublicKey demo_key :=
  demo_key_valid.toPublic

theorem demo_input_length : demo_input.length = 256 := by
  rw [demo_input, List.length_replicate]

theorem demo_input_large_length : demo_input_large.length = 256 := by
  rw [demo_input_large, List.length_replicate]

theorem demo_input_large_ge : demo_key.N ≤ (be_value demo_input_large : Int) := by
  decide!

theorem demo_input_lt : (be_value demo_input : Int) < demo_key.N := by
  decide!

theorem demo_inverse_ctor :
    TdpInverseImpl_mbedTLS.ctor (demo_parse demo_key) demo_check demo_pem = .ok demo_inverse := by
  decide!

theorem demo_pool_ctor :
    TdpMultPoolImpl_mbedTLS.ctor (demo_parse demo_key) demo_check demo_pem 3 = .ok demo_pool := by
  decide!

theorem demo_two_pow_ne : (2 : ℤ) ^ 65537 % demo_key.N ≠ 8 := by
  have hN : (0 : ℤ) < demo_key.N := demo_key_public.1
  have h := insecure_mod_exp_loop_eq demo_key.N hN 64 1 2 65537 (by norm_num)
  rw [if_neg (by norm_num), one_mul] at h
  intro hc
  rw [hc] at h
  exact absurd h (by decide!)

theorem demo_cipher_ctor (uninit : Cipher.CipherImpl) :
    Cipher.CipherImpl.ctor demo_AES_set_encrypt_key uninit demo_cipher_key
      = .ok demo_cipher := by
  rfl

/-! ## Properties of the trapdoor permutation -/

/-- C1: TDP inverse law. For a valid CRT-form private key and an `Nlen`-byte input `x`
encoding an integer below `N`, `invert` succeeds and `eval` under the same key applied
to its result returns `x`. -/
theorem eval_invert (t : TdpInverseImpl_mbedTLS) (x : List Byte)
    (hv : ValidPrivateKey t.rsa_key_) (hx : x.length = t.rsa_size)
    (hlt : (be_value x : Int) < t.rsa_key_.N) :
    ∃ y, t.invert x = .ok y ∧ t.toTdpImpl_mbedTLS.eval y = .ok x := by
  have hpub := hv.toPublic
  have hN : 0 < t.rsa_key_.N := hpub.1
  have hlen := modulus_lt_pow_len _ hpub
  refine ⟨_, invert_eq t x hv hx hlt, ?_⟩
  obtain ⟨out, hout, holen, hoval⟩ := eval_value t.toTdpImpl_mbedTLS hpub
    (be_bytes t.rsa_size ((be_value x : Int) ^ t.rsa_key_.D.toNat % t.rsa_key_.N).toNat)
    (be_bytes_length _ _)
  rw [hout]
  congr 1
  apply be_value_inj _ _ (by rw [holen, hx])
  have hcast : ((be_value out : ℕ) : ℤ) = (be_value x : ℤ) := by
    rw [hoval, be_value_be_bytes_of_lt _ _ (Int.emod_nonneg _ (by omega))
      (lt_trans (Int.emod_lt_of_pos _ hN) hlen)]
    have e1 : ((be_value x : ℤ) ^ t.rsa_key_.D.toNat % t.rsa_key_.N) ^ t.rsa_key_.E.toNat
        ≡ (be_value x : ℤ) ^ (t.rsa_key_.E.toNat * t.rsa_key_.D.toNat) [ZMOD t.rsa_key_.N] := by
      have := (Int.mod_modEq ((be_value x : ℤ) ^ t.rsa_key_.D.toNat) t.rsa_key_.N).pow
        t.rsa_key_.E.toNat
      rwa [← pow_mul, mul_comm] at this
    have hm : ((t.rsa_key_.E.toNat * t.rsa_key_.D.toNat : ℕ) : ℤ)
        = t.rsa_key_.E * t.rsa_key_.D := by
      push_cast
      rw [Int.toNat_of_nonneg hv.nonneg_E, Int.toNat_of_nonneg hv.nonneg_D]
    obtain ⟨hmp, hmq⟩ := hv.inverse_mod
    rw [← hm] at hmp hmq
    have e2 := e1.trans (rsa_pow_eq hv _ hmp hmq (be_value x : ℤ))
    unfold Int.ModEq at e2
    rw [e2, Int.emod_eq_of_lt (by positivity) hlt]
  exact_mod_cast hcast

/-- Instance of C1 at the example key and input. -/
theorem eval_invert_witness :
    ∃ y, demo_inverse.invert demo_input = .ok y ∧
      demo_inverse.toTdpImpl_mbedTLS.eval y = .ok demo_input :=
  eval_invert demo_inverse demo_input demo_key_valid demo_input_length demo_input_lt

/-- C2: TDP k-fold law. For an inverse TDP built from a valid CRT-form private key, an
`Nlen`-byte input `x` encoding an integer below `N` and `k` in `[0, 2^16]`,
`invert_mult x k` succeeds and `eval` applied `k` times to its result returns `x`. -/
theorem eval_iter_invert_mult (parse_key : List Byte → Option mbedtls_rsa_context)
    (check_pubkey : mbedtls_rsa_context → Bool) (sk : List Byte)
    (t : TdpInverseImpl_mbedTLS) (x : List Byte) (k : ℕ)
    (hctor : TdpInverseImpl_mbedTLS.ctor parse_key check_pubkey sk = .ok t)
    (hv : ValidPrivateKey t.rsa_key_) (hx : x.length = t.rsa_size)
    (hlt : (be_value x : Int) < t.rsa_key_.N) (hk : k ≤ 2 ^ 16) :
    ∃ y, t.invert_mult x k = .ok y ∧ t.toTdpImpl_mbedTLS.eval_iter k y = .ok x := by
  by_cases hk0 : k = 0
  · subst hk0
    exact ⟨x, by simp [TdpInverseImpl_mbedTLS.invert_mult], rfl⟩
  obtain ⟨-, hp1, hq1, -⟩ := TdpInverseImpl_mbedTLS.ctor_cached _ _ _ _ hctor
  have hpub := hv.toPublic
  have hN : 0 < t.rsa_key_.N := hpub.1
  have hlen := modulus_lt_pow_len _ hpub
  obtain ⟨p, q, hp, hq, hne, h2p, h2q, hP, hQ, hNpq⟩ := hv.primes
  have hk64 : k < 2 ^ 64 := lt_of_le_of_lt hk (by norm_num)
  have hchk := invert_mult_chk_eq t hv hp1 hq1 (be_value x : ℤ) k hk0 hk64
  -- the recombined value
  set dp := (t.rsa_key_.DP ^ k % (t.rsa_key_.P - 1)).toNat with hdp
  set dq := (t.rsa_key_.DQ ^ k % (t.rsa_key_.Q - 1)).toNat with hdq
  set X : ℤ := (be_value x : ℤ) with hX
  have hqinv : t.rsa_key_.QP * (q : ℤ) ≡ 1 [ZMOD p] := by
    unfold Int.ModEq
    rw [← hP, ← hQ, hv.crt_QP, Int.emod_eq_of_lt (by norm_num) (by omega)]
  have hyq0 : 0 ≤ X ^ dq % (q : ℤ) := Int.emod_nonneg _ (by omega)
  have hyq1 : X ^ dq % (q : ℤ) < q := Int.emod_lt_of_pos _ (by omega)
  obtain ⟨cp, cq, c0, c1⟩ := crt_recombine p q hp.pos hq.pos t.rsa_key_.QP
    (X ^ dp % (p : ℤ)) (X ^ dq % (q : ℤ)) hqinv hyq0 hyq1
  rw [hP, hQ] at hchk
  set y : ℤ := X ^ dq % (q : ℤ) + (X ^ dp % (p : ℤ) - X ^ dq % (q : ℤ)) * t.rsa_key_.QP
      % (p : ℤ) * (q : ℤ) with hy
  have hyN : y < 256 ^ x.length := by
    rw [hx]; rw [← hNpq] at c1; exact lt_trans c1 hlen
  have hinv : t.invert_mult x k = .ok (be_bytes x.length y.toNat) := by
    have hx' : ¬ x.length ≠ t.rsa_size := by simp [hx]
    simp only [TdpInverseImpl_mbedTLS.invert_mult, hk0, if_false, hx', mbedtls_mpi_read_binary,
      hchk, write_binary_of_lt _ _ c0 hyN]
  refine ⟨_, hinv, ?_⟩
  obtain ⟨out, hout, holen, hoval⟩ := eval_iter_value t.toTdpImpl_mbedTLS hpub k
    (be_bytes x.length y.toNat) (by rw [be_bytes_length, hx])
  rw [hout]
  congr 1
  apply be_value_inj _ _ (by rw [holen, hx])
  have hcast : ((be_value out : ℕ) : ℤ) = X := by
    rw [hoval, if_neg hk0, be_value_be_bytes_of_lt _ _ c0 hyN]
    obtain ⟨hmp, hmq⟩ := hv.inverse_mod
    have e_p : y ^ (t.rsa_key_.E.toNat ^ k) ≡ X [ZMOD p] := by
      have h1 : y ^ (t.rsa_key_.E.toNat ^ k) ≡ (X ^ dp) ^ (t.rsa_key_.E.toNat ^ k) [ZMOD p] :=
        (cp.trans (Int.mod_modEq _ _)).pow _
      rw [← pow_mul] at h1
      have hm := adjusted_exponent t.rsa_key_.E t.rsa_key_.D t.rsa_key_.DP (t.rsa_key_.P - 1)
        k hmp hv.crt_DP hv.nonneg_E (by omega)
      rw [← hdp, hP] at hm
      exact h1.trans (fermat_int p hp h2p _ hm X)
    have e_q : y ^ (t.rsa_key_.E.toNat ^ k) ≡ X [ZMOD q] := by
      have h1 : y ^ (t.rsa_key_.E.toNat ^ k) ≡ (X ^ dq) ^ (t.rsa_key_.E.toNat ^ k) [ZMOD q] :=
        (cq.trans (Int.mod_modEq _ _)).pow _
      rw [← pow_mul] at h1
      have hm := adjusted_exponent t.rsa_key_.E t.rsa_key_.D t.rsa_key_.DQ (t.rsa_key_.Q - 1)
        k hmq hv.crt_DQ hv.nonneg_E (by omega)
      rw [← hdq, hQ] at hm
      exact h1.trans (fermat_int q hq h2q _ hm X)
    have e := modEq_mul_primes p q hp hq hne _ _ e_p e_q
    rw [← hNpq] at e
    unfold Int.ModEq at e
    rw [e, Int.emod_eq_of_lt (by positivity) hlt]
  rw [hX] at hcast
  exact_mod_cast hcast

/-- Instance of C2 at the example key, the example input and `k = 7`. -/
theorem eval_iter_invert_mult_witness :
    ∃ y, demo_inverse.invert_mult demo_input 7 = .ok y ∧
      demo_inverse.toTdpImpl_mbedTLS.eval_iter 7 y = .ok demo_input :=
  eval_iter_invert_mult (demo_parse demo_key) demo_check demo_pem demo_inverse demo_input 7
    demo_inverse_ctor demo_key_valid demo_input_length demo_input_lt (by norm_num)

/-- C3: `invert_mult` with order 0 returns its input unchanged, byte for byte, whatever
the key and whatever the numeric value of the input. -/
theorem invert_mult_zero (t : TdpInverseImpl_mbedTLS) (y : List Byte) :
    t.invert_mult y 0 = .ok y := by
  simp [TdpInverseImpl_mbedTLS.invert_mult]

/-- C4: `eval` is total over valid keys and `Nlen`-byte inputs, its result is the
`Nlen`-byte big-endian encoding of `(X mod N)^E mod N` where `X` is the big-endian value
of the input (whatever its size relative to `N`), and any `Nlen`-byte input encoding
`X mod N` gives the same result. -/
theorem eval_total_reduces (t : TdpImpl_mbedTLS) (x : List Byte)
    (hv : ValidPublicKey t.rsa_key_) (hx : x.length = t.rsa_size) :
    ∃ out, t.eval x = .ok out ∧ out.length = t.rsa_size ∧
      (be_value out : Int)
        = ((be_value x : Int) % t.rsa_key_.N) ^ t.rsa_key_.E.toNat % t.rsa_key_.N ∧
      ∀ r : List Byte, r.length = t.rsa_size →
        (be_value r : Int) = (be_value x : Int) % t.rsa_key_.N → t.eval r = .ok out := by
  have hlt := modulus_lt_pow_len _ hv
  have hN : 0 < t.rsa_key_.N := hv.1
  refine ⟨_, eval_eq t hv x hx, be_bytes_length _ _, ?_, ?_⟩
  · exact be_value_be_bytes_of_lt _ _ (Int.emod_nonneg _ (by omega))
      (lt_trans (Int.emod_lt_of_pos _ hN) hlt)
  · intro r hr hval
    rw [eval_eq t hv r hr, hval, Int.emod_emod_of_dvd _ (dvd_refl _)]

/-- Instance of C4 at the example key and an input above the modulus. -/
theorem eval_total_reduces_witness :
    demo_key.N ≤ (be_value demo_input_large : Int) ∧
    ∃ out, demo_tdp.eval demo_input_large = .ok out ∧ out.length = demo_tdp.rsa_size ∧
      (be_value out : Int)
        = ((be_value demo_input_large : Int) % demo_tdp.rsa_key_.N)
            ^ demo_tdp.rsa_key_.E.toNat % demo_tdp.rsa_key_.N ∧
      ∀ r : List Byte, r.length = demo_tdp.rsa_size →
        (be_value r : Int) = (be_value demo_input_large : Int) % demo_tdp.rsa_key_.N →
          demo_tdp.eval r = .ok out :=
  ⟨demo_input_large_ge,
    eval_total_reduces demo_tdp demo_input_large demo_key_public demo_input_large_length⟩

/-- C6: pool consistency. For a pool of size `s` built from a valid key with public
exponent 65537, every order `o` in `[1, s]` and every `Nlen`-byte input `x`,
`eval_pool x o` equals `eval` applied `o` times to `x`; both are the `Nlen`-byte encoding
of `x^(65537^o) mod N`. -/
theorem eval_pool_consistency (parse_public_key : List Byte → Option mbedtls_rsa_context)
    (check_pubkey : mbedtls_rsa_context → Bool) (sk : List Byte) (s : Nat)
    (pool : TdpMultPoolImpl_mbedTLS) (x : List Byte) (o : Nat) (hs : s ≤ 255)
    (hctor : TdpMultPoolImpl_mbedTLS.ctor parse_public_key check_pubkey sk s = .ok pool)
    (hv : ValidPublicKey pool.rsa_key_) (he : pool.rsa_key_.E = 65537)
    (ho1 : 1 ≤ o) (hos : o ≤ s) (hx : x.length = pool.rsa_size) :
    ∃ out, pool.eval_pool x o = .ok out ∧ pool.toTdpImpl_mbedTLS.eval_iter o x = .ok out ∧
      out.length = pool.rsa_size ∧
      (be_value out : Int) = (be_value x : Int) ^ (65537 ^ o) % pool.rsa_key_.N := by
  obtain ⟨hs2, -, hcount, hklen, hall⟩ :=
    TdpMultPoolImpl_mbedTLS.ctor_ok _ _ _ _ _ hs hctor
  have hlen := modulus_lt_pow_len _ hv
  have hNpos : 0 < pool.rsa_key_.N := hv.1
  obtain ⟨out, hout, holen, hoval⟩ := eval_iter_value pool.toTdpImpl_mbedTLS hv o x hx
  have ho0 : o ≠ 0 := by omega
  rw [if_neg ho0, he] at hoval
  have htoNat : (65537 : Int).toNat = 65537 := rfl
  rw [htoNat] at hoval
  refine ⟨out, ?_, hout, holen, hoval⟩
  -- the key selected by `eval_pool` has exponent `65537 ^ o`
  have hkey : ∃ (ref : KeyRef) (key : mbedtls_rsa_context), pool.select_key o = .ok ref ∧
      pool.deref ref = .ok key ∧ key.N = pool.rsa_key_.N ∧ key.E = 65537 ^ o := by
    by_cases h1 : o = 1
    · subst h1
      exact ⟨.base, pool.rsa_key_, by simp [TdpMultPoolImpl_mbedTLS.select_key], rfl, rfl,
        by rw [he]; norm_num⟩
    · have hmax : o ≤ pool.maximum_order := by
        unfold TdpMultPoolImpl_mbedTLS.maximum_order
        rw [hcount]; omega
      have hidx : (o : Int) - 2 = ((o - 2 : Nat) : Int) := by omega
      refine ⟨.power ((o - 2 : Nat) : Int), power_key pool.rsa_key_ (o - 2), ?_, ?_, rfl, ?_⟩
      · simp [TdpMultPoolImpl_mbedTLS.select_key, h1, hmax, hidx]
      · exact array_get_nat _ _ _ (hall (o - 2) (by omega))
      · have : o - 2 + 1 + 1 = o := by omega
        simp only [power_key, he, RSA_PK]
        rw [← pow_succ', this]
  obtain ⟨ref, key, hsel, hderef, hkN, hkE⟩ := hkey
  have hE0 : 0 ≤ key.E := by rw [hkE]; positivity
  rw [TdpMultPoolImpl_mbedTLS.eval_pool_eq pool key ref x o hsel hderef hkN hE0 hv hx]
  congr 1
  apply be_value_inj _ _ (by rw [be_bytes_length, holen])
  have hEn : key.E.toNat = 65537 ^ o := by
    rw [hkE]
    have : ((65537 : Int) ^ o) = (((65537 ^ o : Nat)) : Int) := by push_cast; rfl
    rw [this, Int.toNat_natCast]
  have hcast : ((be_value (be_bytes pool.rsa_size
      ((be_value x : Int) ^ key.E.toNat % pool.rsa_key_.N).toNat) : Nat) : Int)
      = (be_value out : Int) := by
    rw [be_value_be_bytes_of_lt _ _ (Int.emod_nonneg _ (by omega))
      (lt_trans (Int.emod_lt_of_pos _ hNpos) hlen), hoval, hEn]
  exact_mod_cast hcast

/-- Instance of C6 at the example pool of size 3 and order 3. -/
theorem eval_pool_consistency_witness :
    ∃ out, demo_pool.eval_pool demo_input 3 = .ok out ∧
      demo_pool.toTdpImpl_mbedTLS.eval_iter 3 demo_input = .ok out ∧
      out.length = demo_pool.rsa_size ∧
      (be_value out : Int) = (be_value demo_input : Int) ^ (65537 ^ 3) % demo_pool.rsa_key_.N :=
  eval_pool_consistency (demo_parse demo_key) demo_check demo_pem 3 demo_pool demo_input 3
    (by norm_num) demo_pool_ctor demo_key_public rfl (by norm_num) (by norm_num)
    demo_input_length

/-- C7 (as stated) fails: the pool of size 2 built from the key `(N, 3)` holds at index 0
the exponent `3 * 65537 = 196611`, not `3^2 = 9`. -/
theorem pool_power_key_not_own_power :
    TdpMultPoolImpl_mbedTLS.ctor (demo_parse demo_key_e3) demo_check demo_pem 2
      = .ok demo_pool_e3 ∧
    demo_pool_e3.rsa_key_.E = 3 ∧
    (demo_pool_e3.keys_[0]?).map (fun k => k.E) = some 196611 ∧
    (demo_pool_e3.keys_[0]?).map (fun k => k.E) ≠ some (demo_pool_e3.rsa_key_.E ^ (0 + 2)) := by
  refine ⟨by decide!, rfl, rfl, ?_⟩
  decide

/-- C7 (as amended): in a pool of size `s ≥ 2` whose construction succeeds, the power key
at index `i ≤ s - 2` holds the modulus of the base key and the exponent
`e * 65537^(i+1)`, `e` being the exponent of the base key; this is `e^(i+2)` when
`e = 65537`. For a non-zero `e`, the pool holds `e^(j+2)` at every index `j ≤ s - 2`
exactly when `e = 65537`. -/
theorem pool_power_key_exponent
    (parse_public_key : List Byte → Option mbedtls_rsa_context)
    (check_pubkey : mbedtls_rsa_context → Bool) (sk : List Byte) (s : Nat)
    (pool : TdpMultPoolImpl_mbedTLS) (i : Nat) (hs2 : 2 ≤ s) (hs : s ≤ 255)
    (hctor : TdpMultPoolImpl_mbedTLS.ctor parse_public_key check_pubkey sk s = .ok pool)
    (hi : i ≤ s - 2) :
    parse_public_key sk = some pool.rsa_key_ ∧
    (∃ k, pool.keys_[i]? = some k ∧ k.N = pool.rsa_key_.N ∧
      k.E = pool.rsa_key_.E * 65537 ^ (i + 1) ∧
      (pool.rsa_key_.E = 65537 → k.E = pool.rsa_key_.E ^ (i + 2))) ∧
    (pool.rsa_key_.E ≠ 0 →
      ((∀ j, j ≤ s - 2 → ∃ k, pool.keys_[j]? = some k ∧ k.E = pool.rsa_key_.E ^ (j + 2))
        ↔ pool.rsa_key_.E = 65537)) := by
  obtain ⟨-, hparse, -, -, hall⟩ := TdpMultPoolImpl_mbedTLS.ctor_ok _ _ _ _ _ hs hctor
  have hpow : pool.rsa_key_.E = 65537 → ∀ j : Nat,
      (power_key pool.rsa_key_ j).E = pool.rsa_key_.E ^ (j + 2) := by
    intro he j
    simp only [power_key, RSA_PK, he]
    rw [← pow_succ']
  refine ⟨hparse, ⟨power_key pool.rsa_key_ i, hall i (by omega), rfl, rfl,
    fun he => hpow he i⟩, ?_⟩
  intro hne
  constructor
  · intro hpool
    obtain ⟨k, hk, hkE⟩ := hpool 0 (Nat.zero_le _)
    rw [hall 0 (by omega)] at hk
    injection hk with hk
    subst hk
    simp only [power_key, RSA_PK] at hkE
    have h2 : pool.rsa_key_.E * 65537 = pool.rsa_key_.E * pool.rsa_key_.E := by
      have e1 : pool.rsa_key_.E * 65537 = pool.rsa_key_.E * 65537 ^ (0 + 1) := by ring
      have e2 : pool.rsa_key_.E ^ (0 + 2) = pool.rsa_key_.E * pool.rsa_key_.E := by ring
      rw [e1, hkE, e2]
    exact (mul_left_cancel₀ hne h2).symm
  · intro he j hj
    exact ⟨power_key pool.rsa_key_ j, hall j (by omega), hpow he j⟩

/-- Instance of C7 (as amended) at the example pool of size 3 and index 1. -/
theorem pool_power_key_exponent_witness :
    demo_parse demo_key demo_pem = some demo_pool.rsa_key_ ∧
    (∃ k, demo_pool.keys_[1]? = some k ∧ k.N = demo_pool.rsa_key_.N ∧
      k.E = demo_pool.rsa_key_.E * 65537 ^ (1 + 1) ∧
      (demo_pool.rsa_key_.E = 65537 → k.E = demo_pool.rsa_key_.E ^ (1 + 2))) ∧
    (demo_pool.rsa_key_.E ≠ 0 →
      ((∀ j, j ≤ 3 - 2 → ∃ k, demo_pool.keys_[j]? = some k ∧
          k.E = demo_pool.rsa_key_.E ^ (j + 2))
        ↔ demo_pool.rsa_key_.E = 65537)) :=
  pool_power_key_exponent (demo_parse demo_key) demo_check demo_pem 3 demo_pool 1
    (by norm_num) (by norm_num) demo_pool_ctor (by norm_num)

/-- C8: `eval_pool` with order 0 does not fail with `invalid_argument`: the test
`order <= maximum_order()` holds for 0, `key` is set to `&keys_[-2]`, and the call reads
outside the array (or throws `runtime_error` on a wrongly sized input). -/
theorem eval_pool_order_zero (p : TdpMultPoolImpl_mbedTLS) (x : List Byte) :
    p.select_key 0 = .ok (.power (-2)) ∧
    p.eval_pool x 0 = .error (if x.length ≠ p.rsa_size then .runtime_error
      else .out_of_bounds (-2)) := by
  have hsel : p.select_key 0 = .ok (.power (-2)) := by
    simp [TdpMultPoolImpl_mbedTLS.select_key]
  refine ⟨hsel, ?_⟩
  have hget : array_get p.keys_ (-2) = .error (.out_of_bounds (-2)) := by
    simp [array_get]
  by_cases hx : x.length = p.rsa_size
  · simp [TdpMultPoolImpl_mbedTLS.eval_pool, bind, Except.bind, hsel, hx,
      TdpMultPoolImpl_mbedTLS.deref, hget, pure, Except.pure]
  · simp [TdpMultPoolImpl_mbedTLS.eval_pool, bind, Except.bind, hsel, hx, throw, throwThe,
      MonadExceptOf.throw]

/-- C9 (as stated) fails: for a key string that does not parse, the constructor with
`size = 0` throws `runtime_error`, not `invalid_argument`. -/
theorem pool_ctor_size_zero_bad_key :
    TdpMultPoolImpl_mbedTLS.ctor (demo_parse demo_key) demo_check [] 0
      = .error .runtime_error ∧
    TdpMultPoolImpl_mbedTLS.ctor (demo_parse demo_key) demo_check [] 0
      ≠ .error .invalid_argument := by
  constructor <;> decide

/-- C9 (as amended): with `size = 0` the pool constructor fails before allocating
anything; the exception is `invalid_argument` when the key string parses and passes the
check, and the `runtime_error` of the base-class constructor otherwise. -/
theorem pool_ctor_size_zero (parse_public_key : List Byte → Option mbedtls_rsa_context)
    (check_pubkey : mbedtls_rsa_context → Bool) (sk : List Byte) :
    TdpMultPoolImpl_mbedTLS.ctor_init parse_public_key check_pubkey sk 0
      = .error (match parse_public_key sk with
        | some k => if check_pubkey k = true then .invalid_argument else .runtime_error
        | none => .runtime_error) ∧
    TdpMultPoolImpl_mbedTLS.ctor parse_public_key check_pubkey sk 0
      = .error (match parse_public_key sk with
        | some k => if check_pubkey k = true then .invalid_argument else .runtime_error
        | none => .runtime_error) := by
  unfold TdpMultPoolImpl_mbedTLS.ctor TdpMultPoolImpl_mbedTLS.ctor_init TdpImpl_mbedTLS.ctor
  cases parse_public_key sk with
  | none => simp
  | some k => cases hc : check_pubkey k <;> simp [hc]

/-- C10: with `size = 1` the constructor allocates an array of 0 contexts and then
initialises `keys_[0]`, outside the array. -/
theorem pool_ctor_size_one (parse_public_key : List Byte → Option mbedtls_rsa_context)
    (check_pubkey : mbedtls_rsa_context → Bool) (sk : List Byte) (k : mbedtls_rsa_context)
    (hparse : parse_public_key sk = some k) (hcheck : check_pubkey k = true) :
    TdpMultPoolImpl_mbedTLS.ctor_init parse_public_key check_pubkey sk 1 = .ok (⟨k⟩, 0) ∧
    TdpMultPoolImpl_mbedTLS.ctor parse_public_key check_pubkey sk 1
      = .error (.out_of_bounds 0) := by
  have hinit : TdpMultPoolImpl_mbedTLS.ctor_init parse_public_key check_pubkey sk 1
      = .ok (⟨k⟩, 0) := by
    simp [TdpMultPoolImpl_mbedTLS.ctor_init, TdpImpl_mbedTLS.ctor, hparse, hcheck]
  refine ⟨hinit, ?_⟩
  simp only [TdpMultPoolImpl_mbedTLS.ctor, hinit]
  rfl

/-- Instance of C10 at the example key. -/
theorem pool_ctor_size_one_witness :
    TdpMultPoolImpl_mbedTLS.ctor_init (demo_parse demo_key) demo_check demo_pem 1
      = .ok (⟨demo_key⟩, 0) ∧
    TdpMultPoolImpl_mbedTLS.ctor (demo_parse demo_key) demo_check demo_pem 1
      = .error (.out_of_bounds 0) :=
  pool_ctor_size_one (demo_parse demo_key) demo_check demo_pem demo_key rfl (by decide!)

/-- C11: a pool successfully constructed with size `s` in `[1, 255]` has
`maximum_order() = s` (the member initialiser leaves `keys_count_ = s - 1`, and
`keys_count_ + 1` does not wrap), its copy is constructed successfully and has the same
maximum order. -/
theorem maximum_order_eq_size (parse_public_key : List Byte → Option mbedtls_rsa_context)
    (check_pubkey : mbedtls_rsa_context → Bool) (sk : List Byte) (s : Nat)
    (pool : TdpMultPoolImpl_mbedTLS) (hs1 : 1 ≤ s) (hs : s ≤ 255)
    (hctor : TdpMultPoolImpl_mbedTLS.ctor parse_public_key check_pubkey sk s = .ok pool) :
    pool.keys_count_ = s - 1 ∧ pool.maximum_order = s ∧
      ∃ c, TdpMultPoolImpl_mbedTLS.copy_ctor check_pubkey pool = .ok c ∧
        c.keys_count_ = s - 1 ∧ c.maximum_order = s := by
  obtain ⟨hs2, -, hcount, -, -⟩ := TdpMultPoolImpl_mbedTLS.ctor_ok _ _ _ _ _ hs hctor
  have hmax : pool.maximum_order = s := by
    unfold TdpMultPoolImpl_mbedTLS.maximum_order
    rw [hcount]; omega
  exact ⟨hcount, hmax, pool,
    TdpMultPoolImpl_mbedTLS.copy_ctor_eq _ _ _ _ _ hs hctor, hcount, hmax⟩

/-- Instance of C11 at the example pool of size 3. -/
theorem maximum_order_eq_size_witness :
    demo_pool.keys_count_ = 3 - 1 ∧ demo_pool.maximum_order = 3 ∧
      ∃ c, TdpMultPoolImpl_mbedTLS.copy_ctor demo_check demo_pool = .ok c ∧
        c.keys_count_ = 3 - 1 ∧ c.maximum_order = 3 :=
  maximum_order_eq_size (demo_parse demo_key) demo_check demo_pem 3 demo_pool
    (by norm_num) (by norm_num) demo_pool_ctor

/-- C12: the assignment of pools does not copy the base key. After
`demo_pool_e3 = demo_pool` (base keys `(N, 3)` and `(N, 65537)`) the object holds the
power keys and the maximum order of `demo_pool` but still its own base key `(N, 3)`, and
`eval_pool` at order 1 differs from that of `demo_pool` on the input encoding 2. -/
theorem pool_assign_keeps_base_key :
    TdpMultPoolImpl_mbedTLS.assign demo_check demo_pool_e3 demo_pool = .ok demo_pool_assigned ∧
    demo_pool_assigned.maximum_order = demo_pool.maximum_order ∧
    demo_pool_assigned.keys_ = demo_pool.keys_ ∧
    demo_pool_assigned.rsa_key_ = demo_pool_e3.rsa_key_ ∧
    demo_pool_assigned.rsa_key_ ≠ demo_pool.rsa_key_ ∧
    demo_pool_assigned.eval_pool demo_input_two 1 ≠ demo_pool.eval_pool demo_input_two 1 := by
  refine ⟨by decide!, rfl, rfl, rfl, by decide!, ?_⟩
  have h1 : demo_pool_assigned.eval_pool demo_input_two 1
      = .ok (List.replicate 255 0 ++ [8]) := by decide!
  have hx : demo_input_two.length = demo_pool.rsa_size := by decide!
  have h2 := TdpMultPoolImpl_mbedTLS.eval_pool_eq demo_pool demo_pool.rsa_key_ .base
    demo_input_two 1 (by decide!) rfl rfl (by decide!) demo_key_public hx
  rw [h1, h2]
  intro hc
  have hc' := congrArg be_value (Except.ok.inj hc)
  have hN : (0 : ℤ) < demo_key.N := demo_key_public.1
  have hlen := modulus_lt_pow_len _ demo_key_public
  have hv : ((be_value (be_bytes demo_pool.rsa_size
      ((be_value demo_input_two : ℤ) ^ demo_pool.rsa_key_.E.toNat
        % demo_pool.rsa_key_.N).toNat) : ℕ) : ℤ)
      = (be_value demo_input_two : ℤ) ^ demo_pool.rsa_key_.E.toNat % demo_pool.rsa_key_.N :=
    be_value_be_bytes_of_lt _ _ (Int.emod_nonneg _ (by decide!))
      (lt_trans (Int.emod_lt_of_pos _ hN) hlen)
  rw [← hc'] at hv
  have h8 : ((be_value (List.replicate 255 0 ++ [8] : List Byte) : ℕ) : ℤ) = 8 := by decide!
  have hx2 : (be_value demo_input_two : ℤ) = 2 := by decide!
  have hE : demo_pool.rsa_key_.E.toNat = 65537 := rfl
  rw [h8, hx2, hE] at hv
  exact demo_two_pow_ne hv.symm

/-! ## Properties of the cipher -/

/-- C13: the string overload of `decrypt` does not give back the plaintext. For a
plaintext `P` within the block budget, the string overload of `encrypt` succeeds, and
the string overload of `decrypt` applied to its output reads the input at index
`|P| + 11`, six bytes past its last byte, because it passes the length of the whole
input, initialisation vector included, as the length of the data. Only the pointer
overload called with the right length, `|P|`, gives `P` back. -/
theorem decrypt_encrypt_out_of_bounds (ks : List Byte → List Byte → Nat → Byte)
    (c : Cipher.CipherImpl) (P out0 out1 : List Byte)
    (hiv : c.iv_.length = Cipher.CipherImpl.kIVSize)
    (hbudget : P.length / 16 ≤ c.remaining_block_count_)
    (hlen : P.length + Cipher.CipherImpl.kIVSize < 2 ^ 32) :
    (c.encrypt ks P out0).1 = none ∧
    ((c.encrypt ks P out0).2.1.decrypt ks (c.encrypt ks P out0).2.2 out1).1
      = some (.out_of_bounds ((P.length + 11 : Nat) : Int)) ∧
    (c.encrypt ks P out0).2.1.decrypt_raw ks (c.encrypt ks P out0).2.2 P.length
      (List.replicate P.length 0) = .ok P := by
  have hk : Cipher.CipherImpl.kIVSize = 6 := rfl
  rw [encrypt_eq ks c P out0 hiv hbudget hlen]
  refine ⟨rfl, ?_, ?_⟩
  · dsimp only
    rw [decrypt_out_of_bounds _ _ _ _
      (by simp only [List.length_append, ctr_xor_length]; omega)]
    simp only [List.length_append, ctr_xor_length, hiv]
    rw [if_neg (by omega)]
    congr 3
    omega
  · dsimp only
    have h := decrypt_raw_eq ks
      { c with remaining_block_count_ := c.remaining_block_count_ - P.length / 16 } c.iv_
      (ctr_xor (ks c.aes_enc_key_
        (List.replicate (AES_BLOCK_SIZE - Cipher.CipherImpl.kIVSize) 0 ++ c.iv_)) 0 P)
      (List.replicate P.length 0) hiv (by simp [ctr_xor_length])
    rw [ctr_xor_length] at h
    rw [h, ctr_xor_ctr_xor]

/-- Instance of C13 at the example cipher and the one-byte plaintext. -/
theorem decrypt_encrypt_out_of_bounds_witness :
    (demo_cipher.encrypt demo_keystream demo_plaintext []).1 = none ∧
    ((demo_cipher.encrypt demo_keystream demo_plaintext []).2.1.decrypt demo_keystream
      (demo_cipher.encrypt demo_keystream demo_plaintext []).2.2 []).1
      = some (.out_of_bounds ((demo_plaintext.length + 11 : Nat) : Int)) ∧
    (demo_cipher.encrypt demo_keystream demo_plaintext []).2.1.decrypt_raw demo_keystream
      (demo_cipher.encrypt demo_keystream demo_plaintext []).2.2 demo_plaintext.length
      (List.replicate demo_plaintext.length 0) = .ok demo_plaintext :=
  decrypt_encrypt_out_of_bounds demo_keystream demo_cipher demo_plaintext [] []
    (by decide) (by decide) (by decide)

/-- C14: the ciphertext of `encrypt` is `|P| + 6` bytes long, not `|P| + 32`. For a
plaintext `P` within the block budget the string overload of `encrypt` succeeds and
its output is the 6 bytes of `iv_` followed by the `|P|` bytes of `P` XORed with the
key stream: there is no 16-byte nonce and no tag, and the length differs from
`Cipher::ciphertext_length(|P|)`. -/
theorem encrypt_output_length (ks : List Byte → List Byte → Nat → Byte)
    (c : Cipher.CipherImpl) (P out : List Byte)
    (hiv : c.iv_.length = Cipher.CipherImpl.kIVSize)
    (hbudget : P.length / 16 ≤ c.remaining_block_count_)
    (hlen : P.length + Cipher.CipherImpl.kIVSize < 2 ^ 32) :
    (c.encrypt ks P out).1 = none ∧
    (c.encrypt ks P out).2.2
      = c.iv_ ++ ctr_xor (ks c.aes_enc_key_
          (List.replicate (AES_BLOCK_SIZE - Cipher.CipherImpl.kIVSize) 0 ++ c.iv_)) 0 P ∧
    (c.encrypt ks P out).2.2.length = P.length + 6 ∧
    (c.encrypt ks P out).2.2.length ≠ Cipher.ciphertext_length P.length := by
  have hk : Cipher.CipherImpl.kIVSize = 6 := rfl
  rw [encrypt_eq ks c P out hiv hbudget hlen]
  have hl : (c.iv_ ++ ctr_xor (ks c.aes_enc_key_
      (List.replicate (AES_BLOCK_SIZE - Cipher.CipherImpl.kIVSize) 0 ++ c.iv_)) 0 P).length
      = P.length + 6 := by
    simp only [List.length_append, ctr_xor_length, hiv]
    omega
  refine ⟨rfl, rfl, hl, ?_⟩
  dsimp only
  rw [hl]
  unfold Cipher.ciphertext_length Cipher.kCiphertextExpansion
  omega

/-- Instance of C14 at the example cipher and the one-byte plaintext. -/
theorem encrypt_output_length_witness :
    (demo_cipher.encrypt demo_keystream demo_plaintext []).1 = none ∧
    (demo_cipher.encrypt demo_keystream demo_plaintext []).2.2
      = demo_cipher.iv_ ++ ctr_xor (demo_keystream demo_cipher.aes_enc_key_
          (List.replicate (AES_BLOCK_SIZE - Cipher.CipherImpl.kIVSize) 0 ++ demo_cipher.iv_))
          0 demo_plaintext ∧
    (demo_cipher.encrypt demo_keystream demo_plaintext []).2.2.length
      = demo_plaintext.length + 6 ∧
    (demo_cipher.encrypt demo_keystream demo_plaintext []).2.2.length
      ≠ Cipher.ciphertext_length demo_plaintext.length :=
  encrypt_output_length demo_keystream demo_cipher demo_plaintext []
    (by decide) (by decide) (by decide)

/-- C15: `decrypt` detects no tampering. With `K` the key stream of the object, the
ciphertext of `P ++ [b]` is `iv_ ++ ctr_xor K 0 P ++ [b XOR K |P|]`; when its last byte
is replaced by any byte `d`, the pointer overload of `decrypt` returns the plaintext
`P ++ [d XOR K |P|]` without an error, and neither overload ever throws
`runtime_error` (nor `invalid_argument`): no tag is computed or verified. -/
theorem decrypt_accepts_tampered (ks : List Byte → List Byte → Nat → Byte)
    (c : Cipher.CipherImpl) (P out : List Byte) (b d : Byte)
    (hiv : c.iv_.length = Cipher.CipherImpl.kIVSize)
    (hbudget : (P ++ [b]).length / 16 ≤ c.remaining_block_count_)
    (hlen : (P ++ [b]).length + Cipher.CipherImpl.kIVSize < 2 ^ 32) :
    (c.encrypt ks (P ++ [b]) out).2.2
      = c.iv_ ++ (ctr_xor (ks c.aes_enc_key_
          (List.replicate (AES_BLOCK_SIZE - Cipher.CipherImpl.kIVSize) 0 ++ c.iv_)) 0 P
        ++ [b ^^^ ks c.aes_enc_key_
          (List.replicate (AES_BLOCK_SIZE - Cipher.CipherImpl.kIVSize) 0 ++ c.iv_) P.length]) ∧
    c.decrypt_raw ks
        (c.iv_ ++ (ctr_xor (ks c.aes_enc_key_
          (List.replicate (AES_BLOCK_SIZE - Cipher.CipherImpl.kIVSize) 0 ++ c.iv_)) 0 P ++ [d]))
        (P.length + 1) (List.replicate (P.length + 1) 0)
      = .ok (P ++ [d ^^^ ks c.aes_enc_key_
          (List.replicate (AES_BLOCK_SIZE - Cipher.CipherImpl.kIVSize) 0 ++ c.iv_) P.length]) ∧
    (∀ (X : List Byte) (len : Nat) (o : List Byte),
      c.decrypt_raw ks X len o ≠ .error .runtime_error) ∧
    (∀ X o : List Byte, (c.decrypt ks X o).1 ≠ some .runtime_error) := by
  refine ⟨?_, ?_, fun X len o => (decrypt_raw_not_throwing ks c X len o).2,
    fun X o => (decrypt_not_throwing ks c X o).2⟩
  · rw [encrypt_eq ks c (P ++ [b]) out hiv hbudget hlen, ctr_xor_append]
    simp [ctr_xor]
  · have h := decrypt_raw_eq ks c c.iv_
      (ctr_xor (ks c.aes_enc_key_
        (List.replicate (AES_BLOCK_SIZE - Cipher.CipherImpl.kIVSize) 0 ++ c.iv_)) 0 P ++ [d])
      (List.replicate (P.length + 1) 0) hiv (by simp [ctr_xor_length])
    have hl : (ctr_xor (ks c.aes_enc_key_
        (List.replicate (AES_BLOCK_SIZE - Cipher.CipherImpl.kIVSize) 0 ++ c.iv_)) 0 P
        ++ [d]).length = P.length + 1 := by simp [ctr_xor_length]
    rw [hl] at h
    rw [h, ctr_xor_append, ctr_xor_ctr_xor, ctr_xor_length]
    simp [ctr_xor]


/-- Instance of C15 at the example cipher: the plaintext byte `0x61`, the last byte of
the ciphertext replaced by `0xff`. -/
theorem decrypt_accepts_tampered_witness :
    (demo_cipher.encrypt demo_keystream ([] ++ [0x61]) []).2.2
      = demo_cipher.iv_ ++ (ctr_xor (demo_keystream demo_cipher.aes_enc_key_
          (List.replicate (AES_BLOCK_SIZE - Cipher.CipherImpl.kIVSize) 0 ++ demo_cipher.iv_))
          0 []
        ++ [0x61 ^^^ demo_keystream demo_cipher.aes_enc_key_
          (List.replicate (AES_BLOCK_SIZE - Cipher.CipherImpl.kIVSize) 0 ++ demo_cipher.iv_)
          ([] : List Byte).length]) ∧
    demo_cipher.decrypt_raw demo_keystream
        (demo_cipher.iv_ ++ (ctr_xor (demo_keystream demo_cipher.aes_enc_key_
          (List.replicate (AES_BLOCK_SIZE - Cipher.CipherImpl.kIVSize) 0 ++ demo_cipher.iv_))
          0 [] ++ [0xff]))
        (([] : List Byte).length + 1) (List.replicate (([] : List Byte).length + 1) 0)
      = .ok ([] ++ [0xff ^^^ demo_keystream demo_cipher.aes_enc_key_
          (List.replicate (AES_BLOCK_SIZE - Cipher.CipherImpl.kIVSize) 0 ++ demo_cipher.iv_)
          ([] : List Byte).length]) ∧
    (∀ (X : List Byte) (len : Nat) (o : List Byte),
      demo_cipher.decrypt_raw demo_keystream X len o ≠ .error .runtime_error) ∧
    (∀ X o : List Byte, (demo_cipher.decrypt demo_keystream X o).1 ≠ some .runtime_error) :=
  decrypt_accepts_tampered demo_keystream demo_cipher [] [] 0x61 0xff
    (by decide) (by decide) (by decide)

/-- C16: `encrypt` accepts the empty plaintext. On an object with a 6-byte `iv_` the
string overload of `encrypt` applied to the empty string succeeds, leaves the object
as it is and outputs the 6 bytes of `iv_`. It throws `invalid_argument` for no input at
all, and it does succeed for every plaintext within the block budget whose length plus
6 fits an `unsigned int`. -/
theorem encrypt_empty_succeeds (ks : List Byte → List Byte → Nat → Byte)
    (c : Cipher.CipherImpl) (out : List Byte)
    (hiv : c.iv_.length = Cipher.CipherImpl.kIVSize) :
    c.encrypt ks [] out = (none, c, c.iv_) ∧
    (∀ P o : List Byte, (c.encrypt ks P o).1 ≠ some .invalid_argument) ∧
    (∀ P o : List Byte, P.length / 16 ≤ c.remaining_block_count_ →
      P.length + Cipher.CipherImpl.kIVSize < 2 ^ 32 → (c.encrypt ks P o).1 = none) := by
  refine ⟨?_, fun P o => encrypt_not_invalid_argument ks c P o, ?_⟩
  · rw [encrypt_eq ks c [] out hiv (by simp) (by decide)]
    simp [ctr_xor]
  · intro P o hb hl
    rw [encrypt_eq ks c P o hiv hb hl]

/-- Instance of C16 at the example cipher. -/
theorem encrypt_empty_succeeds_witness :
    demo_cipher.encrypt demo_keystream [] [] = (none, demo_cipher, demo_cipher.iv_) ∧
    (∀ P o : List Byte, (demo_cipher.encrypt demo_keystream P o).1 ≠ some .invalid_argument) ∧
    (∀ P o : List Byte, P.length / 16 ≤ demo_cipher.remaining_block_count_ →
      P.length + Cipher.CipherImpl.kIVSize < 2 ^ 32 →
      (demo_cipher.encrypt demo_keystream P o).1 = none) :=
  encrypt_empty_succeeds demo_keystream demo_cipher [] (by decide)

/-- C17: `decrypt` checks no length. For an input `X` shorter than 32 bytes the string
overload of `decrypt` does not throw `invalid_argument`: it resizes the output to
`(|X| - 6) mod 2^32` bytes and then reads outside `X`. When `|X| < 6` the subtraction
wraps around, the output is resized to `2^32 - 6 + |X|` bytes and the read at index 5
of `X` is out of bounds. -/
theorem decrypt_short_input (ks : List Byte → List Byte → Nat → Byte)
    (c : Cipher.CipherImpl) (X out : List Byte) (hX : X.length < 32) :
    (c.decrypt ks X out).1 ≠ some .invalid_argument ∧
    (∃ i : Int, (c.decrypt ks X out).1 = some (.out_of_bounds i) ∧ (X.length : Int) ≤ i) ∧
    (c.decrypt ks X out).2.length = (X.length + 2 ^ 32 - 6) % 2 ^ 32 ∧
    (X.length < 6 → (c.decrypt ks X out).1 = some (.out_of_bounds 5) ∧
      (c.decrypt ks X out).2.length = 2 ^ 32 - 6 + X.length) := by
  have hk : Cipher.CipherImpl.kIVSize = 6 := rfl
  have h1 := decrypt_out_of_bounds ks c X out (by omega)
  have h2 := decrypt_out_length ks c X out (by rw [h1]; simp)
  have h3 : X.length % 2 ^ 32 = X.length := Nat.mod_eq_of_lt (by omega)
  rw [h3, hk] at h2
  refine ⟨(decrypt_not_throwing ks c X out).1, ?_, h2, ?_⟩
  · rw [h1]
    by_cases h6 : X.length < Cipher.CipherImpl.kIVSize
    · refine ⟨5, by rw [if_pos h6], ?_⟩
      rw [hk] at h6
      omega
    · refine ⟨_, by rw [if_neg h6], ?_⟩
      rw [hk] at h6 ⊢
      omega
  · intro h6
    refine ⟨?_, ?_⟩
    · rw [h1, if_pos (by rw [hk]; exact h6)]
    · rw [h2]
      omega

/-- Instance of C17 at the example cipher and the empty input. -/
theorem decrypt_short_input_witness :
    (demo_cipher.decrypt demo_keystream [] []).1 ≠ some .invalid_argument ∧
    (∃ i : Int, (demo_cipher.decrypt demo_keystream [] []).1 = some (.out_of_bounds i) ∧
      ((([] : List Byte).length : Nat) : Int) ≤ i) ∧
    (demo_cipher.decrypt demo_keystream [] []).2.length
      = (([] : List Byte).length + 2 ^ 32 - 6) % 2 ^ 32 ∧
    (([] : List Byte).length < 6 →
      (demo_cipher.decrypt demo_keystream [] []).1 = some (.out_of_bounds 5) ∧
      (demo_cipher.decrypt demo_keystream [] []).2.length
        = 2 ^ 32 - 6 + ([] : List Byte).length) :=
  decrypt_short_input demo_keystream demo_cipher [] [] (by decide)

/-- C18: for every `n` with `n + 32 < 2^64`, `Cipher::ciphertext_length(n) = n + 32`; in
general it is `(n + 32) mod 2^64`; `kCiphertextExpansion = 32` and `kKeySize = 32`. -/
theorem ciphertext_length_eq (n : Nat) (h : n + 32 < 2 ^ 64) :
    Cipher.ciphertext_length n = n + 32 ∧
    (∀ m : Nat, Cipher.ciphertext_length m = (m + 32) % 2 ^ 64) ∧
    Cipher.kCiphertextExpansion = 32 ∧ Cipher.kKeySize = 32 := by
  refine ⟨?_, fun m => rfl, rfl, rfl⟩
  unfold Cipher.ciphertext_length Cipher.kCiphertextExpansion
  exact Nat.mod_eq_of_lt h

/-- Instance of C18 at `n = 5`. -/
theorem ciphertext_length_eq_witness :
    Cipher.ciphertext_length 5 = 5 + 32 ∧
    (∀ m : Nat, Cipher.ciphertext_length m = (m + 32) % 2 ^ 64) ∧
    Cipher.kCiphertextExpansion = 32 ∧ Cipher.kKeySize = 32 :=
  ciphertext_length_eq 5 (by decide)

/-- C19: for every `m`, `Cipher::plaintext_length(m)` is `max (m - 32) 0` computed over
the integers: `m - 32` when `m > 32` and `0` when `m ≤ 32`; it never exceeds `m`, so
nothing wraps around. -/
theorem plaintext_length_eq (m : Nat) :
    (Cipher.plaintext_length m : Int) = max ((m : Int) - 32) 0 ∧
    (32 < m → Cipher.plaintext_length m = m - 32) ∧
    (m ≤ 32 → Cipher.plaintext_length m = 0) ∧
    Cipher.plaintext_length m ≤ m := by
  unfold Cipher.plaintext_length Cipher.kCiphertextExpansion
  by_cases h : m > 32
  · rw [if_pos h]
    refine ⟨?_, fun _ => rfl, fun h2 => by omega, by omega⟩
    rw [max_eq_left (by omega)]
    omega
  · rw [if_neg h]
    refine ⟨?_, fun h2 => by omega, fun _ => rfl, by omega⟩
    rw [max_eq_right (by omega)]
    rfl

/-- Instance of C19 at `m = 40`. -/
theorem plaintext_length_eq_witness :
    (Cipher.plaintext_length 40 : Int) = max ((40 : Int) - 32) 0 ∧
    (32 < 40 → Cipher.plaintext_length 40 = 40 - 32) ∧
    (40 ≤ 32 → Cipher.plaintext_length 40 = 0) ∧
    Cipher.plaintext_length 40 ≤ 40 :=
  plaintext_length_eq 40

/-! ## Properties of the string overload of `eval` -/

/-- C20: the string overload of `eval` throws `invalid_argument` exactly when the input
length differs from `rsa_size()`; whenever it throws, `out` is left as it was; when it
returns, `out` holds exactly `Nlen` bytes, the result of the array overload on the same
input; and it does return on a valid key when the arrays hold `Nlen` bytes. -/
theorem eval_string_contract (kMessageSpaceSize : Nat) (t : TdpImpl_mbedTLS)
    (inp out : List Byte) :
    ((t.eval_string kMessageSpaceSize inp out).1 = some .invalid_argument
      ↔ inp.length ≠ t.rsa_size) ∧
    ((t.eval_string kMessageSpaceSize inp out).1 ≠ none →
      (t.eval_string kMessageSpaceSize inp out).2 = out) ∧
    ((t.eval_string kMessageSpaceSize inp out).1 = none →
      (t.eval_string kMessageSpaceSize inp out).2.length = t.rsa_size ∧
      t.eval inp = .ok (t.eval_string kMessageSpaceSize inp out).2) ∧
    (ValidPublicKey t.rsa_key_ → kMessageSpaceSize = t.rsa_size → inp.length = t.rsa_size →
      (t.eval_string kMessageSpaceSize inp out).1 = none) := by
  by_cases hlen : inp.length = t.rsa_size
  · have hne : ¬ inp.length ≠ t.rsa_size := by simp [hlen]
    cases hr : buf_read inp 0 kMessageSpaceSize with
    | error e =>
      have he : e ≠ .invalid_argument := by
        intro hc; rw [hc] at hr; exact buf_read_not_invalid_argument _ _ _ hr
      have hs : t.eval_string kMessageSpaceSize inp out = (some e, out) := by
        simp only [TdpImpl_mbedTLS.eval_string, hne, if_false, hr]
      rw [hs]
      refine ⟨⟨fun h => absurd (Option.some.inj h) he, fun h => absurd hlen h⟩,
        fun _ => rfl, fun h => absurd h (by simp), ?_⟩
      intro _ hk _
      rw [hk, ← hlen, buf_read_all] at hr
      exact absurd hr (by simp)
    | ok in_array =>
      cases hev : t.eval in_array with
      | error e =>
        have he : e ≠ .invalid_argument := by
          intro hc; rw [hc] at hev; exact t.eval_not_invalid_argument _ hev
        have hs : t.eval_string kMessageSpaceSize inp out = (some e, out) := by
          simp only [TdpImpl_mbedTLS.eval_string, hne, if_false, hr, hev]
        rw [hs]
        refine ⟨⟨fun h => absurd (Option.some.inj h) he, fun h => absurd hlen h⟩,
          fun _ => rfl, fun h => absurd h (by simp), ?_⟩
        intro hv hk _
        rw [hk, ← hlen, buf_read_all] at hr
        injection hr with hr
        subst hr
        rw [eval_eq t hv _ hlen] at hev
        exact absurd hev (by simp)
      | ok out_array =>
        have hs : t.eval_string kMessageSpaceSize inp out = (none, out_array) := by
          simp only [TdpImpl_mbedTLS.eval_string, hne, if_false, hr, hev]
        rw [hs]
        obtain ⟨hin, hout⟩ := t.eval_ok_length _ _ hev
        have hk : kMessageSpaceSize = inp.length := by
          rw [← buf_read_length _ _ _ _ hr, hin, hlen]
        have hinp : in_array = inp := by
          rw [hk, buf_read_all] at hr
          exact (Except.ok.inj hr).symm
        refine ⟨⟨fun h => absurd h (by simp), fun h => absurd hlen h⟩,
          fun h => absurd rfl h, fun _ => ⟨hout, ?_⟩, fun _ _ _ => rfl⟩
        rw [← hinp]; exact hev
  · have hs : t.eval_string kMessageSpaceSize inp out = (some .invalid_argument, out) := by
      simp only [TdpImpl_mbedTLS.eval_string, ne_eq, hlen, not_false_eq_true, if_true]
    rw [hs]
    exact ⟨⟨fun _ => hlen, fun _ => rfl⟩, fun _ => rfl, fun h => absurd h (by simp),
      fun _ _ h => absurd h hlen⟩

/-- Instance of C20 at the example key: a 256-byte input is accepted, a 255-byte input
is rejected. -/
theorem eval_string_contract_witness :
    (demo_tdp.eval_string 256 demo_input []).1 = none ∧
    (demo_tdp.eval_string 256 demo_input []).2.length = 256 ∧
    demo_tdp.eval demo_input = .ok (demo_tdp.eval_string 256 demo_input []).2 ∧
    demo_tdp.eval_string 256 (List.replicate 255 42) [7] = (some .invalid_argument, [7]) := by
  have h := eval_string_contract 256 demo_tdp demo_input []
  have h1 := h.2.2.2 demo_key_public rfl demo_input_length
  have h2 := h.2.2.1 h1
  refine ⟨h1, h2.1, h2.2, ?_⟩
  have h' := eval_string_contract 256 demo_tdp (List.replicate 255 42) [7]
  have h3 := h'.1.2 (by decide!)
  have h4 := h'.2.1 (by rw [h3]; simp)
  exact Prod.ext h3 h4

/-! ## Properties of the string overloads, the PRF, `invert_mult` and the cipher state -/

/-- C21: the string overload of `invert` throws `invalid_argument` for every input whose
length differs from `rsa_size()`, whatever the private-key operation would do (it is not
called), and `out` is left as it was. For an input of `rsa_size()` bytes the outcome is
that of the private-key operation. -/
theorem invert_string_wrong_size
    (rsa_private : mbedtls_rsa_context → List Byte → Option (List Byte))
    (t : TdpInverseImpl_mbedTLS) (inp out : List Byte) (h : inp.length ≠ t.rsa_size) :
    t.invert_string rsa_private inp out = (some .invalid_argument, out) ∧
    (∀ x : List Byte, x.length = t.rsa_size →
      t.invert_string rsa_private x out
        = match rsa_private t.rsa_key_ x with
          | none => (some .invalid_argument, out)
          | some rsa_out => (none, rsa_out.take t.rsa_size)) := by
  refine ⟨by simp [TdpInverseImpl_mbedTLS.invert_string, h], ?_⟩
  intro x hx
  have hx2 : x.length = t.rsa_key_.len := hx
  simp only [TdpInverseImpl_mbedTLS.invert_string, hx, ne_eq, not_true_eq_false, if_false]
  rw [List.take_of_length_le (by omega)]

/-- Instance of C21 at the example key and an input of 255 bytes. -/
theorem invert_string_wrong_size_witness :
    demo_inverse.invert_string mbedtls_rsa_private (List.replicate 255 42) [7]
      = (some .invalid_argument, [7]) ∧
    (∀ x : List Byte, x.length = demo_inverse.rsa_size →
      demo_inverse.invert_string mbedtls_rsa_private x [7]
        = match mbedtls_rsa_private demo_inverse.rsa_key_ x with
          | none => (some .invalid_argument, [7])
          | some rsa_out => (none, rsa_out.take demo_inverse.rsa_size)) :=
  invert_string_wrong_size mbedtls_rsa_private demo_inverse (List.replicate 255 42) [7]
    (by rw [List.length_replicate]; decide)

/-- C22: `Prf<64>::prf` is HMAC-SHA-512 in full. For every key read by the constructor
and every input, the PRF of output length 64 returns the 64 bytes of HMAC-SHA-512 of
the input under that key; the four tests of `tests/prf_hmac.cpp` pass, the first of
which is RFC 4231 test case 1 (key 20 bytes `0x0b`, input "Hi There", digest
`87aa7cde...3a126854`). -/
theorem prf_64_eq_hmac_sha512 (k : List Byte) (len : Nat) (input : List Byte) :
    (Prf.ctor k len).prf 64 input = hmac_sha512 (k.take len) input ∧
    ((Prf.ctor k len).prf 64 input).length = 64 ∧
    hmac_test_case_1 = true ∧ hmac_test_case_2 = true ∧ hmac_test_case_4 = true ∧
    hmac_tests = true := by
  have h : (Prf.ctor k len).prf 64 input = hmac_sha512 (k.take len) input := by
    unfold Prf.prf Prf.ctor
    rw [if_pos le_rfl]
    exact List.take_of_length_le (by rw [hmac_sha512_length])
  refine ⟨h, by rw [h, hmac_sha512_length], hmac_test_case_1_passes, hmac_test_case_2_passes,
    hmac_test_case_4_passes, ?_⟩
  simp [hmac_tests, hmac_test_case_1_passes, hmac_test_case_2_passes,
    hmac_test_case_3_passes, hmac_test_case_4_passes]

/-- C23 (as stated) fails: at `E = 0`, `N = 1` the function `insecure_mod_exp` returns
code 0 with `X = 1`, while `A^0 mod 1 = 0`; here with `A = 5`. -/
theorem insecure_mod_exp_zero_modulus_one :
    insecure_mod_exp 5 0 1 = some 1 ∧ ((5 : Int) ^ 0 % 1 = 0) ∧
    insecure_mod_exp 5 0 1 ≠ some ((5 : Int) ^ 0 % 1) := by
  refine ⟨by decide!, by decide, by decide!⟩

/-- C23 (as amended): for every integer `A`, every 64-bit exponent `E` and every positive
modulus `N`, odd or even, other than the pair `E = 0`, `N = 1`, `insecure_mod_exp`
returns code 0 with `X = A^E mod N`. The calls in `invert_mult` have `E = order ≥ 1`:
the checked sequence of `invert_mult` is entered only for `order ≠ 0`, and order 0
returns the input before any call. -/
theorem insecure_mod_exp_correct (A : Int) (E : Nat) (N : Int) (hN : 0 < N)
    (hE : E < 2 ^ 64) (h : E ≠ 0 ∨ 2 ≤ N) :
    insecure_mod_exp A E N = some (A ^ E % N) ∧
    (∀ (t : TdpInverseImpl_mbedTLS) (x : List Byte), t.invert_mult x 0 = .ok x) := by
  refine ⟨?_, fun t x => by simp [TdpInverseImpl_mbedTLS.invert_mult]⟩
  rw [insecure_mod_exp_eq A E N hN hE]
  by_cases h0 : E = 0
  · subst h0
    have h2 : 2 ≤ N := by
      rcases h with h | h
      · exact absurd rfl h
      · exact h
    simp only [if_true, pow_zero]
    rw [Int.emod_eq_of_lt (by norm_num) (by omega)]
  · rw [if_neg h0]

/-- Instance of C23 (as amended) at an even modulus: `7^5 mod 10`. -/
theorem insecure_mod_exp_correct_witness :
    insecure_mod_exp 7 5 10 = some ((7 : Int) ^ 5 % 10) ∧
    (∀ (t : TdpInverseImpl_mbedTLS) (x : List Byte), t.invert_mult x 0 = .ok x) :=
  insecure_mod_exp_correct 7 5 10 (by norm_num) (by norm_num) (Or.inl (by norm_num))

/-- C24: the CRT recombination of `invert_mult` is correct. For a key with primes `P`
and `Q` (distinct, as `QP * Q = 1 mod P`), `N = P * Q` and `len` the byte length of `N`,
and residues
`0 ≤ y_p < P`, `0 ≤ y_q < Q` (in any order), the recombination returns
`x = y_q + ((y_p - y_q) * QP mod P) * Q`, with `x mod P = y_p`, `x mod Q = y_q` and
`0 ≤ x < P * Q`; writing `x` on `len` bytes succeeds and gives the encoding of `x`. -/
theorem invert_mult_crt_correct (t : TdpInverseImpl_mbedTLS) (y_p y_q : Int)
    (hP : Nat.Prime t.rsa_key_.P.toNat) (hQ : Nat.Prime t.rsa_key_.Q.toNat)
    (hN : t.rsa_key_.N = t.rsa_key_.P * t.rsa_key_.Q)
    (hlen : t.rsa_key_.len = mbedtls_mpi_size t.rsa_key_.N)
    (hinv : (t.rsa_key_.QP * t.rsa_key_.Q) % t.rsa_key_.P = 1)
    (hp0 : 0 ≤ y_p) (hp1 : y_p < t.rsa_key_.P) (hq0 : 0 ≤ y_q) (hq1 : y_q < t.rsa_key_.Q) :
    ∃ x, t.invert_mult_crt y_p y_q = some x ∧
      x = y_q + ((y_p - y_q) * t.rsa_key_.QP % t.rsa_key_.P) * t.rsa_key_.Q ∧
      x % t.rsa_key_.P = y_p ∧ x % t.rsa_key_.Q = y_q ∧
      0 ≤ x ∧ x < t.rsa_key_.P * t.rsa_key_.Q ∧
      ∃ bytes, mbedtls_mpi_write_binary x t.rsa_size = some bytes ∧
        bytes.length = t.rsa_size ∧ (be_value bytes : Int) = x := by
  have hPpos : 0 < t.rsa_key_.P := by omega
  have hQpos : 0 < t.rsa_key_.Q := by omega
  have hPn : ((t.rsa_key_.P.toNat : Nat) : Int) = t.rsa_key_.P := Int.toNat_of_nonneg hPpos.le
  have hQn : ((t.rsa_key_.Q.toNat : Nat) : Int) = t.rsa_key_.Q := Int.toNat_of_nonneg hQpos.le
  have hP2 := hP.two_le
  have hinv' :
      t.rsa_key_.QP * (t.rsa_key_.Q.toNat : Int) ≡ 1 [ZMOD (t.rsa_key_.P.toNat : Int)] := by
    rw [hPn, hQn]
    unfold Int.ModEq
    rw [hinv, Int.emod_eq_of_lt (by norm_num) (by omega)]
  have h := crt_recombine t.rsa_key_.P.toNat t.rsa_key_.Q.toNat hP.pos hQ.pos
    t.rsa_key_.QP y_p y_q hinv' hq0 (by rw [hQn]; exact hq1)
  simp only [hPn, hQn] at h
  obtain ⟨h1, h2, h3, h4⟩ := h
  have hne : ¬ t.rsa_key_.P ≤ 0 := by omega
  refine ⟨y_q + ((y_p - y_q) * t.rsa_key_.QP % t.rsa_key_.P) * t.rsa_key_.Q, ?_, rfl, ?_, ?_,
    h3, h4, ?_⟩
  · simp [TdpInverseImpl_mbedTLS.invert_mult_crt, mbedtls_mpi_mod_mpi, hne]
  · have := h1
    unfold Int.ModEq at this
    rw [this, Int.emod_eq_of_lt hp0 hp1]
  · have := h2
    unfold Int.ModEq at this
    rw [this, Int.emod_eq_of_lt hq0 hq1]
  · have hsz := natAbs_lt_pow_size t.rsa_key_.N
    rw [← hlen] at hsz
    have hNpos : 0 < t.rsa_key_.N := by rw [hN]; positivity
    have hNlt : t.rsa_key_.N < 256 ^ t.rsa_key_.len := by
      have : ((t.rsa_key_.N.natAbs : Nat) : Int) < ((256 ^ t.rsa_key_.len : Nat) : Int) := by
        exact_mod_cast hsz
      rw [Int.natAbs_of_nonneg hNpos.le] at this
      push_cast at this
      exact this
    have hxlt : y_q + ((y_p - y_q) * t.rsa_key_.QP % t.rsa_key_.P) * t.rsa_key_.Q
        < 256 ^ t.rsa_size := by
      rw [← hN] at h4
      exact lt_trans h4 hNlt
    refine ⟨_, write_binary_of_lt _ _ h3 hxlt, be_bytes_length _ _, ?_⟩
    exact be_value_be_bytes_of_lt _ _ h3 hxlt

/-- Instance of C24 at the example key, with `y_p = 1 < y_q = 2`. -/
theorem invert_mult_crt_correct_witness :
    ∃ x, demo_inverse.invert_mult_crt 1 2 = some x ∧
      x = 2 + ((1 - 2) * demo_inverse.rsa_key_.QP % demo_inverse.rsa_key_.P)
        * demo_inverse.rsa_key_.Q ∧
      x % demo_inverse.rsa_key_.P = 1 ∧ x % demo_inverse.rsa_key_.Q = 2 ∧
      0 ≤ x ∧ x < demo_inverse.rsa_key_.P * demo_inverse.rsa_key_.Q ∧
      ∃ bytes, mbedtls_mpi_write_binary x demo_inverse.rsa_size = some bytes ∧
        bytes.length = demo_inverse.rsa_size ∧ (be_value bytes : Int) = x :=
  invert_mult_crt_correct demo_inverse 1 2 demo_key_valid.prime_P demo_key_valid.prime_Q
    demo_key_valid.modulus demo_key_valid.length
    demo_key_valid.crt_QP (by norm_num) (by decide!) (by norm_num) (by decide!)

/-- C26: the block budget is not enforced against partial blocks. `encrypt` subtracts
`len / 16`, rounded down, so a plaintext of 1 to 15 bytes uses the key stream of one
counter block and counts for none: `n` successive encryptions of such a plaintext all
succeed and leave the object, `remaining_block_count_` included, as it was, for every
`n`, so that the blocks consumed by successful calls, `n`, exceed `2^48` from
`n = 2^48 + 1` on; and an object whose count is 0 still encrypts such a plaintext. -/
theorem encrypt_budget_undercounted (ks : List Byte → List Byte → Nat → Byte)
    (c : Cipher.CipherImpl) (P : List Byte) (n : Nat)
    (hiv : c.iv_.length = Cipher.CipherImpl.kIVSize) (hP0 : 0 < P.length)
    (hP : P.length < 16) :
    (c.encrypt_seq ks (List.replicate n (P, []))).1 = c ∧
    (c.encrypt_seq ks (List.replicate n (P, []))).2.length = n ∧
    (∀ r ∈ (c.encrypt_seq ks (List.replicate n (P, []))).2, r.1 = none) ∧
    blocks_consumed (List.replicate n (P, []))
      (c.encrypt_seq ks (List.replicate n (P, []))).2 = n ∧
    (c.remaining_block_count_ = 0 → (c.encrypt ks P []).1 = none) := by
  have he := encrypt_short_eq ks c P [] hiv hP
  have hblk : ctr_blocks P.length = 1 := by
    unfold ctr_blocks
    omega
  refine ⟨?_, ?_, ?_, ?_, fun _ => by rw [he]⟩
  · induction n with
    | zero => rfl
    | succ n ih =>
      simp only [List.replicate_succ, Cipher.CipherImpl.encrypt_seq, he]
      exact ih
  · induction n with
    | zero => rfl
    | succ n ih =>
      simp only [List.replicate_succ, Cipher.CipherImpl.encrypt_seq, he, List.length_cons]
      rw [ih]
  · induction n with
    | zero => intro r hr; simp [Cipher.CipherImpl.encrypt_seq] at hr
    | succ n ih =>
      intro r hr
      simp only [List.replicate_succ, Cipher.CipherImpl.encrypt_seq, he,
        List.mem_cons] at hr
      rcases hr with hr | hr
      · rw [hr]
      · exact ih r hr
  · induction n with
    | zero => rfl
    | succ n ih =>
      simp only [List.replicate_succ, Cipher.CipherImpl.encrypt_seq, he, blocks_consumed,
        if_true, hblk]
      rw [ih]
      omega

/-- Instance of C26 at the example cipher: `2^48 + 1` encryptions of one byte. -/
theorem encrypt_budget_undercounted_witness :
    (demo_cipher.encrypt_seq demo_keystream
      (List.replicate (2 ^ 48 + 1) (demo_plaintext, []))).1 = demo_cipher ∧
    (demo_cipher.encrypt_seq demo_keystream
      (List.replicate (2 ^ 48 + 1) (demo_plaintext, []))).2.length = 2 ^ 48 + 1 ∧
    (∀ r ∈ (demo_cipher.encrypt_seq demo_keystream
      (List.replicate (2 ^ 48 + 1) (demo_plaintext, []))).2, r.1 = none) ∧
    blocks_consumed (List.replicate (2 ^ 48 + 1) (demo_plaintext, []))
      (demo_cipher.encrypt_seq demo_keystream
        (List.replicate (2 ^ 48 + 1) (demo_plaintext, []))).2 = 2 ^ 48 + 1 ∧
    (demo_cipher.remaining_block_count_ = 0 →
      (demo_cipher.encrypt demo_keystream demo_plaintext []).1 = none) :=
  encrypt_budget_undercounted demo_keystream demo_cipher demo_plaintext (2 ^ 48 + 1)
    (by decide) (by decide) (by decide)

/-- C27: the string overload of `invert_mult` has no test on the input size. For an
input whose length differs from `Nlen` it never throws `invalid_argument`: for a shorter
input the `memcpy` of `kMessageSpaceSize` bytes reads past its end, at every order; a
longer input is silently cut to its first `kMessageSpaceSize` bytes, and returned so at
order 0. The string overloads of `eval_pool` and of `invert` throw `invalid_argument`
on the same input. -/
theorem invert_mult_string_no_size_check
    (rsa_private : mbedtls_rsa_context → List Byte → Option (List Byte))
    (kMessageSpaceSize : Nat) (t : TdpInverseImpl_mbedTLS) (inp out : List Byte) (order : Nat)
    (hk : kMessageSpaceSize = t.rsa_size) (hlen : inp.length ≠ t.rsa_size) :
    (t.invert_mult_string kMessageSpaceSize inp out order).1 ≠ some .invalid_argument ∧
    (inp.length < t.rsa_size →
      (t.invert_mult_string kMessageSpaceSize inp out order).1
        = some (.out_of_bounds ((kMessageSpaceSize - 1 : Nat) : Int))) ∧
    (t.rsa_size < inp.length →
      t.invert_mult_string kMessageSpaceSize inp out 0 = (none, inp.take kMessageSpaceSize)) ∧
    t.invert_string rsa_private inp out = (some .invalid_argument, out) ∧
    (∀ p : TdpMultPoolImpl_mbedTLS, p.rsa_size = t.rsa_size →
      p.eval_pool_string kMessageSpaceSize inp out order = (some .invalid_argument, out)) := by
  have hshort : inp.length < t.rsa_size →
      (t.invert_mult_string kMessageSpaceSize inp out order).1
        = some (.out_of_bounds ((kMessageSpaceSize - 1 : Nat) : Int)) := by
    intro h
    unfold TdpInverseImpl_mbedTLS.invert_mult_string
    rw [buf_read_short inp kMessageSpaceSize (by omega)]
  refine ⟨?_, hshort, ?_, by simp [TdpInverseImpl_mbedTLS.invert_string, hlen], ?_⟩
  · by_cases h : inp.length < t.rsa_size
    · rw [hshort h]; simp
    · have hle : kMessageSpaceSize ≤ inp.length := by omega
      unfold TdpInverseImpl_mbedTLS.invert_mult_string
      rw [buf_read_long inp kMessageSpaceSize hle]
      dsimp only
      have hl : (inp.take kMessageSpaceSize).length = t.rsa_size := by
        rw [List.length_take]; omega
      have hne := invert_mult_not_invalid_argument t (inp.take kMessageSpaceSize) order hl
      split
      · next e he =>
        intro hc
        have : e = .invalid_argument := by simpa using hc
        rw [this] at he
        exact hne he
      · simp
  · intro h
    unfold TdpInverseImpl_mbedTLS.invert_mult_string
    rw [buf_read_long inp kMessageSpaceSize (by omega)]
    simp [TdpInverseImpl_mbedTLS.invert_mult]
  · intro p hp
    have : inp.length ≠ p.rsa_size := by rw [hp]; exact hlen
    simp [TdpMultPoolImpl_mbedTLS.eval_pool_string, this]

/-- Instance of C27 at the example key and the empty input, with order 1. -/
theorem invert_mult_string_no_size_check_witness :
    (demo_inverse.invert_mult_string 256 [] [7] 1).1 ≠ some .invalid_argument ∧
    (([] : List Byte).length < demo_inverse.rsa_size →
      (demo_inverse.invert_mult_string 256 [] [7] 1).1
        = some (.out_of_bounds ((256 - 1 : Nat) : Int))) ∧
    (demo_inverse.rsa_size < ([] : List Byte).length →
      demo_inverse.invert_mult_string 256 [] [7] 0 = (none, ([] : List Byte).take 256)) ∧
    demo_inverse.invert_string mbedtls_rsa_private [] [7] = (some .invalid_argument, [7]) ∧
    (∀ p : TdpMultPoolImpl_mbedTLS, p.rsa_size = demo_inverse.rsa_size →
      p.eval_pool_string 256 [] [7] 1 = (some .invalid_argument, [7])) :=
  invert_mult_string_no_size_check mbedtls_rsa_private 256 demo_inverse [] [7] 1 rfl
    (by decide)

/-- C28: counter state of the cipher. After a successful construction, whatever the
members held before, `remaining_block_count_` is `2^48`. The pointer overload of `encrypt` throws
`runtime_error` exactly when `remaining_block_count_ < len / 16`, and then leaves the
object and the buffer `out` as they were; when it returns, `len / 16` was at most
`remaining_block_count_` and has been subtracted from it; in every case `iv_` is as
before and the count has not increased. It does return when the buffers have the sizes
it expects. -/
theorem encrypt_raw_counter (AES_set_encrypt_key : List Byte → Option (List Byte))
    (ks : List Byte → List Byte → Nat → Byte) (k : List Byte) (c : Cipher.CipherImpl)
    (inp : List Byte) (len : Nat) (out : List Byte) :
    (∀ uninit c0, Cipher.CipherImpl.ctor AES_set_encrypt_key uninit k = .ok c0 →
      c0.remaining_block_count_ = 2 ^ 48) ∧
    ((c.encrypt_raw_exit ks inp len out).1 = some .runtime_error
      ↔ c.remaining_block_count_ < len / 16) ∧
    (c.encrypt_raw ks inp len out = .error .runtime_error
      ↔ c.remaining_block_count_ < len / 16) ∧
    (c.remaining_block_count_ < len / 16 →
      c.encrypt_raw_exit ks inp len out = (some .runtime_error, c, out)) ∧
    ((c.encrypt_raw_exit ks inp len out).1 = none →
      len / 16 ≤ c.remaining_block_count_ ∧
      (c.encrypt_raw_exit ks inp len out).2.1.remaining_block_count_ + len / 16
        = c.remaining_block_count_) ∧
    (c.encrypt_raw_exit ks inp len out).2.1.iv_ = c.iv_ ∧
    (c.encrypt_raw_exit ks inp len out).2.1.remaining_block_count_
      ≤ c.remaining_block_count_ ∧
    (c.iv_.length = Cipher.CipherImpl.kIVSize → inp.length = len →
      out.length = len + Cipher.CipherImpl.kIVSize → len / 16 ≤ c.remaining_block_count_ →
      (c.encrypt_raw_exit ks inp len out).1 = none) := by
  have hframe := encrypt_raw_exit_frame ks c inp len out
  have hout := encrypt_raw_exit_outcome ks c inp len out
  have hthrow : c.remaining_block_count_ < len / 16 →
      c.encrypt_raw_exit ks inp len out = (some .runtime_error, c, out) := by
    intro h
    simp only [Cipher.CipherImpl.encrypt_raw_exit, h, if_true]
  have hiff : (c.encrypt_raw_exit ks inp len out).1 = some .runtime_error
      ↔ c.remaining_block_count_ < len / 16 := by
    constructor
    · intro h
      by_contra hb
      unfold Cipher.CipherImpl.encrypt_raw_exit at h
      rw [if_neg hb] at h
      cases h1 : buf_write out 0 c.iv_ with
      | error e =>
        rw [h1] at h
        obtain ⟨i, hi⟩ := buf_write_error _ _ _ _ h1
        subst hi
        simp at h
      | ok o1 =>
        rw [h1] at h
        dsimp only at h
        cases h2 : AES_ctr128_encrypt ks inp 0 o1 Cipher.CipherImpl.kIVSize len c.aes_enc_key_
            (List.replicate (AES_BLOCK_SIZE - Cipher.CipherImpl.kIVSize) 0 ++ c.iv_) with
        | error e =>
          rw [h2] at h
          obtain ⟨i, hi⟩ := AES_ctr128_encrypt_error _ _ _ _ _ _ _ _ _ h2
          subst hi
          simp at h
        | ok o2 =>
          rw [h2] at h
          simp at h
    · intro h
      rw [hthrow h]
  refine ⟨fun u c0 h0 => (ctor_state AES_set_encrypt_key u k c0 h0).2.1, hiff, ?_, hthrow, ?_,
    hframe.1, hframe.2.2, ?_⟩
  · rw [hout, ← hiff]
    rcases c.encrypt_raw_exit ks inp len out with ⟨_ | e, c1, o1⟩
    · simp
    · simp
  · intro h
    have hb : ¬ c.remaining_block_count_ < len / 16 := by
      intro hb
      rw [hthrow hb] at h
      simp at h
    refine ⟨by omega, ?_⟩
    unfold Cipher.CipherImpl.encrypt_raw_exit at h ⊢
    rw [if_neg hb] at h ⊢
    cases h1 : buf_write out 0 c.iv_ with
    | error e => rw [h1] at h; simp at h
    | ok o1 =>
      rw [h1] at h
      dsimp only at h ⊢
      cases h2 : AES_ctr128_encrypt ks inp 0 o1 Cipher.CipherImpl.kIVSize len c.aes_enc_key_
          (List.replicate (AES_BLOCK_SIZE - Cipher.CipherImpl.kIVSize) 0 ++ c.iv_) with
      | error e => rw [h2] at h; simp at h
      | ok o2 =>
        dsimp only
        omega
  · intro hiv hin hol hb
    subst hin
    have h := encrypt_raw_eq ks c inp out hiv hb hol
    rw [hout] at h
    rcases hx : c.encrypt_raw_exit ks inp inp.length out with ⟨_ | e, c1, o1⟩
    · rfl
    · rw [hx] at h
      simp at h

/-- Instance of C28 at the example cipher: a call of length 32 with a count of 1. -/
theorem encrypt_raw_counter_witness :
    (∀ uninit c0,
      Cipher.CipherImpl.ctor demo_AES_set_encrypt_key uninit demo_cipher_key = .ok c0 →
      c0.remaining_block_count_ = 2 ^ 48) ∧
    (({ demo_cipher with remaining_block_count_ := 1 }.encrypt_raw_exit demo_keystream
        (List.replicate 32 7) 32 (List.replicate 38 9)).1 = some .runtime_error
      ↔ ({ demo_cipher with remaining_block_count_ := 1 } : Cipher.CipherImpl
          ).remaining_block_count_ < 32 / 16) ∧
    ({ demo_cipher with remaining_block_count_ := 1 }.encrypt_raw demo_keystream
        (List.replicate 32 7) 32 (List.replicate 38 9) = .error .runtime_error
      ↔ ({ demo_cipher with remaining_block_count_ := 1 } : Cipher.CipherImpl
          ).remaining_block_count_ < 32 / 16) ∧
    (({ demo_cipher with remaining_block_count_ := 1 } : Cipher.CipherImpl
          ).remaining_block_count_ < 32 / 16 →
      { demo_cipher with remaining_block_count_ := 1 }.encrypt_raw_exit demo_keystream
        (List.replicate 32 7) 32 (List.replicate 38 9)
        = (some .runtime_error, { demo_cipher with remaining_block_count_ := 1 },
            List.replicate 38 9)) ∧
    (({ demo_cipher with remaining_block_count_ := 1 }.encrypt_raw_exit demo_keystream
        (List.replicate 32 7) 32 (List.replicate 38 9)).1 = none →
      32 / 16 ≤ ({ demo_cipher with remaining_block_count_ := 1 } : Cipher.CipherImpl
          ).remaining_block_count_ ∧
      ({ demo_cipher with remaining_block_count_ := 1 }.encrypt_raw_exit demo_keystream
        (List.replicate 32 7) 32 (List.replicate 38 9)).2.1.remaining_block_count_ + 32 / 16
        = ({ demo_cipher with remaining_block_count_ := 1 } : Cipher.CipherImpl
          ).remaining_block_count_) ∧
    ({ demo_cipher with remaining_block_count_ := 1 }.encrypt_raw_exit demo_keystream
        (List.replicate 32 7) 32 (List.replicate 38 9)).2.1.iv_
      = ({ demo_cipher with remaining_block_count_ := 1 } : Cipher.CipherImpl).iv_ ∧
    ({ demo_cipher with remaining_block_count_ := 1 }.encrypt_raw_exit demo_keystream
        (List.replicate 32 7) 32 (List.replicate 38 9)).2.1.remaining_block_count_
      ≤ ({ demo_cipher with remaining_block_count_ := 1 } : Cipher.CipherImpl
          ).remaining_block_count_ ∧
    (({ demo_cipher with remaining_block_count_ := 1 } : Cipher.CipherImpl).iv_.length
        = Cipher.CipherImpl.kIVSize → (List.replicate 32 (7 : Byte)).length = 32 →
      (List.replicate 38 (9 : Byte)).length = 32 + Cipher.CipherImpl.kIVSize →
      32 / 16 ≤ ({ demo_cipher with remaining_block_count_ := 1 } : Cipher.CipherImpl
          ).remaining_block_count_ →
      ({ demo_cipher with remaining_block_count_ := 1 }.encrypt_raw_exit demo_keystream
        (List.replicate 32 7) 32 (List.replicate 38 9)).1 = none) :=
  encrypt_raw_counter demo_AES_set_encrypt_key demo_keystream demo_cipher_key
    { demo_cipher with remaining_block_count_ := 1 } (List.replicate 32 7) 32
    (List.replicate 38 9)

/-- C29: encryption is deterministic in key and plaintext. Take two objects constructed
from the same key, whatever their members held before the constructor ran, each after
any sequence of `encrypt` calls. The constructor's `reset_iv` has set `iv_` to 6 zero
bytes and no call has changed it; when both objects encrypt the same plaintext
successfully, each ciphertext starts with 6 zero bytes and the two ciphertexts are
identical. -/
theorem encrypt_deterministic (AES_set_encrypt_key : List Byte → Option (List Byte))
    (ks : List Byte → List Byte → Nat → Byte) (k : List Byte)
    (uninit1 uninit2 c1 c2 : Cipher.CipherImpl)
    (calls1 calls2 : List (List Byte × List Byte)) (P out1 out2 : List Byte)
    (hc1 : Cipher.CipherImpl.ctor AES_set_encrypt_key uninit1 k = .ok c1)
    (hc2 : Cipher.CipherImpl.ctor AES_set_encrypt_key uninit2 k = .ok c2)
    (hs1 : ((c1.encrypt_seq ks calls1).1.encrypt ks P out1).1 = none)
    (hs2 : ((c2.encrypt_seq ks calls2).1.encrypt ks P out2).1 = none) :
    c1.iv_ = List.replicate 6 0 ∧ c2.iv_ = List.replicate 6 0 ∧
    (c1.encrypt_seq ks calls1).1.iv_ = List.replicate 6 0 ∧
    (c2.encrypt_seq ks calls2).1.iv_ = List.replicate 6 0 ∧
    ((c1.encrypt_seq ks calls1).1.encrypt ks P out1).2.1.iv_ = List.replicate 6 0 ∧
    ((c1.encrypt_seq ks calls1).1.encrypt ks P out1).2.2.take 6 = List.replicate 6 0 ∧
    ((c1.encrypt_seq ks calls1).1.encrypt ks P out1).2.2
      = ((c2.encrypt_seq ks calls2).1.encrypt ks P out2).2.2 := by
  obtain ⟨hiv0, -, hkey1⟩ := ctor_state AES_set_encrypt_key uninit1 k c1 hc1
  obtain ⟨hiv0', -, hkey2⟩ := ctor_state AES_set_encrypt_key uninit2 k c2 hc2
  have hkey : c2.aes_enc_key_ = c1.aes_enc_key_ := by
    rw [hkey1] at hkey2
    injection hkey2 with hkey2
    exact hkey2.symm
  have hf1 := encrypt_seq_frame ks calls1 c1
  have hf2 := encrypt_seq_frame ks calls2 c2
  have hiv1 : (c1.encrypt_seq ks calls1).1.iv_ = List.replicate 6 0 := hf1.1.trans hiv0
  have hiv2 : (c2.encrypt_seq ks calls2).1.iv_ = List.replicate 6 0 := hf2.1.trans hiv0'
  have hout : ∀ (c : Cipher.CipherImpl) (out : List Byte), c.iv_ = List.replicate 6 0 →
      c.aes_enc_key_ = c1.aes_enc_key_ → (c.encrypt ks P out).1 = none →
      (c.encrypt ks P out).2.2 = List.replicate 6 0 ++ ctr_xor (ks c1.aes_enc_key_
        (List.replicate (AES_BLOCK_SIZE - Cipher.CipherImpl.kIVSize) 0 ++ List.replicate 6 0))
        0 (P.take (P.length % 2 ^ 32)) := by
    intro c out hiv hkey hs
    rcases encrypt_cases ks c P out (by rw [hiv]; rfl) with h | h | h
    · rw [h.2.1] at hs; simp at hs
    · rw [h.2.2.1] at hs; simp at hs
    · rw [h.2.2, hiv, hkey]
  have ho1 := hout _ out1 hiv1 hf1.2 hs1
  have ho2 := hout _ out2 hiv2 (hf2.2.trans hkey) hs2
  refine ⟨hiv0, hiv0', hiv1, hiv2, ?_, ?_, ?_⟩
  · rw [(encrypt_frame ks _ P out1).1, hiv1]
  · rw [ho1]
    simp
  · rw [ho1, ho2]

/-- Instance of C29 at the example key, for two objects constructed over different
indeterminate contents: a fresh one, and one that has already encrypted two bytes. -/
theorem encrypt_deterministic_witness :
    demo_cipher.iv_ = List.replicate 6 0 ∧ demo_cipher.iv_ = List.replicate 6 0 ∧
    (demo_cipher.encrypt_seq demo_keystream []).1.iv_ = List.replicate 6 0 ∧
    (demo_cipher.encrypt_seq demo_keystream [([1, 2], [])]).1.iv_ = List.replicate 6 0 ∧
    ((demo_cipher.encrypt_seq demo_keystream []).1.encrypt demo_keystream demo_plaintext
      []).2.1.iv_ = List.replicate 6 0 ∧
    ((demo_cipher.encrypt_seq demo_keystream []).1.encrypt demo_keystream demo_plaintext
      []).2.2.take 6 = List.replicate 6 0 ∧
    ((demo_cipher.encrypt_seq demo_keystream []).1.encrypt demo_keystream demo_plaintext
      []).2.2
      = ((demo_cipher.encrypt_seq demo_keystream [([1, 2], [])]).1.encrypt demo_keystream
          demo_plaintext [9]).2.2 :=
  encrypt_deterministic demo_AES_set_encrypt_key demo_keystream demo_cipher_key demo_uninit
    demo_uninit_other demo_cipher demo_cipher [] [([1, 2], [])] demo_plaintext [] [9]
    (by decide!) (by decide!) (by decide!) (by decide!)

/-- C30: the string overload of `decrypt` processes the whole input, not the input less
the initialisation vector. For an input `X` of `m` bytes, `6 ≤ m < 2^32`, the output is
resized to `m - 6` bytes and the pointer overload is called with length `m`: it reads
`X` at index `m + 5`, outside the input; and were the memory after the input readable
(`pad`), it would write index `m - 1` of the output of `m - 6` bytes. -/
theorem decrypt_processes_whole_input (ks : List Byte → List Byte → Nat → Byte)
    (c : Cipher.CipherImpl) (X out pad : List Byte) (h6 : 6 ≤ X.length)
    (hlen : X.length < 2 ^ 32) (hpad : 6 ≤ pad.length) :
    (c.decrypt ks X out).2.length = X.length - 6 ∧
    (c.decrypt ks X out).1
      = (match c.decrypt_raw ks X X.length (string_resize out (X.length - 6)) with
        | .error e => some e
        | .ok _ => none) ∧
    (c.decrypt ks X out).1 = some (.out_of_bounds ((X.length + 5 : Nat) : Int)) ∧
    c.decrypt_raw ks (X ++ pad) X.length (string_resize out (X.length - 6))
      = .error (.out_of_bounds ((X.length - 1 : Nat) : Int)) := by
  have hk : Cipher.CipherImpl.kIVSize = 6 := rfl
  have h1 := decrypt_out_of_bounds ks c X out hlen
  rw [if_neg (by rw [hk]; omega)] at h1
  have h2 := decrypt_out_length ks c X out (by rw [h1]; simp)
  have hm : X.length % 2 ^ 32 = X.length := Nat.mod_eq_of_lt hlen
  have hn : (X.length + 2 ^ 32 - Cipher.CipherImpl.kIVSize) % 2 ^ 32 = X.length - 6 := by
    rw [hk]; omega
  rw [hm, hn] at h2
  refine ⟨h2, ?_, ?_, ?_⟩
  · simp only [Cipher.CipherImpl.decrypt, hm, hn]
    cases c.decrypt_raw ks X X.length (string_resize out (X.length - 6)) <;> rfl
  · have he : Cipher.CipherImpl.kIVSize + X.length - 1 = X.length + 5 := by rw [hk]; omega
    rw [h1, he]
  · have hr1 : ∃ iv, buf_read (X ++ pad) 0 Cipher.CipherImpl.kIVSize = .ok iv := by
      refine ⟨_, buf_read_long _ _ ?_⟩
      rw [List.length_append, hk]; omega
    obtain ⟨iv, hiv⟩ := hr1
    have hr2 : ∃ src, buf_read (X ++ pad) Cipher.CipherImpl.kIVSize X.length = .ok src ∧
        src.length = X.length := by
      unfold buf_read
      rw [if_neg (by omega), if_pos (by rw [List.length_append, hk]; omega)]
      refine ⟨_, rfl, ?_⟩
      rw [List.length_take, List.length_drop, List.length_append, hk]
      omega
    obtain ⟨src, hsrc, hsl⟩ := hr2
    have hw : ∀ d : List Byte, d.length = X.length →
        buf_write (string_resize out (X.length - 6)) 0 d
          = .error (.out_of_bounds ((X.length - 1 : Nat) : Int)) := by
      intro d hd
      have hd0 : ¬ d.length = 0 := by omega
      have hd1 : ¬ 0 + d.length ≤ (string_resize out (X.length - 6)).length := by
        rw [string_resize_length]; omega
      unfold buf_write
      rw [if_neg hd0, if_neg hd1, hd, Nat.zero_add]
    simp only [Cipher.CipherImpl.decrypt_raw, hiv, AES_ctr128_encrypt, hsrc,
      hw _ ((ctr_xor_length _ _ _).trans hsl)]

/-- Instance of C30 at the example cipher and an input of 6 bytes. -/
theorem decrypt_processes_whole_input_witness :
    (demo_cipher.decrypt demo_keystream [0, 0, 0, 0, 0, 0] []).2.length
      = ([0, 0, 0, 0, 0, 0] : List Byte).length - 6 ∧
    (demo_cipher.decrypt demo_keystream [0, 0, 0, 0, 0, 0] []).1
      = (match demo_cipher.decrypt_raw demo_keystream [0, 0, 0, 0, 0, 0]
          ([0, 0, 0, 0, 0, 0] : List Byte).length
          (string_resize [] (([0, 0, 0, 0, 0, 0] : List Byte).length - 6)) with
        | .error e => some e
        | .ok _ => none) ∧
    (demo_cipher.decrypt demo_keystream [0, 0, 0, 0, 0, 0] []).1
      = some (.out_of_bounds ((([0, 0, 0, 0, 0, 0] : List Byte).length + 5 : Nat) : Int)) ∧
    demo_cipher.decrypt_raw demo_keystream ([0, 0, 0, 0, 0, 0] ++ [1, 1, 1, 1, 1, 1])
        ([0, 0, 0, 0, 0, 0] : List Byte).length
        (string_resize [] (([0, 0, 0, 0, 0, 0] : List Byte).length - 6))
      = .error (.out_of_bounds ((([0, 0, 0, 0, 0, 0] : List Byte).length - 1 : Nat) : Int)) :=
  decrypt_processes_whole_input demo_keystream demo_cipher [0, 0, 0, 0, 0, 0] []
    [1, 1, 1, 1, 1, 1] (by decide) (by norm_num) (by decide)

/-! ## Property of the length functions of the cipher -/

/-- C31: `plaintext_length` is a left inverse of `ciphertext_length`. For every `n` with
`n + 32 < 2^64`, `plaintext_length (ciphertext_length n) = n`; and for every `size_t`
value `m ≥ 32`, `ciphertext_length (plaintext_length m) = m`. -/
theorem plaintext_length_ciphertext_length (n m : Nat) (hn : n + 32 < 2 ^ 64)
    (hm : 32 ≤ m) (hm64 : m < 2 ^ 64) :
    Cipher.plaintext_length (Cipher.ciphertext_length n) = n ∧
    Cipher.ciphertext_length (Cipher.plaintext_length m) = m := by
  unfold Cipher.plaintext_length Cipher.ciphertext_length Cipher.kCiphertextExpansion
  constructor
  · rw [Nat.mod_eq_of_lt hn]
    by_cases h0 : n = 0
    · subst h0
      rfl
    · rw [if_pos (by omega)]
      omega
  · by_cases h32 : m = 32
    · subst h32
      rfl
    · rw [if_pos (by omega), Nat.mod_eq_of_lt (by omega)]
      omega

/-- Instance of C31 at the two boundary values `n = 0` and `m = 32`. -/
theorem plaintext_length_ciphertext_length_witness :
    Cipher.plaintext_length (Cipher.ciphertext_length 0) = 0 ∧
    Cipher.ciphertext_length (Cipher.plaintext_length 32) = 32 :=
  plaintext_length_ciphertext_length 0 32 (by norm_num) (by norm_num) (by norm_num)

end sse.crypto
